import Mathlib

/-!
Flashcards: a shallow embedding of `main.go`

The program is an interactive flashcard trainer.  Its whole state is one
slice of cards, the process-wide log buffer `history`, the console, the
standard input still to be read and the files it can import from or export
to.  Every Go function of `main.go` is embedded below as a function on that
state; functions that can stop the process (`log.Fatal`), panic (index out of
range, integer division by zero) or loop forever return in `Except Fault`.

Conventions
* Go `string` is a sequence of bytes, of any values: standard input delivers
  raw bytes.  It is the `String` that has one `Char` per byte, the byte being
  the code point of the `Char` (below 256), so ASCII text is written as
  itself and string comparison is equality.  A `Char` above 255 stands for no
  byte; the library functions treat it as a byte that starts no well-formed
  UTF-8 encoding.
* Go `int` is taken to be 64 bits wide (as on every 64-bit platform): it is
  an `Int` that arithmetic wraps into `[-2^63, 2^63)`.
* A slice is a `List`; the program never keeps two references to one backing
  array, so no aliasing is lost.
* Standard input is the list of the lines still to be read, without their
  line terminator; once it is exhausted every read hits end of file.
-/

namespace Flashcards

/-! ## Machine integers -/

/-- Smallest value of a Go `int` (64 bits). -/
def minInt : Int := -9223372036854775808

/-- Largest value of a Go `int` (64 bits). -/
def maxInt : Int := 9223372036854775807

/-- Whether an integer is a value of Go's `int`. -/
def isGoInt (x : Int) : Prop := minInt ≤ x ∧ x ≤ maxInt

instance (x : Int) : Decidable (isGoInt x) := by
  unfold isGoInt; exact inferInstance

/-- Two's-complement wrap-around of an integer into the range of Go's `int`:
the result of a Go `int` operation whose exact result is `x`. -/
def wrapInt (x : Int) : Int := (x + 9223372036854775808) % 18446744073709551616 - 9223372036854775808

/-! ## Data model (`main.go` lines 14-24) -/

/-- The Go struct `Flashcard`. -/
structure Flashcard where
  Term : String
  Definition : String
  Mistakes : Int
  deriving DecidableEq, Repr

/-- How a run of the program can fail to return. -/
inductive Fault where
  /-- The call `log.Fatal`: the process exits with status 1. -/
  | fatal
  /-- A run-time panic: index out of range or integer division by zero. -/
  | panic
  /-- The loop never ends (it re-prompts on every end-of-file read). -/
  | diverges
  deriving DecidableEq, Repr

/-- What a file holds, as far as the program can tell: the card list that
`json.Unmarshal` decodes from it, or text that does not decode. -/
inductive FileData where
  | cardList (cards : List Flashcard)
  | text (content : String)
  deriving DecidableEq, Repr

/-- The state of the process: the field `cards` of the one `Deck`, the global
`history`, what has been printed to the console, the lines of standard input
not yet read, the files that can be read, and the paths that cannot be
written. -/
structure State where
  cards : List Flashcard
  history : String
  stdout : String
  input : List String
  files : String → Option FileData
  readOnly : String → Bool

/-- The state in which `main` starts: `deck := Deck{}` and an empty log. -/
def initial (input : List String) (files : String → Option FileData)
    (readOnly : String → Bool) : State :=
  { cards := [], history := "", stdout := "", input := input, files := files,
    readOnly := readOnly }

/-! ## Library functions the program calls -/

/-- Go's `utf8.RuneError`, the code point U+FFFD. -/
def RuneError : Nat := 0xFFFD

/-- Go's `utf8.DecodeRuneInString`: the code point that the bytes start with
and the number of bytes of its encoding; `(RuneError, 0)` on no bytes and
`(RuneError, 1)` when the first byte starts no well-formed UTF-8 encoding
(a stray continuation byte, an overlong form, a surrogate, a value above
U+10FFFF, or too few continuation bytes). -/
def decodeRune (cs : List Char) : Nat × Nat :=
  match cs.map Char.toNat with
  | [] => (RuneError, 0)
  | s0 :: rest =>
    if s0 < 0x80 then (s0, 1)
    else if s0 < 0xC2 then (RuneError, 1)
    else if s0 < 0xE0 then
      match rest with
      | s1 :: _ =>
        if 0x80 ≤ s1 ∧ s1 ≤ 0xBF then (s0 % 32 * 64 + s1 % 64, 2) else (RuneError, 1)
      | [] => (RuneError, 1)
    else if s0 < 0xF0 then
      match rest with
      | s1 :: s2 :: _ =>
        if (if s0 = 0xE0 then 0xA0 else 0x80) ≤ s1 ∧ s1 ≤ (if s0 = 0xED then 0x9F else 0xBF) ∧
            0x80 ≤ s2 ∧ s2 ≤ 0xBF then
          (s0 % 16 * 4096 + s1 % 64 * 64 + s2 % 64, 3)
        else (RuneError, 1)
      | _ => (RuneError, 1)
    else if s0 < 0xF5 then
      match rest with
      | s1 :: s2 :: s3 :: _ =>
        if (if s0 = 0xF0 then 0x90 else 0x80) ≤ s1 ∧ s1 ≤ (if s0 = 0xF4 then 0x8F else 0xBF) ∧
            0x80 ≤ s2 ∧ s2 ≤ 0xBF ∧ 0x80 ≤ s3 ∧ s3 ≤ 0xBF then
          (s0 % 8 * 262144 + s1 % 64 * 4096 + s2 % 64 * 64 + s3 % 64, 4)
        else (RuneError, 1)
      | _ => (RuneError, 1)
    else (RuneError, 1)

/-- Go's `unicode.IsSpace`: the code points with the White_Space property. -/
def isSpace (r : Nat) : Bool :=
  (9 ≤ r && r ≤ 13) || r = 32 || r = 0x85 || r = 0xA0 || r = 0x1680 ||
  (0x2000 ≤ r && r ≤ 0x200A) || r = 0x2028 || r = 0x2029 || r = 0x202F ||
  r = 0x205F || r = 0x3000

/-- The number of bytes of the white-space code point that the bytes start
with, and 0 when they start with none; it is at most 3. -/
def spaceWidth (cs : List Char) : Nat :=
  if isSpace (decodeRune cs).1 then (decodeRune cs).2 else 0

/-- Go's `strings.TrimLeftFunc` with `unicode.IsSpace`: drop the white-space
code points the bytes start with. -/
def trimLeft : List Char → List Char
  | [] => []
  | c0 :: rest =>
    match spaceWidth (c0 :: rest), rest with
    | 1, rest1 => trimLeft rest1
    | 2, _ :: rest2 => trimLeft rest2
    | 3, _ :: _ :: rest3 => trimLeft rest3
    | _, _ => c0 :: rest

/-- Go's `strings.TrimRightFunc` with `unicode.IsSpace`, on the bytes in
reverse order, last byte first: drop the white-space code points the string
ends with.  `utf8.DecodeLastRuneInString` finds a code point at the end
exactly when the last one, two, three or four bytes are its encoding. -/
def trimRightReversed : List Char → List Char
  | [] => []
  | c0 :: rest =>
    if spaceWidth [c0] = 1 then trimRightReversed rest
    else
      match rest with
      | [] => c0 :: rest
      | c1 :: rest1 =>
        if spaceWidth [c1, c0] = 2 then trimRightReversed rest1
        else
          match rest1 with
          | [] => c0 :: rest
          | c2 :: rest2 =>
            if spaceWidth [c2, c1, c0] = 3 then trimRightReversed rest2 else c0 :: rest

/-- Go's `strings.TrimSpace`: drop the leading, then the trailing white space.
A byte outside every well-formed encoding decodes as U+FFFD, which is not
white space, and so stays. -/
def trimSpace (s : String) : String :=
  String.mk (trimRightReversed (trimLeft s.data).reverse).reverse

/-- What `json.Unmarshal` reads back from the text that `json.Marshal` writes
for a Go string, with `skip` bytes of a well-formed encoding still to copy:
`Marshal` writes every well-formed encoding so that it is read back as it was
(as itself or as an escape), and writes each byte that starts no well-formed
encoding as the escape of U+FFFD, which is read back as the three bytes
`EF BF BD`. -/
def jsonChars : Nat → List Char → List Char
  | _, [] => []
  | skip + 1, c :: rest => c :: jsonChars skip rest
  | 0, c :: rest =>
    if decodeRune (c :: rest) = (RuneError, 1) then
      Char.ofNat 0xEF :: Char.ofNat 0xBF :: Char.ofNat 0xBD :: jsonChars 0 rest
    else c :: jsonChars ((decodeRune (c :: rest)).2 - 1) rest

/-- A Go string after `json.Marshal` and `json.Unmarshal`. -/
def jsonString (s : String) : String := String.mk (jsonChars 0 s.data)

/-- An operand of a formatting call: the program passes strings and ints. -/
inductive Param where
  | str (s : String)
  | int (n : Int)
  deriving DecidableEq, Repr

/-- Decimal rendering of an integer, as the verb `%d` prints it. -/
def formatInt (n : Int) : List Char :=
  if n < 0 then '-' :: (Nat.toDigits 10 n.natAbs) else Nat.toDigits 10 n.natAbs

/-- Go's `fmt.Sprintf` on the verbs the program uses: `%s` with a string
operand and `%d` with an int operand are replaced by the operand, which is
inserted as it is and not scanned again; every other character is copied.
Every format string of the program is a literal whose verbs match its
operands, so the error texts Go prints for a mismatch never arise. -/
def sprintfChars : List Char → List Param → List Char
  | [], _ => []
  | '%' :: 's' :: rest, Param.str v :: ps => v.data ++ sprintfChars rest ps
  | '%' :: 'd' :: rest, Param.int n :: ps => formatInt n ++ sprintfChars rest ps
  | c :: rest, ps => c :: sprintfChars rest ps

/-- Go's `fmt.Sprintf`. -/
def sprintf (format : String) (ps : List Param) : String :=
  String.mk (sprintfChars format.data ps)

/-- Go's `strconv.Atoi`: an optional sign, then one or more decimal digits,
denoting a value of `int`; anything else is an error. -/
def atoi (s : String) : Option Int :=
  let body : Bool × List Char :=
    match s.data with
    | '-' :: r => (true, r)
    | '+' :: r => (false, r)
    | r => (false, r)
  if body.2.isEmpty || !(body.2.all Char.isDigit) then none
  else
    let n : Nat := body.2.foldl (fun a c => a * 10 + (c.toNat - 48)) 0
    let v : Int := if body.1 then -(n : Int) else (n : Int)
    if minInt ≤ v ∧ v ≤ maxInt then some v else none

/-- Go's `strings.Join`. -/
def join (sep : String) : List String → String
  | [] => ""
  | [a] => a
  | a :: b :: rest => a ++ sep ++ join sep (b :: rest)

/-! ## Console and log (`main.go` lines 90-107) -/

/-- The function `printLog`: format `message` followed by a newline, append
the text to `history` and print it to the console. -/
def printLog (s : State) (message : String) (parameters : List Param) : State :=
  let text := sprintf (message ++ "\n") parameters
  { s with history := s.history ++ text, stdout := s.stdout ++ text }

/-- The function `readLine`: read up to the next newline (at end of file the
read returns nothing and the error is dropped) and trim the white space. -/
def readLine (s : State) : String × State :=
  match s.input with
  | [] => ("", s)
  | line :: rest => (trimSpace line, { s with input := rest })

/-- The function `readAction`. -/
def readAction (s : State) : String × State :=
  readLine (printLog s
    "Input the action (add, remove, import, export, ask, exit, log, hardest card, reset stats):" [])

/-- The function `readFilename`. -/
def readFilename (s : State) : String × State :=
  readLine (printLog s "File name:" [])

/-- The function `readNumber`: a line that is not an `int` is fatal. -/
def readNumber (s : State) : Except Fault (Int × State) :=
  let r := readLine s
  match atoi r.1 with
  | none => Except.error Fault.fatal
  | some number => Except.ok (number, r.2)

/-! ## The card store (`main.go` lines 109-188) -/

/-- The loop of `Deck.Contains` from position `i` on. -/
def ContainsFrom (text : String) (definition : Bool) : List Flashcard → Int → Bool × Int
  | [], _ => (false, -1)
  | card :: rest, i =>
    if definition && card.Definition == text then (true, i)
    else if !definition && card.Term == text then (true, i)
    else ContainsFrom text definition rest (i + 1)

/-- The method `Deck.Contains`. -/
def Contains (cards : List Flashcard) (text : String) (definition : Bool) : Bool × Int :=
  ContainsFrom text definition cards 0

/-- The slice read `cards[index]`; it panics outside `0 ≤ index < len(cards)`. -/
def cardAt (cards : List Flashcard) (index : Int) : Except Fault Flashcard :=
  if index < 0 then Except.error Fault.panic
  else
    match cards[index.toNat]? with
    | none => Except.error Fault.panic
    | some card => Except.ok card

/-- The slice write `cards[index] = card`; it panics outside the bounds. -/
def setCardAt (cards : List Flashcard) (index : Int) (card : Flashcard) :
    Except Fault (List Flashcard) :=
  if index < 0 then Except.error Fault.panic
  else if index.toNat < cards.length then Except.ok (cards.set index.toNat card)
  else Except.error Fault.panic

/-- The slice expression `cards[:high]`; it panics outside `0 ≤ high ≤ len(cards)`
(the program only ever slices below the length). -/
def sliceTo (cards : List Flashcard) (high : Int) : Except Fault (List Flashcard) :=
  if high < 0 then Except.error Fault.panic
  else if high.toNat ≤ cards.length then Except.ok (cards.take high.toNat)
  else Except.error Fault.panic

/-- The loop of `Deck.ReadSide`.  The first argument is the input still
pending, on which the loop recurses; `ReadSide` passes `s.input`.  Once the
input is exhausted every read returns the empty text, so the loop returns it
if the store does not hold it and never ends otherwise. -/
def ReadSideLoop (definition : Bool) : List String → State → Except Fault (String × State)
  | [], s =>
    let r := readLine s
    if (Contains r.2.cards r.1 definition).1 then Except.error Fault.diverges
    else Except.ok r
  | _ :: pending, s =>
    let r := readLine s
    if (Contains r.2.cards r.1 definition).1 then
      ReadSideLoop definition pending
        (printLog r.2 "The %s \"%s\" already exists. Try again:"
          [Param.str (if definition then "definition" else "card"), Param.str r.1])
    else Except.ok r

/-- The method `Deck.ReadSide`. -/
def ReadSide (s : State) (definition : Bool) : Except Fault (String × State) :=
  let s1 := if definition then printLog s "The definition of the card:" []
            else printLog s "The card:" []
  ReadSideLoop definition s1.input s1

/-- The method `Deck.ReadCard`; the named result starts as the zero value, so
the new card has no mistakes. -/
def ReadCard (s : State) : Except Fault (Flashcard × State) :=
  match ReadSide s false with
  | Except.error e => Except.error e
  | Except.ok (term, s1) =>
    match ReadSide s1 true with
    | Except.error e => Except.error e
    | Except.ok (definition, s2) =>
      Except.ok ({ Term := term, Definition := definition, Mistakes := 0 }, s2)

/-- The method `Deck.Add`. -/
def Add (s : State) : Except Fault State :=
  match ReadCard s with
  | Except.error e => Except.error e
  | Except.ok (card, s1) =>
    Except.ok (printLog { s1 with cards := s1.cards ++ [card] }
      "The pair (\"%s\":\"%s\") has been added." [Param.str card.Term, Param.str card.Definition])

/-- The method `Deck.Remove`. -/
def Remove (s : State) : Except Fault State :=
  let r := readLine (printLog s "Which card?" [])
  let found := Contains r.2.cards r.1 false
  if !found.1 then
    Except.ok (printLog r.2 "Can't remove \"%s\": there is no such card." [Param.str r.1])
  else
    match cardAt r.2.cards ((r.2.cards.length : Int) - 1) with
    | Except.error e => Except.error e
    | Except.ok last =>
      match setCardAt r.2.cards found.2 last with
      | Except.error e => Except.error e
      | Except.ok cards =>
        match sliceTo cards ((cards.length : Int) - 1) with
        | Except.error e => Except.error e
        | Except.ok cards1 =>
          Except.ok (printLog { r.2 with cards := cards1 } "The card has been removed." [])

/-- The method `Deck.Update`, on the cards of the deck. -/
def Update (cards : List Flashcard) : List Flashcard → Except Fault (List Flashcard)
  | [] => Except.ok cards
  | card :: rest =>
    let found := Contains cards card.Term false
    if !found.1 then Update (cards ++ [card]) rest
    else
      match cardAt cards found.2 with
      | Except.error e => Except.error e
      | Except.ok old =>
        match setCardAt cards found.2
            { old with Definition := card.Definition, Mistakes := card.Mistakes } with
        | Except.error e => Except.error e
        | Except.ok cards1 => Update cards1 rest

/-- The method `Deck.ImportFile`: a file that cannot be read is reported, a
file that does not decode as a card list is fatal. -/
def ImportFile (s : State) (filename : String) : Except Fault State :=
  match s.files filename with
  | none => Except.ok (printLog s "File not found." [])
  | some (FileData.text _) => Except.error Fault.fatal
  | some (FileData.cardList cardsFromFile) =>
    let s1 := printLog s "%d cards have been loaded." [Param.int cardsFromFile.length]
    match Update s1.cards cardsFromFile with
    | Except.error e => Except.error e
    | Except.ok cards => Except.ok { s1 with cards := cards }

/-- A card after `json.Marshal` and `json.Unmarshal`: the strings come back
as `jsonString` has them, the `int` comes back as it was. -/
def jsonCard (card : Flashcard) : Flashcard :=
  { card with Term := jsonString card.Term, Definition := jsonString card.Definition }

/-- The method `Deck.ExportFile`: the file then holds the encoding of the
whole card list, which decodes to the cards as `jsonCard` has them, in store
order; a failed write is fatal. -/
def ExportFile (s : State) (filename : String) : Except Fault State :=
  if s.readOnly filename then Except.error Fault.fatal
  else
    Except.ok (printLog
      { s with files := fun f => if f = filename then
                                   some (FileData.cardList (s.cards.map jsonCard))
                                 else s.files f }
      "%d cards have been saved." [Param.int s.cards.length])

/-- The method `Deck.Import`. -/
def Import (s : State) : Except Fault State :=
  let r := readFilename s
  ImportFile r.2 r.1

/-- The method `Deck.Export`. -/
def Export (s : State) : Except Fault State :=
  let r := readFilename s
  ExportFile r.2 r.1

/-! ## The quiz (`main.go` lines 190-225) -/

/-- The method `Deck.TestCard`. -/
def TestCard (s : State) (index : Int) : Except Fault State :=
  match cardAt s.cards index with
  | Except.error e => Except.error e
  | Except.ok card =>
    let r := readLine (printLog s "Print the definition of \"%s\":" [Param.str card.Term])
    if r.1 = card.Definition then Except.ok (printLog r.2 "Correct!" [])
    else
      match setCardAt r.2.cards index { card with Mistakes := wrapInt (card.Mistakes + 1) } with
      | Except.error e => Except.error e
      | Except.ok cards =>
        let s2 : State := { r.2 with cards := cards }
        let found := Contains s2.cards r.1 true
        if found.1 then
          match cardAt s2.cards found.2 with
          | Except.error e => Except.error e
          | Except.ok other =>
            Except.ok (printLog s2
              "Wrong. The right answer is \"%s\", but your definition is correct for \"%s\"."
              [Param.str card.Definition, Param.str other.Term])
        else
          Except.ok (printLog s2 "Wrong. The right answer is \"%s\".\n"
            [Param.str card.Definition])

/-- The loop of `Deck.Ask` with `rounds` iterations left, at counter `i`
(the loop runs while `i < number`, so `rounds = number - i`).  The remainder
`i % len(deck.cards)` panics when the deck is empty. -/
def AskLoop : Nat → Int → State → Except Fault State
  | 0, _, s => Except.ok s
  | rounds + 1, i, s =>
    if s.cards.length = 0 then Except.error Fault.panic
    else
      match TestCard s (Int.tmod i (s.cards.length : Int)) with
      | Except.error e => Except.error e
      | Except.ok s1 => AskLoop rounds (i + 1) s1

/-- The method `Deck.Ask`. -/
def Ask (s : State) : Except Fault State :=
  let s1 := if s.cards.length = 0 then printLog s "There are no cards available in memory" []
            else s
  match readNumber (printLog s1 "How many times to ask?" []) with
  | Except.error e => Except.error e
  | Except.ok (number, s2) => AskLoop number.toNat 0 s2

/-! ## Log, statistics and the command loop (`main.go` lines 26-62, 227-308) -/

/-- The function `Log`: the file then holds the text of `history`. -/
def Log (s : State) : Except Fault State :=
  let r := readFilename s
  if r.2.readOnly r.1 then Except.error Fault.fatal
  else
    Except.ok (printLog
      { r.2 with files := fun f => if f = r.1 then some (FileData.text r.2.history)
                                   else r.2.files f }
      "The log has been saved." [])

/-- The first loop of `Deck.Hardest`: the running `maximum`, which starts at 0. -/
def maximumMistakes (cards : List Flashcard) : Int :=
  cards.foldl (fun maximum card => if card.Mistakes > maximum then card.Mistakes else maximum) 0

/-- The second loop of `Deck.Hardest`: the cards whose count is the maximum. -/
def hardestCards (cards : List Flashcard) : List Flashcard :=
  cards.filter (fun card => card.Mistakes == maximumMistakes cards)

/-- The closure `quotes` of `Deck.Hardest`. -/
def quotes (word : String) : String := "\"" ++ word ++ "\""

/-- The value `hardestTerms` of `Deck.Hardest`, for a list of cards. -/
def hardestTerms (cards : List Flashcard) : String :=
  join ", " ((cards.map (fun card => card.Term)).map quotes)

/-- The method `Deck.Hardest`. -/
def Hardest (s : State) : State :=
  if maximumMistakes s.cards = 0 then printLog s "There are no cards with errors." []
  else
    let plural : Bool := decide ((hardestCards s.cards).length > 1)
    printLog s "The hardest card%s %s. You have %d errors answering %s."
      [Param.str (if plural then "s are" else " is"),
       Param.str (hardestTerms (hardestCards s.cards)),
       Param.int (maximumMistakes s.cards),
       Param.str (if plural then "them" else "it")]

/-- The method `Deck.Reset`: the loop sets the count of every card to zero. -/
def Reset (s : State) : State :=
  printLog { s with cards := s.cards.map (fun card => { card with Mistakes := 0 }) }
    "Card statistics have been reset." []

/-- The body of the `switch` of `main` for an action other than `exit`; an
action that is no command is ignored. -/
def command (action : String) (s : State) : Except Fault State :=
  if action = "add" then Add s
  else if action = "remove" then Remove s
  else if action = "import" then Import s
  else if action = "export" then Export s
  else if action = "ask" then Ask s
  else if action = "log" then Log s
  else if action = "hardest card" then Except.ok (Hardest s)
  else if action = "reset stats" then Except.ok (Reset s)
  else Except.ok s

/-- The case `exit` of `main`: export when the flag `export_to` is set, then
print the farewell with `fmt.Println`, to the console only. -/
def exit (exportFile : String) (s : State) : Except Fault State :=
  match (if exportFile.length > 0 then ExportFile s exportFile else Except.ok s) with
  | Except.error e => Except.error e
  | Except.ok s1 => Except.ok { s1 with stdout := s1.stdout ++ "Bye bye!\n" }

/-- The `for` loop of `main`.  Every iteration reads at least the action line,
so `fuel` above the number of pending lines is never used up; once the input
is exhausted every action read is empty and the loop never ends. -/
def mainLoop (exportFile : String) : Nat → State → Except Fault State
  | 0, _ => Except.error Fault.diverges
  | fuel + 1, s =>
    if s.input.isEmpty then Except.error Fault.diverges
    else
      let r := readAction s
      if r.1 = "exit" then exit exportFile r.2
      else
        match command r.1 r.2 with
        | Except.error e => Except.error e
        | Except.ok s1 => mainLoop exportFile fuel s1

/-- The function `main`, given the values of the flags `import_from` and
`export_to`, the standard input and the file system. -/
def main (importFile exportFile : String) (input : List String)
    (files : String → Option FileData) (readOnly : String → Bool) : Except Fault State :=
  match (if importFile.length > 0 then ImportFile (initial input files readOnly) importFile
         else Except.ok (initial input files readOnly)) with
  | Except.error e => Except.error e
  | Except.ok s => mainLoop exportFile (s.input.length + 1) s

/-! ## Specification vocabulary -/

/-- The field of a card that `Contains` compares: the definition when the
flag is set, the term otherwise. -/
def side (definition : Bool) (card : Flashcard) : String :=
  if definition then card.Definition else card.Term

/-- The terms of the cards, in store order. -/
def terms (cards : List Flashcard) : List String := cards.map (fun card => card.Term)

/-- The definitions of the cards, in store order. -/
def definitions (cards : List Flashcard) : List String :=
  cards.map (fun card => card.Definition)

/-- A sequence of `n` add commands, one after the other. -/
def addMany : Nat → State → Except Fault State
  | 0, s => Except.ok s
  | n + 1, s =>
    match Add s with
    | Except.error e => Except.error e
    | Except.ok s1 => addMany n s1

/-- What one iteration of the loop of `Update` makes of the store: the
imported card takes the slot of the first card with its term, or the end of
the store when no card has its term. -/
def upsert (cards : List Flashcard) (card : Flashcard) : List Flashcard :=
  if (Contains cards card.Term false).1 then cards.set (Contains cards card.Term false).2.toNat card
  else cards ++ [card]

/-- The cards of a store that have the term `t`. -/
def withTerm (t : String) (cards : List Flashcard) : List Flashcard :=
  cards.filter (fun card => decide (card.Term = t))

/-- The step from `s` to `s1` printed exactly `text`, on the console and in
the log. -/
def reports (s s1 : State) (text : String) : Prop :=
  s1.stdout = s.stdout ++ text ∧ s1.history = s.history ++ text

/-- The prompt of a quiz round for a card with term `t`, as printed. -/
def roundPrompt (t : String) : String := "Print the definition of \"" ++ t ++ "\":\n"

/-- The decimal text of an integer. -/
def decimal (n : Int) : String := String.mk (formatInt n)

/-- The cards of a store whose mistake count is `m`, in store order. -/
def withMistakes (m : Int) (cards : List Flashcard) : List Flashcard :=
  cards.filter (fun card => decide (card.Mistakes = m))

/-- The text of the hardest-card sentence with the list `listed` of quoted
terms and the count `m`, in its plural or its singular form. -/
def hardestSentence (plural : Bool) (listed : String) (m : Int) : String :=
  "The hardest card" ++ (if plural then "s are" else " is") ++ " " ++ listed ++
    ". You have " ++ decimal m ++ " errors answering " ++ (if plural then "them" else "it") ++
    ".\n"

/-- The text `text` names the card: it holds the term of the card in double
quotes. -/
def names (text : String) (card : Flashcard) : Prop :=
  ∃ before after : String, text = before ++ "\"" ++ card.Term ++ "\"" ++ after

/-- The states the program can reach from the empty store: by its commands
(`add`, `remove`, `import`, `export`, `ask`, `log`, `hardest card`,
`reset stats`), by the import of the start-up flag, by `Update` with any
imported card list, whatever the user types and whatever the files hold.
With `withImport = false` the steps that import cards are left out. -/
inductive Reachable (withImport : Bool) : State → Prop
  | start (input : List String) (files : String → Option FileData)
      (readOnly : String → Bool) : Reachable withImport (initial input files readOnly)
  | environment {s : State} (input : List String) (files : String → Option FileData)
      (readOnly : String → Bool) : Reachable withImport s →
      Reachable withImport { s with input := input, files := files, readOnly := readOnly }
  | add {s s1 : State} : Reachable withImport s → Add s = Except.ok s1 →
      Reachable withImport s1
  | remove {s s1 : State} : Reachable withImport s → Remove s = Except.ok s1 →
      Reachable withImport s1
  | importCommand {s s1 : State} : withImport = true → Reachable withImport s →
      Import s = Except.ok s1 → Reachable withImport s1
  | importFile {s s1 : State} (filename : String) : withImport = true →
      Reachable withImport s → ImportFile s filename = Except.ok s1 → Reachable withImport s1
  | update {s : State} (newCards cards1 : List Flashcard) : withImport = true →
      Reachable withImport s → Update s.cards newCards = Except.ok cards1 →
      Reachable withImport { s with cards := cards1 }
  | ask {s s1 : State} : Reachable withImport s → Ask s = Except.ok s1 →
      Reachable withImport s1
  | reset {s : State} : Reachable withImport s → Reachable withImport (Reset s)
  | hardest {s : State} : Reachable withImport s → Reachable withImport (Hardest s)
  | exportCommand {s s1 : State} : Reachable withImport s → Export s = Except.ok s1 →
      Reachable withImport s1
  | log {s s1 : State} : Reachable withImport s → Log s = Except.ok s1 →
      Reachable withImport s1

/-- The state in which `Ask` reads the number of rounds: after the warning
for an empty store and the prompt. -/
def askPrompted (s : State) : State :=
  printLog (if s.cards.length = 0 then printLog s "There are no cards available in memory" []
            else s) "How many times to ask?" []

/-- The quiz as the specification words it: one round per listed round
number, in order, round `i` on the card at index `i mod size`. -/
def quizRounds (size : Nat) : List Nat → State → Except Fault State
  | [], s => Except.ok s
  | i :: later, s =>
    match TestCard s ((i % size : Nat) : Int) with
    | Except.error e => Except.error e
    | Except.ok s1 => quizRounds size later s1

/-- The console and the log hold the same text. -/
def synced (s : State) : Prop := s.stdout = s.history

/-- The answer read in round `i` of a quiz that starts with `input` pending:
line `i`, trimmed, or the empty text once the input is exhausted. -/
def answerAt (input : List String) (i : Nat) : String :=
  match input[i]? with
  | some line => trimSpace line
  | none => ""

/-- The number of rounds `i < rounds` on the card at index `j` (that is, with
`i mod size = j`) whose answer differs from `definition`. -/
def wrongRounds (size : Nat) (definition : String) (input : List String) (j rounds : Nat) :
    Nat :=
  (List.range rounds).countP
    (fun i => decide (i % size = j) && decide (answerAt input i ≠ definition))

/-- The number of rounds `i < rounds` whose answer differs from the definition
of the card at index `i mod size`, the card the round is on. -/
def wrongAnswers (cards : List Flashcard) (input : List String) (rounds : Nat) : Nat :=
  (List.range rounds).countP
    (fun i => decide ((definitions cards)[i % cards.length]? ≠ some (answerAt input i)))

/-- The sum of the mistake counts of the store. -/
def totalMistakes (cards : List Flashcard) : Int :=
  (cards.map (fun card => card.Mistakes)).sum

/-- The mistake count after `n` executions of `Mistakes++` from `m`. -/
def increments : Nat → Int → Int
  | 0, m => m
  | n + 1, m => increments n (wrapInt (m + 1))

/-- Every mistake count of the store lies between zero and `b`. -/
def countsWithin (b : Int) (cards : List Flashcard) : Prop :=
  ∀ c ∈ cards, 0 ≤ c.Mistakes ∧ c.Mistakes ≤ b

/-- The states the program can reach from the empty store by its commands, by
the import of the start-up flag and by `Update` with an imported card list,
whatever the user types and whatever the files hold, as long as the mistake
counts of every imported card list lie between zero and some `m`.  The index
is the bound the run keeps on the mistake counts: zero at the start, raised to
the larger of itself and `m` by such an import, and raised by the number of
rounds by every `ask`. -/
inductive ReachableBounded : Int → State → Prop
  | start (input : List String) (files : String → Option FileData)
      (readOnly : String → Bool) : ReachableBounded 0 (initial input files readOnly)
  | environment {b : Int} {s : State} (input : List String)
      (files : String → Option FileData) (readOnly : String → Bool) :
      ReachableBounded b s →
      ReachableBounded b { s with input := input, files := files, readOnly := readOnly }
  | add {b : Int} {s s1 : State} : ReachableBounded b s → Add s = Except.ok s1 →
      ReachableBounded b s1
  | remove {b : Int} {s s1 : State} : ReachableBounded b s → Remove s = Except.ok s1 →
      ReachableBounded b s1
  | importCommand {b : Int} {s s1 : State} (m : Int) : ReachableBounded b s →
      (∀ l : List Flashcard, s.files (readFilename s).1 = some (FileData.cardList l) →
        countsWithin m l) →
      Import s = Except.ok s1 → ReachableBounded (max b m) s1
  | importFile {b : Int} {s s1 : State} (filename : String) (m : Int) :
      ReachableBounded b s →
      (∀ l : List Flashcard, s.files filename = some (FileData.cardList l) →
        countsWithin m l) →
      ImportFile s filename = Except.ok s1 → ReachableBounded (max b m) s1
  | update {b : Int} {s : State} (newCards cards1 : List Flashcard) (m : Int) :
      ReachableBounded b s → countsWithin m newCards →
      Update s.cards newCards = Except.ok cards1 →
      ReachableBounded (max b m) { s with cards := cards1 }
  | ask {b : Int} {s s1 s2 : State} (number : Int) : ReachableBounded b s →
      readNumber (askPrompted s) = Except.ok (number, s2) → Ask s = Except.ok s1 →
      ReachableBounded (b + (number.toNat : Int)) s1
  | reset {b : Int} {s : State} : ReachableBounded b s → ReachableBounded b (Reset s)
  | hardest {b : Int} {s : State} : ReachableBounded b s → ReachableBounded b (Hardest s)
  | exportCommand {b : Int} {s s1 : State} : ReachableBounded b s →
      Export s = Except.ok s1 → ReachableBounded b s1
  | log {b : Int} {s s1 : State} : ReachableBounded b s → Log s = Except.ok s1 →
      ReachableBounded b s1

/-- One quiz round on the card at index `k`, as the specification words it:
the round prints the prompt with the term of that card and reads one line as
the answer; an answer equal to the definition of that card leaves the store as
it is and prints `Correct!`; any other answer increments the mistake count of
that card, changes nothing else in the store, and prints a message that gives
the definition of that card as the right answer. -/
def roundOn (k : Nat) (st st1 : State) : Prop :=
  ∃ card : Flashcard, st.cards[k]? = some card ∧ st1.input = st.input.drop 1 ∧
    ((answerAt st.input 0 = card.Definition ∧ st1.cards = st.cards ∧
        reports st st1 (roundPrompt card.Term ++ "Correct!\n")) ∨
     (answerAt st.input 0 ≠ card.Definition ∧
        st1.cards = st.cards.set k ⟨card.Term, card.Definition, wrapInt (card.Mistakes + 1)⟩ ∧
        ∃ rest : String, reports st st1 (roundPrompt card.Term ++
          ("Wrong. The right answer is \"" ++ card.Definition ++ "\"" ++ rest))))

/-- The rounds of a quiz on a store of `size` cards, as the specification
words them: one round per listed round number, in order, round `i` on the
card at index `i mod size`. -/
def roundsOn (size : Nat) : List Nat → State → State → Prop
  | [], st, st1 => st1 = st
  | i :: later, st, st1 => ∃ mid : State, roundOn (i % size) st mid ∧ roundsOn size later mid st1

/-- Go's `utf8.ValidString`, with `skip` bytes of a well-formed encoding still
to pass: every byte belongs to a well-formed UTF-8 encoding. -/
def validChars : Nat → List Char → Bool
  | _, [] => true
  | skip + 1, _ :: rest => validChars skip rest
  | 0, c :: rest =>
    decodeRune (c :: rest) != (RuneError, 1) &&
      validChars ((decodeRune (c :: rest)).2 - 1) rest

/-- The Go string is well-formed UTF-8. -/
def validUTF8 (s : String) : Prop := validChars 0 s.data = true

instance (s : String) : Decidable (validUTF8 s) :=
  inferInstanceAs (Decidable (validChars 0 s.data = true))

/-! ## `Contains` is a first-match linear search -/

theorem ContainsFrom_cons (text : String) (definition : Bool) (card : Flashcard)
    (rest : List Flashcard) (i : Int) :
    ContainsFrom text definition (card :: rest) i =
      if side definition card = text then (true, i)
      else ContainsFrom text definition rest (i + 1) := by
  cases definition <;> simp [ContainsFrom, side]

theorem ContainsFrom_spec (text : String) (definition : Bool) :
    ∀ (cards : List Flashcard) (i : Int),
      (∃ (n : Nat) (c : Flashcard), cards[n]? = some c ∧ side definition c = text ∧
          (∀ (j : Nat) (c1 : Flashcard), j < n → cards[j]? = some c1 → side definition c1 ≠ text) ∧
          ContainsFrom text definition cards i = (true, i + n)) ∨
      ((∀ c ∈ cards, side definition c ≠ text) ∧
          ContainsFrom text definition cards i = (false, -1)) := by
  intro cards
  induction cards with
  | nil => intro i; right; simp [ContainsFrom]
  | cons card rest ih =>
    intro i
    rw [ContainsFrom_cons]
    by_cases h : side definition card = text
    · left
      refine ⟨0, card, by simp, h, ?_, by simp [h]⟩
      intro j c1 hj; omega
    · rcases ih (i + 1) with ⟨n, c, hc, hs, hmin, hres⟩ | ⟨hall, hres⟩
      · left
        refine ⟨n + 1, c, by simpa using hc, hs, ?_, ?_⟩
        · intro j c1 hj hc1
          cases j with
          | zero => simp at hc1; subst hc1; exact h
          | succ j => exact hmin j c1 (by omega) (by simpa using hc1)
        · simp only [h, if_false, hres]
          congr 1; push_cast; ring
      · right
        refine ⟨?_, by simp [h, hres]⟩
        intro c hc
        rcases List.mem_cons.mp hc with rfl | hc
        · exact h
        · exact hall c hc

theorem Contains_cases (cards : List Flashcard) (text : String) (definition : Bool) :
    (∃ (n : Nat) (c : Flashcard), cards[n]? = some c ∧ side definition c = text ∧
        (∀ (j : Nat) (c1 : Flashcard), j < n → cards[j]? = some c1 → side definition c1 ≠ text) ∧
        Contains cards text definition = (true, (n : Int))) ∨
    ((∀ c ∈ cards, side definition c ≠ text) ∧
        Contains cards text definition = (false, -1)) := by
  have h := ContainsFrom_spec text definition cards 0
  simpa [Contains] using h

theorem Contains_false_iff (cards : List Flashcard) (text : String) (definition : Bool) :
    (Contains cards text definition).1 = false ↔ ∀ c ∈ cards, side definition c ≠ text := by
  rcases Contains_cases cards text definition with ⟨n, c, hc, hs, _, hres⟩ | ⟨hall, hres⟩
  · simp only [hres, Bool.true_eq_false, false_iff]
    intro hall
    exact hall c (List.getElem?_mem hc) hs
  · simp [hres]; exact hall

theorem Contains_true_iff (cards : List Flashcard) (text : String) (definition : Bool) :
    (Contains cards text definition).1 = true ↔ ∃ c ∈ cards, side definition c = text := by
  have h := Contains_false_iff cards text definition
  constructor
  · intro ht
    by_contra hne
    have : (Contains cards text definition).1 = false := h.mpr (by
      intro c hc hs; exact hne ⟨c, hc, hs⟩)
    rw [ht] at this; exact Bool.noConfusion this
  · rintro ⟨c, hc, hs⟩
    by_contra hne
    have hf : (Contains cards text definition).1 = false := by simpa using hne
    exact h.mp hf c hc hs

/-- C10: `Contains(text, flag)` returns `(true, i)` exactly when `i` is the
smallest index whose card has the compared field (the definition when the flag
is set, the term otherwise) equal to `text`, such an `i` is a valid index of
the store, and it returns `(false, -1)` exactly when no card matches; a
negative answer never carries another index. -/
theorem Contains_first_match (cards : List Flashcard) (text : String) (flag : Bool) :
    (∀ i : Int, Contains cards text flag = (true, i) ↔
        ∃ n : Nat, i = (n : Int) ∧ (∃ c, cards[n]? = some c ∧ side flag c = text) ∧
          ∀ (j : Nat) (c1 : Flashcard), j < n → cards[j]? = some c1 → side flag c1 ≠ text) ∧
    (∀ i : Int, Contains cards text flag = (true, i) → 0 ≤ i ∧ i < (cards.length : Int)) ∧
    (Contains cards text flag = (false, -1) ↔ ∀ c ∈ cards, side flag c ≠ text) ∧
    (∀ i : Int, Contains cards text flag = (false, i) → i = -1) := by
  rcases Contains_cases cards text flag with ⟨n, c, hc, hs, hmin, hres⟩ | ⟨hall, hres⟩
  · have hn : n < cards.length := (List.getElem?_eq_some_iff.mp hc).1
    refine ⟨?_, ?_, ?_, ?_⟩
    · intro i
      constructor
      · intro hi
        rw [hres] at hi
        have : (n : Int) = i := by simpa using hi
        exact ⟨n, this.symm, ⟨c, hc, hs⟩, hmin⟩
      · rintro ⟨m, rfl, ⟨c2, hc2, hs2⟩, hmin2⟩
        rw [hres]
        have hmn : m = n := by
          rcases Nat.lt_trichotomy m n with hlt | heq | hgt
          · exact absurd hs2 (hmin m c2 hlt hc2)
          · exact heq
          · exact absurd hs (hmin2 n c hgt hc)
        rw [hmn]
    · intro i hi
      rw [hres] at hi
      have : (n : Int) = i := by simpa using hi
      omega
    · rw [hres]
      constructor
      · intro hbad; simp at hbad
      · intro hall; exact absurd hs (hall c (List.getElem?_mem hc))
    · intro i hi; rw [hres] at hi; simp at hi
  · refine ⟨?_, ?_, ?_, ?_⟩
    · intro i
      constructor
      · intro hi; rw [hres] at hi; simp at hi
      · rintro ⟨m, _, ⟨c2, hc2, hs2⟩, _⟩
        exact absurd hs2 (hall c2 (List.getElem?_mem hc2))
    · intro i hi; rw [hres] at hi; simp at hi
    · rw [hres]; simp; exact hall
    · intro i hi; rw [hres] at hi
      have : (-1 : Int) = i := by simpa using hi
      exact this.symm

theorem Contains_first_match_witness :
    Contains [⟨"cat", "a feline", 0⟩, ⟨"dog", "a canine", 0⟩, ⟨"dog", "a pet", 0⟩] "dog" false
      = (true, 1) ∧
    Contains [⟨"cat", "a feline", 0⟩, ⟨"dog", "a canine", 0⟩, ⟨"dog", "a pet", 0⟩] "dog" true
      = (false, -1) := by
  have h := Contains_first_match
    [⟨"cat", "a feline", 0⟩, ⟨"dog", "a canine", 0⟩, ⟨"dog", "a pet", 0⟩] "dog" false
  have h2 := Contains_first_match
    [⟨"cat", "a feline", 0⟩, ⟨"dog", "a canine", 0⟩, ⟨"dog", "a pet", 0⟩] "dog" true
  refine ⟨(h.1 1).mpr ⟨1, rfl, ⟨⟨"dog", "a canine", 0⟩, rfl, rfl⟩, ?_⟩, h2.2.2.1.mpr (by decide)⟩
  intro j c1 hj hc1
  have hj0 : j = 0 := by omega
  subst hj0
  simp only [List.getElem?_cons_zero, Option.some.injEq] at hc1
  subst hc1
  decide

/-! ## Frame lemmas for the console functions -/

@[simp] theorem printLog_cards (s : State) (m : String) (ps : List Param) :
    (printLog s m ps).cards = s.cards := rfl

@[simp] theorem printLog_input (s : State) (m : String) (ps : List Param) :
    (printLog s m ps).input = s.input := rfl

@[simp] theorem printLog_files (s : State) (m : String) (ps : List Param) :
    (printLog s m ps).files = s.files := rfl

@[simp] theorem printLog_readOnly (s : State) (m : String) (ps : List Param) :
    (printLog s m ps).readOnly = s.readOnly := rfl

@[simp] theorem readLine_cards (s : State) : (readLine s).2.cards = s.cards := by
  unfold readLine; cases s.input <;> rfl

@[simp] theorem readLine_files (s : State) : (readLine s).2.files = s.files := by
  unfold readLine; cases s.input <;> rfl

@[simp] theorem readLine_readOnly (s : State) : (readLine s).2.readOnly = s.readOnly := by
  unfold readLine; cases s.input <;> rfl

/-! ## Slice accesses at valid indices -/

theorem cardAt_ok {cards : List Flashcard} {n : Nat} {c : Flashcard} (h : cards[n]? = some c) :
    cardAt cards (n : Int) = Except.ok c := by
  simp [cardAt, h]

theorem setCardAt_ok {cards : List Flashcard} {n : Nat} (h : n < cards.length) (c : Flashcard) :
    setCardAt cards (n : Int) c = Except.ok (cards.set n c) := by
  simp [setCardAt, h]

theorem cardAt_last {cards : List Flashcard} {c : Flashcard} (h : cards.getLast? = some c) :
    cardAt cards ((cards.length : Int) - 1) = Except.ok c := by
  have hne : cards ≠ [] := by rintro rfl; simp at h
  have hlen : 0 < cards.length := List.length_pos.mpr hne
  have hcast : ((cards.length : Int) - 1) = ((cards.length - 1 : Nat) : Int) := by omega
  rw [hcast]
  apply cardAt_ok
  rw [List.getLast?_eq_getElem?] at h
  exact h

theorem sliceTo_pred (cards : List Flashcard) (h : cards ≠ []) :
    sliceTo cards ((cards.length : Int) - 1) = Except.ok cards.dropLast := by
  have hlen : 0 < cards.length := List.length_pos.mpr h
  have hcast : ((cards.length : Int) - 1) = ((cards.length - 1 : Nat) : Int) := by omega
  rw [hcast]
  simp [sliceTo, List.dropLast_eq_take]

/-! ## Adding cards -/

theorem ReadSideLoop_ok (definition : Bool) :
    ∀ (pending : List String) (s : State) (r : String × State),
      ReadSideLoop definition pending s = Except.ok r →
        r.2.cards = s.cards ∧ (Contains s.cards r.1 definition).1 = false := by
  intro pending
  induction pending with
  | nil =>
    intro s r h
    simp only [ReadSideLoop, readLine_cards] at h
    split at h
    · exact Except.noConfusion h
    · rename_i hc
      have : readLine s = r := by simpa using h
      subst this
      exact ⟨readLine_cards s, by simpa using hc⟩
  | cons line pending ih =>
    intro s r h
    simp only [ReadSideLoop, readLine_cards] at h
    split at h
    · have := ih _ r h
      simpa using this
    · rename_i hc
      have : readLine s = r := by simpa using h
      subst this
      exact ⟨readLine_cards s, by simpa using hc⟩

theorem ReadSide_ok {s : State} {definition : Bool} {r : String × State}
    (h : ReadSide s definition = Except.ok r) :
    r.2.cards = s.cards ∧ (Contains s.cards r.1 definition).1 = false := by
  unfold ReadSide at h
  have := ReadSideLoop_ok definition _ _ r h
  cases definition <;> simpa using this

theorem ReadSideLoop_error (definition : Bool) :
    ∀ (pending : List String) (s : State) (e : Fault),
      ReadSideLoop definition pending s = Except.error e → s.input = pending →
        e = Fault.diverges ∧ (Contains s.cards "" definition).1 = true := by
  intro pending
  induction pending with
  | nil =>
    intro s e h hin
    simp only [ReadSideLoop, readLine_cards] at h
    split at h
    · rename_i hc
      have he : Fault.diverges = e := by simpa using h
      refine ⟨he.symm, ?_⟩
      have : (readLine s).1 = "" := by simp [readLine, hin]
      rw [this] at hc; exact hc
    · exact Except.noConfusion h
  | cons line pending ih =>
    intro s e h hin
    simp only [ReadSideLoop, readLine_cards] at h
    split at h
    · have := ih _ e h (by simp [readLine, hin])
      simpa using this
    · exact Except.noConfusion h

theorem ReadSide_error {s : State} {definition : Bool} {e : Fault}
    (h : ReadSide s definition = Except.error e) :
    e = Fault.diverges ∧ (Contains s.cards "" definition).1 = true := by
  unfold ReadSide at h
  have := ReadSideLoop_error definition _ _ e h rfl
  cases definition <;> simpa using this

/-- What a completed `Add` does to the store: it appends one card without
mistakes whose term and whose definition the store did not hold. -/
theorem Add_ok {s s1 : State} (h : Add s = Except.ok s1) :
    ∃ card : Flashcard, s1.cards = s.cards ++ [card] ∧ card.Mistakes = 0 ∧
      (Contains s.cards card.Term false).1 = false ∧
      (Contains s.cards card.Definition true).1 = false := by
  unfold Add ReadCard at h
  cases h1 : ReadSide s false with
  | error e => simp [h1] at h
  | ok r1 =>
    obtain ⟨term, sa⟩ := r1
    cases h2 : ReadSide sa true with
    | error e => simp [h1, h2] at h
    | ok r2 =>
      obtain ⟨defn, sb⟩ := r2
      simp only [h1, h2, Except.ok.injEq] at h
      have ha := ReadSide_ok h1
      have hb := ReadSide_ok h2
      simp only at ha hb
      refine ⟨{ Term := term, Definition := defn, Mistakes := 0 }, ?_, rfl, ha.2, ?_⟩
      · rw [← h]; simp [hb.1, ha.1]
      · rw [← ha.1]; exact hb.2

/-- An `Add` can only fail by never ending, and only when the empty text is
already a term or a definition of the store. -/
theorem Add_error {s : State} {e : Fault} (h : Add s = Except.error e) :
    e = Fault.diverges ∧
      ((Contains s.cards "" false).1 = true ∨ (Contains s.cards "" true).1 = true) := by
  unfold Add ReadCard at h
  cases h1 : ReadSide s false with
  | error e1 =>
    simp only [h1, Except.error.injEq] at h
    subst h
    exact ⟨(ReadSide_error h1).1, Or.inl (ReadSide_error h1).2⟩
  | ok r1 =>
    obtain ⟨term, sa⟩ := r1
    cases h2 : ReadSide sa true with
    | error e2 =>
      simp only [h1, h2, Except.error.injEq] at h
      subst h
      have ha := ReadSide_ok h1
      simp only at ha
      refine ⟨(ReadSide_error h2).1, Or.inr ?_⟩
      rw [← ha.1]; exact (ReadSide_error h2).2
    | ok r2 =>
      obtain ⟨defn, sb⟩ := r2
      simp [h1, h2] at h

theorem not_mem_terms_of_Contains {cards : List Flashcard} {t : String}
    (h : (Contains cards t false).1 = false) : t ∉ terms cards := by
  have := (Contains_false_iff cards t false).mp h
  simp only [terms, List.mem_map, not_exists, not_and]
  intro c hc hct
  exact this c hc (by simpa [side] using hct)

theorem not_mem_definitions_of_Contains {cards : List Flashcard} {d : String}
    (h : (Contains cards d true).1 = false) : d ∉ definitions cards := by
  have := (Contains_false_iff cards d true).mp h
  simp only [definitions, List.mem_map, not_exists, not_and]
  intro c hc hcd
  exact this c hc (by simpa [side] using hcd)

theorem Add_keeps_distinct {s s1 : State} (h : Add s = Except.ok s1)
    (ht : (terms s.cards).Nodup) (hd : (definitions s.cards).Nodup) :
    (terms s1.cards).Nodup ∧ (definitions s1.cards).Nodup := by
  obtain ⟨card, hc, _, hnt, hnd⟩ := Add_ok h
  rw [hc]
  constructor
  · simp only [terms, List.map_append, List.map_cons, List.map_nil]
    refine List.Nodup.append ht (List.nodup_singleton _) ?_
    simp only [List.disjoint_singleton]
    exact not_mem_terms_of_Contains hnt
  · simp only [definitions, List.map_append, List.map_cons, List.map_nil]
    refine List.Nodup.append hd (List.nodup_singleton _) ?_
    simp only [List.disjoint_singleton]
    exact not_mem_definitions_of_Contains hnd

theorem addMany_keeps_distinct :
    ∀ (n : Nat) (s s1 : State), addMany n s = Except.ok s1 →
      (terms s.cards).Nodup → (definitions s.cards).Nodup →
      (terms s1.cards).Nodup ∧ (definitions s1.cards).Nodup := by
  intro n
  induction n with
  | zero =>
    intro s s1 h ht hd
    simp only [addMany, Except.ok.injEq] at h
    subst h; exact ⟨ht, hd⟩
  | succ n ih =>
    intro s s1 h ht hd
    simp only [addMany] at h
    cases ha : Add s with
    | error e => simp [ha] at h
    | ok s2 =>
      simp only [ha] at h
      have := Add_keeps_distinct ha ht hd
      exact ih s2 s1 h this.1 this.2

/-- C1: starting from the empty store, whatever lines the input holds, after
any number of add commands that have completed the terms of the cards in the
store are pairwise distinct and so are their definitions. -/
theorem adds_keep_terms_and_definitions_distinct (n : Nat) (input : List String)
    (files : String → Option FileData) (readOnly : String → Bool) (s : State)
    (h : addMany n (initial input files readOnly) = Except.ok s) :
    (terms s.cards).Nodup ∧ (definitions s.cards).Nodup :=
  addMany_keeps_distinct n _ s h (by simp [initial, terms]) (by simp [initial, definitions])

theorem adds_keep_terms_and_definitions_distinct_witness :
    ∃ s : State,
      addMany 2 (initial ["cat", "a feline", "cat", "dog", " a feline ", "a canine"]
        (fun _ => none) (fun _ => false)) = Except.ok s ∧
      s.cards = [⟨"cat", "a feline", 0⟩, ⟨"dog", "a canine", 0⟩] ∧
      (terms s.cards).Nodup ∧ (definitions s.cards).Nodup :=
  ⟨_, rfl, by decide,
    adds_keep_terms_and_definitions_distinct 2
      ["cat", "a feline", "cat", "dog", " a feline ", "a canine"]
      (fun _ => none) (fun _ => false) _ rfl⟩

/-! ## Removing a card -/

@[simp] theorem readLine_printLog_fst (s : State) (m : String) (ps : List Param) :
    (readLine (printLog s m ps)).1 = (readLine s).1 := by
  unfold readLine; simp only [printLog_input]; cases s.input <;> rfl

theorem terms_index_inj {cards : List Flashcard} (h : (terms cards).Nodup) {i j : Nat}
    {a b : Flashcard} (ha : cards[i]? = some a) (hb : cards[j]? = some b)
    (hab : a.Term = b.Term) : i = j := by
  have hi : i < cards.length := (List.getElem?_eq_some_iff.mp ha).1
  have hj : j < cards.length := (List.getElem?_eq_some_iff.mp hb).1
  have key := List.nodup_iff_getElem?_ne_getElem?.mp h
  have hti : (terms cards)[i]? = some a.Term := by simp [terms, ha]
  have htj : (terms cards)[j]? = some b.Term := by simp [terms, hb]
  rcases Nat.lt_trichotomy i j with hlt | heq | hgt
  · exact absurd (by rw [hti, htj, hab]) (key i j hlt (by simpa [terms] using hj))
  · exact heq
  · exact absurd (by rw [hti, htj, hab]) (key j i hgt (by simpa [terms] using hi))

/-- The store after a successful `Remove`: the slot of the first card with the
term read is overwritten with the last card and the last slot is cut off. -/
theorem Remove_found {s : State} {n : Nat} {last : Flashcard}
    (hfound : Contains s.cards (readLine s).1 false = (true, (n : Int)))
    (hn : n < s.cards.length) (hlast : s.cards.getLast? = some last) :
    Remove s = Except.ok (printLog
      { (readLine (printLog s "Which card?" [])).2 with
        cards := (s.cards.set n last).dropLast } "The card has been removed." []) := by
  have hne : s.cards.set n last ≠ [] := by
    intro h0
    have : (s.cards.set n last).length = 0 := by rw [h0]; rfl
    rw [List.length_set] at this; omega
  have hslice := sliceTo_pred (s.cards.set n last) hne
  simp only [List.length_set] at hslice
  simp only [Remove, readLine_cards, printLog_cards, readLine_printLog_fst, hfound,
    Bool.not_true, Bool.false_eq_true, if_false, cardAt_last hlast, setCardAt_ok hn,
    List.length_set, hslice]

/-- When no card has the term read, `Remove` changes nothing in the store. -/
theorem Remove_missing {s : State}
    (hmiss : (Contains s.cards (readLine s).1 false).1 = false) :
    Remove s = Except.ok (printLog (readLine (printLog s "Which card?" [])).2
      "Can't remove \"%s\": there is no such card." [Param.str (readLine s).1]) := by
  simp [Remove, hmiss]

theorem swapRemove_getElem? (cards : List Flashcard) (n : Nat) (last : Flashcard) (j : Nat) :
    ((cards.set n last).dropLast)[j]? =
      if j < cards.length - 1 then (if n = j then some last else cards[j]?) else none := by
  rw [List.getElem?_dropLast]
  simp only [List.length_set, List.getElem?_set]
  by_cases hj : j < cards.length - 1
  · simp only [hj, if_true]
    by_cases hnj : n = j
    · subst hnj
      have : n < cards.length := by omega
      simp [this]
    · simp [hnj]
  · simp [hj]

/-- C2: in a store with pairwise distinct terms, when `Remove` reads a term
`t` that some card holds, it completes, afterwards `Contains(t, false)` reports
not found, and the store holds exactly one card fewer. -/
theorem Remove_then_Contains (s : State) (t : String) (hdistinct : (terms s.cards).Nodup)
    (hmem : t ∈ terms s.cards) (hread : (readLine s).1 = t) :
    ∃ s1 : State, Remove s = Except.ok s1 ∧
      Contains s1.cards t false = (false, -1) ∧
      s1.cards.length + 1 = s.cards.length := by
  rcases Contains_cases s.cards t false with ⟨n, c, hc, hs, _, hres⟩ | ⟨hall, _⟩
  · have hn : n < s.cards.length := (List.getElem?_eq_some_iff.mp hc).1
    have hne : s.cards ≠ [] := by
      intro h0; rw [h0] at hn; exact absurd hn (by simp)
    obtain ⟨last, hlast⟩ : ∃ last, s.cards.getLast? = some last := by
      cases hl : s.cards.getLast? with
      | none => exact absurd (List.getLast?_eq_none_iff.mp hl) hne
      | some last => exact ⟨last, rfl⟩
    have hlast1 : s.cards[s.cards.length - 1]? = some last := by
      rw [← List.getLast?_eq_getElem?]; exact hlast
    refine ⟨_, Remove_found (by rw [hread]; exact hres) hn hlast, ?_, ?_⟩
    · have hnone : ∀ c1 ∈ (s.cards.set n last).dropLast, side false c1 ≠ t := by
        intro c1 hc1 hside
        obtain ⟨j, hj⟩ := List.mem_iff_getElem?.mp hc1
        rw [swapRemove_getElem?] at hj
        have hct : c.Term = t := by simpa [side] using hs
        have hc1t : c1.Term = t := by simpa [side] using hside
        by_cases hjl : j < s.cards.length - 1
        · simp only [hjl, if_true] at hj
          by_cases hnj : n = j
          · simp only [hnj, if_true, Option.some.injEq] at hj
            subst hj
            have := terms_index_inj hdistinct hlast1 hc (by rw [hc1t, hct])
            omega
          · simp only [hnj, if_false] at hj
            have := terms_index_inj hdistinct hj hc (by rw [hc1t, hct])
            omega
        · simp [hjl] at hj
      rcases Contains_cases ((s.cards.set n last).dropLast) t false with
        ⟨m, c2, hc2, hs2, _, _⟩ | ⟨_, hres2⟩
      · exact absurd hs2 (hnone c2 (List.getElem?_mem hc2))
      · simpa using hres2
    · simp only [printLog_cards, List.length_dropLast, List.length_set]
      omega
  · exfalso
    simp only [terms, List.mem_map] at hmem
    obtain ⟨c, hc, hct⟩ := hmem
    exact hall c hc (by simpa [side] using hct)

theorem Remove_then_Contains_witness :
    ∃ s1 : State,
      Remove { initial [" cat "] (fun _ => none) (fun _ => false) with
          cards := [⟨"cat", "a feline", 0⟩, ⟨"dog", "a canine", 2⟩, ⟨"owl", "a bird", 1⟩] }
        = Except.ok s1 ∧
      Contains s1.cards "cat" false = (false, -1) ∧ s1.cards.length + 1 = 3 :=
  Remove_then_Contains
    { initial [" cat "] (fun _ => none) (fun _ => false) with
      cards := [⟨"cat", "a feline", 0⟩, ⟨"dog", "a canine", 2⟩, ⟨"owl", "a bird", 1⟩] }
    "cat" (by decide) (by decide) (by decide)

/-! ## Merging imported cards -/

theorem Update_cons (cards : List Flashcard) (card : Flashcard) (rest : List Flashcard) :
    Update cards (card :: rest) = Update (upsert cards card) rest := by
  rcases Contains_cases cards card.Term false with ⟨n, c, hc, hs, _, hres⟩ | ⟨_, hres⟩
  · have hn : n < cards.length := (List.getElem?_eq_some_iff.mp hc).1
    have hct : c.Term = card.Term := by simpa [side] using hs
    have hcard : ({ c with Definition := card.Definition, Mistakes := card.Mistakes } : Flashcard)
        = card := by
      cases card; cases c; simp_all
    simp only [Update, upsert, hres, Bool.not_true, Bool.false_eq_true, if_false, if_true,
      cardAt_ok hc, setCardAt_ok hn, hcard, Int.toNat_ofNat]
  · simp [Update, upsert, hres]

/-- `Update` never panics: it is the fold of the one-card merge over the
imported list. -/
theorem Update_eq_foldl : ∀ (newCards cards : List Flashcard),
    Update cards newCards = Except.ok (newCards.foldl upsert cards) := by
  intro newCards
  induction newCards with
  | nil => intro cards; rfl
  | cons card rest ih => intro cards; rw [Update_cons, ih]; rfl

theorem upsert_found {cards : List Flashcard} {card c : Flashcard} {n : Nat}
    (hc : cards[n]? = some c) (hct : c.Term = card.Term)
    (hmin : ∀ (j : Nat) (c1 : Flashcard), j < n → cards[j]? = some c1 → c1.Term ≠ card.Term) :
    upsert cards card = cards.set n card := by
  rcases Contains_cases cards card.Term false with ⟨m, c2, hc2, hs2, hmin2, hres⟩ | ⟨hall, _⟩
  · have hmn : m = n := by
      rcases Nat.lt_trichotomy m n with hlt | heq | hgt
      · exact absurd (by simpa [side] using hs2) (hmin m c2 hlt hc2)
      · exact heq
      · exact absurd (by simpa [side] using hct) (hmin2 n c hgt hc)
    simp [upsert, hres, hmn]
  · exact absurd (by simpa [side] using hct) (hall c (List.getElem?_mem hc))

theorem upsert_new {cards : List Flashcard} {card : Flashcard}
    (h : card.Term ∉ terms cards) : upsert cards card = cards ++ [card] := by
  rcases Contains_cases cards card.Term false with ⟨m, c2, hc2, hs2, _, _⟩ | ⟨_, hres⟩
  · exfalso
    apply h
    simp only [terms, List.mem_map]
    exact ⟨c2, List.getElem?_mem hc2, by simpa [side] using hs2⟩
  · simp [upsert, hres]

/-- The one-card merge, case by case. -/
theorem upsert_cases (cards : List Flashcard) (card : Flashcard) :
    (∃ (n : Nat) (c : Flashcard), cards[n]? = some c ∧ c.Term = card.Term ∧
        (∀ (j : Nat) (c1 : Flashcard), j < n → cards[j]? = some c1 → c1.Term ≠ card.Term) ∧
        upsert cards card = cards.set n card) ∨
    (card.Term ∉ terms cards ∧ upsert cards card = cards ++ [card]) := by
  rcases Contains_cases cards card.Term false with ⟨n, c, hc, hs, hmin, _⟩ | ⟨hall, _⟩
  · left
    have hct : c.Term = card.Term := by simpa [side] using hs
    have hmin1 : ∀ (j : Nat) (c1 : Flashcard), j < n → cards[j]? = some c1 →
        c1.Term ≠ card.Term := by
      intro j c1 hj hc1; simpa [side] using hmin j c1 hj hc1
    exact ⟨n, c, hc, hct, hmin1, upsert_found hc hct hmin1⟩
  · right
    have hnot : card.Term ∉ terms cards := by
      simp only [terms, List.mem_map, not_exists, not_and]
      intro c hc hct
      exact hall c hc (by simpa [side] using hct)
    exact ⟨hnot, upsert_new hnot⟩

theorem terms_set_same {cards : List Flashcard} {n : Nat} {c card : Flashcard}
    (hc : cards[n]? = some c) (hct : c.Term = card.Term) :
    terms (cards.set n card) = terms cards := by
  apply List.ext_getElem?
  intro j
  simp only [terms, List.getElem?_map, List.getElem?_set]
  by_cases hnj : n = j
  · subst hnj
    have hn : n < cards.length := (List.getElem?_eq_some_iff.mp hc).1
    simp [hn, hc, hct]
  · simp [hnj]

theorem upsert_terms_nodup {cards : List Flashcard} (card : Flashcard)
    (h : (terms cards).Nodup) : (terms (upsert cards card)).Nodup := by
  rcases upsert_cases cards card with ⟨n, c, hc, hct, _, heq⟩ | ⟨hnot, heq⟩
  · rw [heq, terms_set_same hc hct]; exact h
  · rw [heq]
    simp only [terms, List.map_append, List.map_cons, List.map_nil]
    refine List.Nodup.append h (List.nodup_singleton _) ?_
    simp only [List.disjoint_singleton]
    exact hnot

theorem foldl_upsert_terms_nodup : ∀ (newCards cards : List Flashcard),
    (terms cards).Nodup → (terms (newCards.foldl upsert cards)).Nodup := by
  intro newCards
  induction newCards with
  | nil => intro cards h; exact h
  | cons card rest ih => intro cards h; exact ih _ (upsert_terms_nodup card h)

theorem filter_set_of_false {p : Flashcard → Bool} :
    ∀ (l : List Flashcard) (n : Nat) (a c : Flashcard), l[n]? = some c → p c = false →
      p a = false → (l.set n a).filter p = l.filter p := by
  intro l
  induction l with
  | nil => intro n a c h; simp at h
  | cons x xs ih =>
    intro n a c h hc ha
    cases n with
    | zero =>
      simp only [List.getElem?_cons_zero, Option.some.injEq] at h
      subst h
      simp [List.filter_cons, hc, ha]
    | succ n =>
      simp only [List.getElem?_cons_succ] at h
      simp only [List.set_cons_succ, List.filter_cons, ih n a c h hc ha]

theorem filter_set_unique {p : Flashcard → Bool} :
    ∀ (l : List Flashcard) (n : Nat) (a : Flashcard), n < l.length → p a = true →
      (∀ (j : Nat) (x : Flashcard), j ≠ n → l[j]? = some x → p x = false) →
      (l.set n a).filter p = [a] := by
  intro l
  induction l with
  | nil => intro n a h; simp at h
  | cons x xs ih =>
    intro n a hn ha hothers
    cases n with
    | zero =>
      have hxs : xs.filter p = [] := by
        rw [List.filter_eq_nil_iff]
        intro y hy
        obtain ⟨j, hj⟩ := List.mem_iff_getElem?.mp hy
        have := hothers (j + 1) y (by omega) (by simpa using hj)
        simp [this]
      simp [List.filter_cons, ha, hxs]
    | succ n =>
      have hx : p x = false := hothers 0 x (by omega) (by simp)
      have hrec := ih n a (by simpa using hn) ha (by
        intro j y hj hy
        exact hothers (j + 1) y (by omega) (by simpa using hy))
      simp only [List.set_cons_succ, List.filter_cons, hx, hrec]
      simp

theorem withTerm_upsert_self {cards : List Flashcard} (card : Flashcard)
    (h : (terms cards).Nodup) : withTerm card.Term (upsert cards card) = [card] := by
  rcases upsert_cases cards card with ⟨n, c, hc, hct, _, heq⟩ | ⟨hnot, heq⟩
  · rw [heq]
    have hn : n < cards.length := (List.getElem?_eq_some_iff.mp hc).1
    apply filter_set_unique cards n card hn (by simp)
    intro j x hj hx
    have hne : x.Term ≠ card.Term := by
      intro hxt
      exact hj (terms_index_inj h hx hc (by rw [hxt, hct]))
    simpa using hne
  · rw [heq]
    have hnil : cards.filter (fun c => decide (c.Term = card.Term)) = [] := by
      rw [List.filter_eq_nil_iff]
      intro y hy
      have : y.Term ≠ card.Term := by
        intro hyt
        apply hnot
        simp only [terms, List.mem_map]
        exact ⟨y, hy, hyt⟩
      simpa using this
    simp [withTerm, List.filter_append, hnil]

theorem withTerm_upsert_other {cards : List Flashcard} {card : Flashcard} {t : String}
    (h : card.Term ≠ t) : withTerm t (upsert cards card) = withTerm t cards := by
  rcases upsert_cases cards card with ⟨n, c, hc, hct, _, heq⟩ | ⟨_, heq⟩
  · rw [heq]
    apply filter_set_of_false cards n card c hc
    · have : c.Term ≠ t := by rw [hct]; exact h
      simpa using this
    · simpa using h
  · rw [heq]
    simp [withTerm, List.filter_append, h]

theorem withTerm_foldl_upsert_other {t : String} : ∀ (newCards cards : List Flashcard),
    (∀ x ∈ newCards, x.Term ≠ t) →
      withTerm t (newCards.foldl upsert cards) = withTerm t cards := by
  intro newCards
  induction newCards with
  | nil => intro cards _; rfl
  | cons card rest ih =>
    intro cards h
    simp only [List.foldl_cons]
    rw [ih _ (fun x hx => h x (List.mem_cons_of_mem _ hx)),
      withTerm_upsert_other (h card (List.mem_cons_self _ _))]

/-- C3: in a store with pairwise distinct terms `Update` completes, and for
every imported card that is the last of the imported list with its term the
resulting store holds exactly one card with that term, which is that imported
card (its definition and its mistake count).  In particular, when a term `t`
occurs twice in the imported list, first with `(d1, m1)` and later with
`(d2, m2)`, the one card with term `t` afterwards carries `d2` and `m2`. -/
theorem Update_last_import_wins (cards newCards : List Flashcard)
    (hdistinct : (terms cards).Nodup) :
    ∃ cards1 : List Flashcard, Update cards newCards = Except.ok cards1 ∧
      (∀ (before after : List Flashcard) (c : Flashcard), newCards = before ++ c :: after →
        (∀ x ∈ after, x.Term ≠ c.Term) → withTerm c.Term cards1 = [c]) ∧
      (∀ (l1 l2 l3 : List Flashcard) (t d1 d2 : String) (m1 m2 : Int),
        newCards = l1 ++ ⟨t, d1, m1⟩ :: (l2 ++ ⟨t, d2, m2⟩ :: l3) →
        t ∉ terms l1 → t ∉ terms l2 → t ∉ terms l3 →
        withTerm t cards1 = [⟨t, d2, m2⟩]) := by
  have hmain : ∀ (before after : List Flashcard) (c : Flashcard),
      newCards = before ++ c :: after → (∀ x ∈ after, x.Term ≠ c.Term) →
      withTerm c.Term (newCards.foldl upsert cards) = [c] := by
    intro before after c hsplit hafter
    rw [hsplit, List.foldl_append, List.foldl_cons, withTerm_foldl_upsert_other _ _ hafter]
    exact withTerm_upsert_self c (foldl_upsert_terms_nodup before cards hdistinct)
  refine ⟨_, Update_eq_foldl newCards cards, hmain, ?_⟩
  intro l1 l2 l3 t d1 d2 m1 m2 hsplit _ _ h3
  have := hmain (l1 ++ ⟨t, d1, m1⟩ :: l2) l3 ⟨t, d2, m2⟩ (by simp [hsplit]) (by
    intro x hx hxt
    apply h3
    simp only [terms, List.mem_map]
    exact ⟨x, hx, hxt⟩)
  exact this

theorem Update_last_import_wins_witness :
    (terms [⟨"cat", "a feline", 4⟩, ⟨"dog", "a canine", 0⟩]).Nodup ∧
    Update [⟨"cat", "a feline", 4⟩, ⟨"dog", "a canine", 0⟩]
        [⟨"owl", "a bird", 1⟩, ⟨"cat", "a pet", 2⟩, ⟨"owl", "a night bird", 7⟩]
      = Except.ok [⟨"cat", "a pet", 2⟩, ⟨"dog", "a canine", 0⟩, ⟨"owl", "a night bird", 7⟩] ∧
    withTerm "owl" [⟨"cat", "a pet", 2⟩, ⟨"dog", "a canine", 0⟩, ⟨"owl", "a night bird", 7⟩]
      = [⟨"owl", "a night bird", 7⟩] := by
  obtain ⟨cards1, h1, _, h3⟩ :=
    Update_last_import_wins [⟨"cat", "a feline", 4⟩, ⟨"dog", "a canine", 0⟩]
      [⟨"owl", "a bird", 1⟩, ⟨"cat", "a pet", 2⟩, ⟨"owl", "a night bird", 7⟩] (by decide)
  have heval : Update [⟨"cat", "a feline", 4⟩, ⟨"dog", "a canine", 0⟩]
      [⟨"owl", "a bird", 1⟩, ⟨"cat", "a pet", 2⟩, ⟨"owl", "a night bird", 7⟩]
      = Except.ok [⟨"cat", "a pet", 2⟩, ⟨"dog", "a canine", 0⟩, ⟨"owl", "a night bird", 7⟩] := by
    rfl
  have hsame : cards1
      = [⟨"cat", "a pet", 2⟩, ⟨"dog", "a canine", 0⟩, ⟨"owl", "a night bird", 7⟩] := by
    rw [heval] at h1; exact (Except.ok.inj h1).symm
  rw [hsame] at h3
  exact ⟨by decide, heval,
    h3 [] [⟨"cat", "a pet", 2⟩] [] "owl" "a bird" "a night bird" 1 7 rfl
      (by decide) (by decide) (by decide)⟩

/-! ## Export followed by import -/

theorem foldl_upsert_fresh : ∀ (newCards cards : List Flashcard),
    (terms (cards ++ newCards)).Nodup → newCards.foldl upsert cards = cards ++ newCards := by
  intro newCards
  induction newCards with
  | nil => intro cards _; simp
  | cons card rest ih =>
    intro cards h
    have hnot : card.Term ∉ terms cards := by
      simp only [terms, List.map_append, List.map_cons] at h
      have := (List.nodup_append.mp h).2.2
      intro hmem
      exact this hmem (List.mem_cons_self _ _)
    simp only [List.foldl_cons]
    rw [upsert_new hnot, ih (cards ++ [card]) (by simpa using h)]
    simp

theorem jsonChars_of_valid : ∀ (cs : List Char) (skip : Nat),
    validChars skip cs = true → jsonChars skip cs = cs := by
  intro cs
  induction cs with
  | nil => intro skip _; cases skip <;> rfl
  | cons c rest ih =>
    intro skip h
    cases skip with
    | succ k =>
      simp only [validChars] at h
      simp only [jsonChars, ih k h]
    | zero =>
      simp only [validChars, Bool.and_eq_true, bne_iff_ne, ne_eq] at h
      simp only [jsonChars, if_neg h.1, ih _ h.2]

theorem jsonChars_length : ∀ (cs : List Char) (skip : Nat),
    cs.length ≤ (jsonChars skip cs).length := by
  intro cs
  induction cs with
  | nil => intro skip; cases skip <;> simp [jsonChars]
  | cons c rest ih =>
    intro skip
    cases skip with
    | succ k =>
      simp only [jsonChars, List.length_cons]
      exact Nat.succ_le_succ (ih k)
    | zero =>
      simp only [jsonChars]
      split
      · simp only [List.length_cons]
        have := ih 0
        omega
      · simp only [List.length_cons]
        exact Nat.succ_le_succ (ih _)

theorem valid_of_jsonChars : ∀ (cs : List Char) (skip : Nat),
    jsonChars skip cs = cs → validChars skip cs = true := by
  intro cs
  induction cs with
  | nil => intro skip _; cases skip <;> rfl
  | cons c rest ih =>
    intro skip h
    cases skip with
    | succ k =>
      simp only [jsonChars, List.cons.injEq, true_and] at h
      simp only [validChars]
      exact ih k h
    | zero =>
      simp only [jsonChars] at h
      split at h
      · exfalso
        have hlen := congrArg List.length h
        simp only [List.length_cons] at hlen
        have := jsonChars_length rest 0
        omega
      · rename_i hne
        simp only [List.cons.injEq, true_and] at h
        simp only [validChars, Bool.and_eq_true, bne_iff_ne, ne_eq]
        exact ⟨hne, ih _ h⟩

/-- The JSON encoding gives a Go string back as it was exactly when the
string is well-formed UTF-8. -/
theorem jsonString_eq_self_iff (s : String) : jsonString s = s ↔ validUTF8 s := by
  unfold jsonString validUTF8
  constructor
  · intro h
    apply valid_of_jsonChars
    have := congrArg String.data h
    simpa using this
  · intro h
    rw [jsonChars_of_valid _ _ h]

theorem map_jsonCard_of_valid {cards : List Flashcard}
    (hvalid : ∀ c ∈ cards, validUTF8 c.Term ∧ validUTF8 c.Definition) :
    cards.map jsonCard = cards := by
  induction cards with
  | nil => rfl
  | cons c rest ih =>
    have hc := hvalid c (List.mem_cons_self _ _)
    have hrest := ih (fun x hx => hvalid x (List.mem_cons_of_mem _ hx))
    simp only [List.map_cons, hrest, jsonCard, (jsonString_eq_self_iff _).mpr hc.1,
      (jsonString_eq_self_iff _).mpr hc.2]

theorem ExportFile_writable {s : State} {filename : String}
    (hwritable : s.readOnly filename = false) :
    ExportFile s filename = Except.ok (printLog
      { s with files := fun f => if f = filename then
                                   some (FileData.cardList (s.cards.map jsonCard))
                                 else s.files f }
      "%d cards have been saved." [Param.int s.cards.length]) := by
  simp [ExportFile, hwritable]

/-- C4 as the code has it: for a store with pairwise distinct terms
whose terms and definitions are all well-formed UTF-8, `ExportFile` to a
writable path completes, leaves the store as it is and writes a file that
decodes to the whole card list in store order; importing that file
(`ImportFile`, which hands the decoded list to `Update`) into any state whose
store is empty completes and yields exactly the cards of the exported store,
in the same order. -/
theorem export_then_import_restores (s : State) (filename : String)
    (hdistinct : (terms s.cards).Nodup) (hwritable : s.readOnly filename = false)
    (hvalid : ∀ c ∈ s.cards, validUTF8 c.Term ∧ validUTF8 c.Definition) :
    ∃ s1 : State, ExportFile s filename = Except.ok s1 ∧ s1.cards = s.cards ∧
      s1.files filename = some (FileData.cardList s.cards) ∧
      ∀ s0 : State, s0.cards = [] → s0.files filename = s1.files filename →
        ∃ s2 : State, ImportFile s0 filename = Except.ok s2 ∧ s2.cards = s.cards := by
  refine ⟨_, ExportFile_writable hwritable, rfl, ?_, ?_⟩
  · simp [map_jsonCard_of_valid hvalid]
  · intro s0 hempty hfile
    simp only [printLog_files, if_true, map_jsonCard_of_valid hvalid] at hfile
    simp only [ImportFile, hfile, printLog_cards, hempty, Update_eq_foldl]
    refine ⟨_, rfl, ?_⟩
    simp only
    rw [foldl_upsert_fresh s.cards [] (by simpa using hdistinct)]
    simp

theorem export_then_import_restores_witness :
    (∀ c ∈ ([⟨"caf\xc3\xa9", "a drink", 2⟩, ⟨"cat", "a feline", 0⟩] : List Flashcard),
      validUTF8 c.Term ∧ validUTF8 c.Definition) ∧
    ∃ s1 : State,
      ExportFile { initial [] (fun _ => none) (fun _ => false) with
          cards := [⟨"caf\xc3\xa9", "a drink", 2⟩, ⟨"cat", "a feline", 0⟩] } "cards.json"
        = Except.ok s1 ∧
      s1.cards = [⟨"caf\xc3\xa9", "a drink", 2⟩, ⟨"cat", "a feline", 0⟩] ∧
      s1.files "cards.json"
        = some (FileData.cardList [⟨"caf\xc3\xa9", "a drink", 2⟩, ⟨"cat", "a feline", 0⟩]) ∧
      ∀ s0 : State, s0.cards = [] → s0.files "cards.json" = s1.files "cards.json" →
        ∃ s2 : State, ImportFile s0 "cards.json" = Except.ok s2 ∧
          s2.cards = [⟨"caf\xc3\xa9", "a drink", 2⟩, ⟨"cat", "a feline", 0⟩] :=
  ⟨by decide,
    export_then_import_restores
      { initial [] (fun _ => none) (fun _ => false) with
        cards := [⟨"caf\xc3\xa9", "a drink", 2⟩, ⟨"cat", "a feline", 0⟩] }
      "cards.json" (by decide) rfl (by decide)⟩

/-- Counterexample to C4 as stated: the terms `caf\xe9` and `caf\xe8` (the
bytes of Latin-1 text, not well-formed UTF-8) are distinct, and `add` accepts
both.  The export writes each of them as `caf` followed by U+FFFD, so the
file decodes to two cards with one term, and importing it into the empty
store yields one card.  The program runs through it: one run adds the two
cards and exports them at `exit`, the next run imports the file at its
start. -/
theorem export_then_import_merges_terms :
    (∃ s1 : State,
      ExportFile { initial [] (fun _ => none) (fun _ => false) with
          cards := [⟨"caf\xe9", "a drink", 0⟩, ⟨"caf\xe8", "a place", 0⟩] } "cards.json"
        = Except.ok s1 ∧
      (terms [⟨"caf\xe9", "a drink", 0⟩, ⟨"caf\xe8", "a place", 0⟩]).Nodup ∧
      s1.files "cards.json" = some (FileData.cardList
        [⟨"caf\xef\xbf\xbd", "a drink", 0⟩, ⟨"caf\xef\xbf\xbd", "a place", 0⟩]) ∧
      Update [] [⟨"caf\xef\xbf\xbd", "a drink", 0⟩, ⟨"caf\xef\xbf\xbd", "a place", 0⟩]
        = Except.ok [⟨"caf\xef\xbf\xbd", "a place", 0⟩] ∧
      ∃ s2 : State,
        ImportFile (initial [] s1.files (fun _ => false)) "cards.json" = Except.ok s2 ∧
        s2.cards = [⟨"caf\xef\xbf\xbd", "a place", 0⟩]) ∧
    (∃ s1 : State,
      main "" "cards.json"
        ["add", "caf\xe9", "a drink", "add", "caf\xe8", "a place", "exit"]
        (fun _ => none) (fun _ => false) = Except.ok s1 ∧
      s1.cards = [⟨"caf\xe9", "a drink", 0⟩, ⟨"caf\xe8", "a place", 0⟩] ∧
      ∃ s2 : State,
        main "cards.json" "" ["exit"] s1.files (fun _ => false) = Except.ok s2 ∧
        s2.cards = [⟨"caf\xef\xbf\xbd", "a place", 0⟩] ∧
        (⟨"caf\xe9", "a drink", 0⟩ : Flashcard) ∈ s1.cards ∧
        (⟨"caf\xe9", "a drink", 0⟩ : Flashcard) ∉ s2.cards ∧
        s2.cards.length ≠ s1.cards.length) :=
  ⟨⟨_, rfl, by decide, by decide, rfl, _, rfl, by decide⟩,
    ⟨_, rfl, by decide, _, rfl, by decide, by decide, by decide, by decide⟩⟩

/-! ## Importing a card whose term the store holds -/

/-- C8: when the store has a card with term `t`, first at index `k`, `Update`
with the one imported card `(t, d, m)` completes; the store keeps its length,
holds `(t, d, m)` at index `k` and at every other index the card it held
before.  `ImportFile` of a file with that one card does the same to the
store. -/
theorem Update_overwrites_in_place (cards : List Flashcard) (k : Nat) (old : Flashcard)
    (t d : String) (m : Int) (hk : cards[k]? = some old) (hterm : old.Term = t)
    (hfirst : ∀ (j : Nat) (c : Flashcard), j < k → cards[j]? = some c → c.Term ≠ t) :
    (∃ cards1 : List Flashcard, Update cards [⟨t, d, m⟩] = Except.ok cards1 ∧
      cards1.length = cards.length ∧ cards1[k]? = some ⟨t, d, m⟩ ∧
      ∀ j : Nat, j ≠ k → cards1[j]? = cards[j]?) ∧
    (∀ (s : State) (filename : String), s.cards = cards →
      s.files filename = some (FileData.cardList [⟨t, d, m⟩]) →
      ∃ s1 : State, ImportFile s filename = Except.ok s1 ∧
        s1.cards.length = cards.length ∧ s1.cards[k]? = some ⟨t, d, m⟩ ∧
        ∀ j : Nat, j ≠ k → s1.cards[j]? = cards[j]?) := by
  have hn : k < cards.length := (List.getElem?_eq_some_iff.mp hk).1
  have hup : upsert cards ⟨t, d, m⟩ = cards.set k ⟨t, d, m⟩ :=
    upsert_found hk hterm hfirst
  have hfold : [(⟨t, d, m⟩ : Flashcard)].foldl upsert cards = cards.set k ⟨t, d, m⟩ := by
    simp [hup]
  have hk1 : (cards.set k ⟨t, d, m⟩)[k]? = some ⟨t, d, m⟩ := by
    simp [List.getElem?_set, hn]
  have hother : ∀ j : Nat, j ≠ k → (cards.set k ⟨t, d, m⟩)[j]? = cards[j]? := by
    intro j hj
    simp [List.getElem?_set, Ne.symm hj]
  constructor
  · refine ⟨_, Update_eq_foldl _ _, ?_, ?_, ?_⟩
    · rw [hfold]; simp
    · rw [hfold]; exact hk1
    · rw [hfold]; exact hother
  · intro s filename hs hfile
    simp only [ImportFile, hfile, printLog_cards, hs, Update_eq_foldl, hfold]
    exact ⟨_, rfl, by simp, hk1, hother⟩

theorem Update_overwrites_in_place_witness :
    (∃ cards1 : List Flashcard,
      Update [⟨"cat", "a feline", 0⟩, ⟨"dog", "a canine", 3⟩, ⟨"owl", "a bird", 1⟩]
        [⟨"dog", "a pet", 5⟩] = Except.ok cards1 ∧
      cards1.length
        = [(⟨"cat", "a feline", 0⟩ : Flashcard), ⟨"dog", "a canine", 3⟩,
            ⟨"owl", "a bird", 1⟩].length ∧
      cards1[1]? = some ⟨"dog", "a pet", 5⟩ ∧
      ∀ j : Nat, j ≠ 1 → cards1[j]?
        = [(⟨"cat", "a feline", 0⟩ : Flashcard), ⟨"dog", "a canine", 3⟩,
            ⟨"owl", "a bird", 1⟩][j]?) ∧
    (∀ (s : State) (filename : String),
      s.cards = [⟨"cat", "a feline", 0⟩, ⟨"dog", "a canine", 3⟩, ⟨"owl", "a bird", 1⟩] →
      s.files filename = some (FileData.cardList [⟨"dog", "a pet", 5⟩]) →
      ∃ s1 : State, ImportFile s filename = Except.ok s1 ∧
        s1.cards.length
          = [(⟨"cat", "a feline", 0⟩ : Flashcard), ⟨"dog", "a canine", 3⟩,
              ⟨"owl", "a bird", 1⟩].length ∧
        s1.cards[1]? = some ⟨"dog", "a pet", 5⟩ ∧
        ∀ j : Nat, j ≠ 1 → s1.cards[j]?
          = [(⟨"cat", "a feline", 0⟩ : Flashcard), ⟨"dog", "a canine", 3⟩,
              ⟨"owl", "a bird", 1⟩][j]?) :=
  Update_overwrites_in_place
    [⟨"cat", "a feline", 0⟩, ⟨"dog", "a canine", 3⟩, ⟨"owl", "a bird", 1⟩] 1
    ⟨"dog", "a canine", 3⟩ "dog" "a pet" 5 rfl rfl (by
      intro j c hj hc
      have hj0 : j = 0 := by omega
      subst hj0
      simp only [List.getElem?_cons_zero, Option.some.injEq] at hc
      subst hc
      decide)

/-! ## One quiz round -/

@[simp] theorem printLog_stdout (s : State) (m : String) (ps : List Param) :
    (printLog s m ps).stdout = s.stdout ++ sprintf (m ++ "\n") ps := rfl

@[simp] theorem printLog_history (s : State) (m : String) (ps : List Param) :
    (printLog s m ps).history = s.history ++ sprintf (m ++ "\n") ps := rfl

@[simp] theorem readLine_stdout (s : State) : (readLine s).2.stdout = s.stdout := by
  unfold readLine; cases s.input <;> rfl

@[simp] theorem readLine_history (s : State) : (readLine s).2.history = s.history := by
  unfold readLine; cases s.input <;> rfl

theorem sprintf_roundPrompt (t : String) :
    sprintf ("Print the definition of \"%s\":" ++ "\n") [Param.str t] = roundPrompt t := by
  apply String.ext
  simp [sprintf, sprintfChars, roundPrompt]

theorem sprintf_correct : sprintf ("Correct!" ++ "\n") [] = "Correct!\n" := by decide

theorem wrapInt_succ {x : Int} (h : isGoInt x) (hmax : x ≠ maxInt) : wrapInt (x + 1) = x + 1 := by
  unfold isGoInt minInt maxInt at *
  unfold wrapInt
  omega

theorem wrapInt_succ_maxInt : wrapInt (maxInt + 1) = minInt := by decide

/-- A round whose answer is the definition of the card. -/
theorem TestCard_right {s : State} {k : Nat} {card : Flashcard} (hk : s.cards[k]? = some card)
    (hanswer : (readLine s).1 = card.Definition) :
    TestCard s (k : Int) = Except.ok (printLog
      (readLine (printLog s "Print the definition of \"%s\":" [Param.str card.Term])).2
      "Correct!" []) := by
  simp [TestCard, cardAt_ok hk, hanswer]

/-- A round whose answer is not the definition of the card: the round
completes and only the mistake count of that card changes. -/
theorem TestCard_wrong {s : State} {k : Nat} {card : Flashcard} (hk : s.cards[k]? = some card)
    (hanswer : (readLine s).1 ≠ card.Definition) :
    ∃ s1 : State, TestCard s (k : Int) = Except.ok s1 ∧
      s1.cards = s.cards.set k { card with Mistakes := wrapInt (card.Mistakes + 1) } := by
  have hn : k < s.cards.length := (List.getElem?_eq_some_iff.mp hk).1
  simp only [TestCard, cardAt_ok hk, readLine_printLog_fst, hanswer, if_false, readLine_cards,
    printLog_cards, setCardAt_ok hn]
  rcases Contains_cases (s.cards.set k { card with Mistakes := wrapInt (card.Mistakes + 1) })
    (readLine s).1 true with ⟨n, c, hc, _, _, hres⟩ | ⟨_, hres⟩
  · simp only [hres, if_true, cardAt_ok hc]
    exact ⟨_, rfl, rfl⟩
  · simp only [hres, Bool.false_eq_true, if_false]
    exact ⟨_, rfl, rfl⟩

/-- C5 as the code has it: in one quiz round on a valid index `k`, an
answer equal to the definition of card `k` leaves the store unchanged and
prints `Correct!` after the prompt; any other answer replaces card `k` by the
same card with its mistake count incremented in Go `int` arithmetic and
changes nothing else in the store.  The count grows by exactly one unless it
is the largest `int`, where it wraps to the smallest.  In the scenario of the
two cards cat and dog, `Ask` with 2 rounds and the answers "a feline" and
"wrong" ends with the counts 0 and 1. -/
theorem TestCard_round (s : State) (k : Nat) (card : Flashcard)
    (hk : s.cards[k]? = some card) :
    ((readLine s).1 = card.Definition →
      ∃ s1 : State, TestCard s (k : Int) = Except.ok s1 ∧ s1.cards = s.cards ∧
        reports s s1 (roundPrompt card.Term ++ "Correct!\n")) ∧
    ((readLine s).1 ≠ card.Definition →
      ∃ s1 : State, TestCard s (k : Int) = Except.ok s1 ∧
        s1.cards = s.cards.set k { card with Mistakes := wrapInt (card.Mistakes + 1) } ∧
        (isGoInt card.Mistakes → card.Mistakes ≠ maxInt →
          s1.cards = s.cards.set k { card with Mistakes := card.Mistakes + 1 }) ∧
        (card.Mistakes = maxInt →
          s1.cards = s.cards.set k { card with Mistakes := minInt })) ∧
    (∃ s1 : State,
      Ask { initial ["2", "a feline", "wrong"] (fun _ => none) (fun _ => false) with
          cards := [⟨"cat", "a feline", 0⟩, ⟨"dog", "a canine", 0⟩] } = Except.ok s1 ∧
      s1.cards = [⟨"cat", "a feline", 0⟩, ⟨"dog", "a canine", 1⟩]) := by
  refine ⟨?_, ?_, ⟨_, rfl, by decide⟩⟩
  · intro hanswer
    refine ⟨_, TestCard_right hk hanswer, by simp, ?_, ?_⟩
    · simp only [printLog_stdout, readLine_stdout, sprintf_roundPrompt, sprintf_correct,
        String.append_assoc]
    · simp only [printLog_history, readLine_history, sprintf_roundPrompt, sprintf_correct,
        String.append_assoc]
  · intro hanswer
    obtain ⟨s1, hrun, hcards⟩ := TestCard_wrong hk hanswer
    refine ⟨s1, hrun, hcards, ?_, ?_⟩
    · intro hint hmax
      rw [hcards, wrapInt_succ hint hmax]
    · intro hmax
      rw [hcards, hmax, wrapInt_succ_maxInt]

theorem TestCard_round_witness :
    ((readLine { initial ["wrong"] (fun _ => none) (fun _ => false) with
          cards := [⟨"cat", "a feline", 0⟩, ⟨"dog", "a canine", 0⟩] }).1 ≠ "a canine") ∧
    (∃ s1 : State,
      TestCard { initial ["wrong"] (fun _ => none) (fun _ => false) with
          cards := [⟨"cat", "a feline", 0⟩, ⟨"dog", "a canine", 0⟩] } 1 = Except.ok s1 ∧
      s1.cards = [⟨"cat", "a feline", 0⟩, ⟨"dog", "a canine", 1⟩]) := by
  have h := (TestCard_round
    { initial ["wrong"] (fun _ => none) (fun _ => false) with
      cards := [⟨"cat", "a feline", 0⟩, ⟨"dog", "a canine", 0⟩] }
    1 ⟨"dog", "a canine", 0⟩ rfl).2.1 (by decide)
  obtain ⟨s1, hrun, _, hgrow, _⟩ := h
  exact ⟨by decide, s1, hrun, hgrow (by decide) (by decide)⟩

/-- Counterexample to C5 as stated: on a card whose mistake count is the largest
`int`, a wrong answer does not make the count grow by one; it becomes the
smallest `int`.  A run of the program gets there by importing such a card and
asking once. -/
theorem TestCard_increment_wraps :
    (∃ s1 : State,
      TestCard { initial ["wrong"] (fun _ => none) (fun _ => false) with
          cards := [⟨"cat", "a feline", 9223372036854775807⟩] } 0 = Except.ok s1 ∧
      s1.cards = [⟨"cat", "a feline", -9223372036854775808⟩] ∧
      s1.cards ≠ [⟨"cat", "a feline", 9223372036854775807 + 1⟩]) ∧
    (∃ s1 : State,
      main "" "" ["import", "cards.json", "ask", "1", "wrong", "exit"]
        (fun f => if f = "cards.json" then
          some (FileData.cardList [⟨"cat", "a feline", 9223372036854775807⟩]) else none)
        (fun _ => false) = Except.ok s1 ∧
      s1.cards = [⟨"cat", "a feline", -9223372036854775808⟩]) :=
  ⟨⟨_, rfl, by decide, by decide⟩, ⟨_, rfl, by decide⟩⟩

/-! ## The hardest-card report -/

theorem foldl_maximum_spec : ∀ (cards : List Flashcard) (a : Int),
    a ≤ cards.foldl (fun maximum card =>
        if card.Mistakes > maximum then card.Mistakes else maximum) a ∧
    (∀ c ∈ cards, c.Mistakes ≤ cards.foldl (fun maximum card =>
        if card.Mistakes > maximum then card.Mistakes else maximum) a) ∧
    (cards.foldl (fun maximum card =>
        if card.Mistakes > maximum then card.Mistakes else maximum) a = a ∨
      ∃ c ∈ cards, c.Mistakes = cards.foldl (fun maximum card =>
        if card.Mistakes > maximum then card.Mistakes else maximum) a) := by
  intro cards
  induction cards with
  | nil => intro a; simp
  | cons x xs ih =>
    intro a
    simp only [List.foldl_cons, List.mem_cons, forall_eq_or_imp, exists_eq_or_imp]
    by_cases hx : x.Mistakes > a
    · simp only [hx, if_true]
      obtain ⟨h1, h2, h3⟩ := ih x.Mistakes
      refine ⟨by omega, ⟨h1, h2⟩, ?_⟩
      rcases h3 with h3 | h3
      · right; left; exact h3.symm
      · right; right; exact h3
    · simp only [hx, if_false]
      obtain ⟨h1, h2, h3⟩ := ih a
      refine ⟨h1, ⟨by omega, h2⟩, ?_⟩
      rcases h3 with h3 | h3
      · left; exact h3
      · right; right; exact h3

theorem maximumMistakes_spec (cards : List Flashcard) :
    0 ≤ maximumMistakes cards ∧ (∀ c ∈ cards, c.Mistakes ≤ maximumMistakes cards) ∧
    (maximumMistakes cards = 0 ∨ ∃ c ∈ cards, c.Mistakes = maximumMistakes cards) :=
  foldl_maximum_spec cards 0

theorem maximumMistakes_eq {cards : List Flashcard} {m : Int} (hpos : 0 ≤ m)
    (hmax : ∀ c ∈ cards, c.Mistakes ≤ m) (hattained : ∃ c ∈ cards, c.Mistakes = m) :
    maximumMistakes cards = m := by
  obtain ⟨h0, hle, hor⟩ := maximumMistakes_spec cards
  obtain ⟨c, hc, hcm⟩ := hattained
  have h1 : m ≤ maximumMistakes cards := by rw [← hcm]; exact hle c hc
  rcases hor with h | ⟨c1, hc1, hc1m⟩
  · omega
  · have := hmax c1 hc1
    omega

theorem maximumMistakes_eq_zero_iff (cards : List Flashcard) :
    maximumMistakes cards = 0 ↔ ∀ c ∈ cards, c.Mistakes ≤ 0 := by
  obtain ⟨h0, hle, hor⟩ := maximumMistakes_spec cards
  constructor
  · intro h c hc
    have := hle c hc
    omega
  · intro h
    rcases hor with h1 | ⟨c1, hc1, hc1m⟩
    · exact h1
    · have := h c1 hc1
      omega

theorem sprintf_hardest (verb listed pronoun : String) (m : Int) :
    sprintf ("The hardest card%s %s. You have %d errors answering %s." ++ "\n")
      [Param.str verb, Param.str listed, Param.int m, Param.str pronoun] =
    "The hardest card" ++ verb ++ " " ++ listed ++ ". You have " ++ decimal m ++
      " errors answering " ++ pronoun ++ ".\n" := by
  apply String.ext
  simp [sprintf, sprintfChars, decimal]

theorem sprintf_no_errors :
    sprintf ("There are no cards with errors." ++ "\n") [] = "There are no cards with errors.\n" := by
  decide

theorem Hardest_cards (s : State) : (Hardest s).cards = s.cards := by
  unfold Hardest; split <;> rfl

theorem Hardest_zero {s : State} (h : maximumMistakes s.cards = 0) :
    reports s (Hardest s) "There are no cards with errors.\n" := by
  simp only [Hardest, h, if_true, reports, printLog_stdout, printLog_history, sprintf_no_errors,
    and_self]

theorem Hardest_nonzero {s : State} (h : maximumMistakes s.cards ≠ 0) :
    reports s (Hardest s)
      (hardestSentence (decide ((hardestCards s.cards).length > 1))
        (hardestTerms (hardestCards s.cards)) (maximumMistakes s.cards)) := by
  simp only [Hardest, h, if_false, reports, printLog_stdout, printLog_history, sprintf_hardest,
    hardestSentence]
  simp [String.append_assoc]

theorem join_cons (sep a : String) (l : List String) :
    join sep (a :: l) = a ++ (if l = [] then "" else sep ++ join sep l) := by
  cases l with
  | nil => simp [join]
  | cons b rest => simp [join, String.append_assoc]

theorem hardestCards_eq {cards : List Flashcard} {m : Int} (h : maximumMistakes cards = m) :
    hardestCards cards = withMistakes m cards := by
  simp only [hardestCards, withMistakes, h]
  congr 1

theorem hardestTerms_eq (cards : List Flashcard) :
    hardestTerms cards = join ", " (cards.map (fun c => "\"" ++ c.Term ++ "\"")) := by
  simp only [hardestTerms, List.map_map]
  rfl

/-- C6: when the largest mistake count `m` of the store is above zero,
`Hardest` leaves the store alone and prints one sentence listing, each in
double quotes and joined by ", ", the terms of exactly the cards whose count
is `m`, in store order: in the singular form when one card has the count `m`,
in the plural form when several cards tie. -/
theorem Hardest_lists_all_ties (s : State) (m : Int) (hpos : 0 < m)
    (hmax : ∀ c ∈ s.cards, c.Mistakes ≤ m) (hattained : ∃ c ∈ s.cards, c.Mistakes = m) :
    (Hardest s).cards = s.cards ∧ withMistakes m s.cards ≠ [] ∧
    (∀ c : Flashcard, withMistakes m s.cards = [c] →
      reports s (Hardest s)
        ("The hardest card is \"" ++ c.Term ++ "\". You have " ++ decimal m ++
          " errors answering it.\n")) ∧
    (1 < (withMistakes m s.cards).length →
      reports s (Hardest s)
        ("The hardest cards are " ++
          join ", " ((withMistakes m s.cards).map (fun c => "\"" ++ c.Term ++ "\"")) ++
          ". You have " ++ decimal m ++ " errors answering them.\n")) := by
  have hm : maximumMistakes s.cards = m := maximumMistakes_eq (by omega) hmax hattained
  have hne : maximumMistakes s.cards ≠ 0 := by omega
  have hrep := Hardest_nonzero hne
  rw [hardestCards_eq hm, hardestTerms_eq, hm] at hrep
  refine ⟨Hardest_cards s, ?_, ?_, ?_⟩
  · obtain ⟨c, hc, hcm⟩ := hattained
    intro hnil
    have : c ∈ withMistakes m s.cards := by simp [withMistakes, hc, hcm]
    rw [hnil] at this
    exact absurd this (List.not_mem_nil c)
  · intro c hone
    rw [hone] at hrep
    simpa [hardestSentence, join, String.append_assoc] using hrep
  · intro hmany
    simpa [hardestSentence, hmany, String.append_assoc] using hrep

theorem Hardest_lists_all_ties_witness :
    reports
      { initial [] (fun _ => none) (fun _ => false) with
        cards := [⟨"cat", "a feline", 3⟩, ⟨"dog", "a canine", 1⟩, ⟨"owl", "a bird", 3⟩,
          ⟨"eel", "a fish", 0⟩] }
      (Hardest { initial [] (fun _ => none) (fun _ => false) with
        cards := [⟨"cat", "a feline", 3⟩, ⟨"dog", "a canine", 1⟩, ⟨"owl", "a bird", 3⟩,
          ⟨"eel", "a fish", 0⟩] })
      "The hardest cards are \"cat\", \"owl\". You have 3 errors answering them.\n" :=
  (Hardest_lists_all_ties
    { initial [] (fun _ => none) (fun _ => false) with
      cards := [⟨"cat", "a feline", 3⟩, ⟨"dog", "a canine", 1⟩, ⟨"owl", "a bird", 3⟩,
        ⟨"eel", "a fish", 0⟩] }
    3 (by decide) (by decide) (by decide)).2.2.2 (by decide)

theorem hardestSentence_ne_no_errors (plural : Bool) (listed : String) (m : Int) :
    hardestSentence plural listed m ≠ "There are no cards with errors.\n" := by
  intro h
  simp only [hardestSentence, String.append_assoc] at h
  have h1 : (("The hardest card" ++ ((if plural = true then "s are" else " is") ++ (" " ++
      (listed ++ (". You have " ++ (decimal m ++ (" errors answering " ++
        ((if plural = true then "them" else "it") ++ ".\n")))))))).data)[3]? = some ' ' := by
    rw [String.data_append, List.getElem?_append_left (by decide)]
    decide
  rw [h] at h1
  exact absurd h1 (by decide)

theorem no_errors_names_nobody (card : Flashcard) :
    ¬ names "There are no cards with errors.\n" card := by
  rintro ⟨before, after, h⟩
  have hmem : '"' ∈ ("There are no cards with errors.\n" : String).data := by
    rw [h]
    simp only [String.data_append, List.mem_append]
    left; left; left; right
    decide
  exact absurd hmem (by decide)

theorem hardestSentence_names_head (plural : Bool) (c : Flashcard) (rest : List Flashcard)
    (m : Int) : names (hardestSentence plural (hardestTerms (c :: rest)) m) c := by
  refine ⟨"The hardest card" ++ (if plural then "s are" else " is") ++ " ",
    (if (rest.map (fun card => card.Term)).map quotes = [] then ""
      else ", " ++ join ", " ((rest.map (fun card => card.Term)).map quotes)) ++
      ". You have " ++ decimal m ++ " errors answering " ++ (if plural then "them" else "it") ++
      ".\n", ?_⟩
  simp only [hardestSentence, hardestTerms, List.map_cons, join_cons, quotes, String.append_assoc]

/-- C7 as the code has it: `Hardest` leaves the store alone and prints
`There are no cards with errors.` if and only if no card has a mistake count
above zero (for a store without negative counts: if and only if every count is
zero; the empty store is included).  In that case the text names no card, and
in every other case it names a card of the store that has a count above
zero. -/
theorem Hardest_no_errors_iff (s : State) :
    ∃ text : String, reports s (Hardest s) text ∧ (Hardest s).cards = s.cards ∧
      (text = "There are no cards with errors.\n" ↔ ∀ c ∈ s.cards, c.Mistakes ≤ 0) ∧
      ((∀ c ∈ s.cards, 0 ≤ c.Mistakes) →
        (text = "There are no cards with errors.\n" ↔ ∀ c ∈ s.cards, c.Mistakes = 0)) ∧
      (text = "There are no cards with errors.\n" → ∀ c : Flashcard, ¬ names text c) ∧
      (text ≠ "There are no cards with errors.\n" →
        ∃ c ∈ s.cards, 0 < c.Mistakes ∧ names text c) := by
  by_cases h : maximumMistakes s.cards = 0
  · have hall := (maximumMistakes_eq_zero_iff s.cards).mp h
    refine ⟨_, Hardest_zero h, Hardest_cards s, ?_, ?_, ?_, ?_⟩
    · exact ⟨fun _ => hall, fun _ => rfl⟩
    · intro hnonneg
      refine ⟨fun _ c hc => ?_, fun _ => rfl⟩
      have h1 := hall c hc
      have h2 := hnonneg c hc
      omega
    · intro _ c; exact no_errors_names_nobody c
    · intro hne; exact absurd rfl hne
  · have hnot : ¬ ∀ c ∈ s.cards, c.Mistakes ≤ 0 :=
      fun hall => h ((maximumMistakes_eq_zero_iff s.cards).mpr hall)
    have hne := hardestSentence_ne_no_errors (decide ((hardestCards s.cards).length > 1))
      (hardestTerms (hardestCards s.cards)) (maximumMistakes s.cards)
    refine ⟨_, Hardest_nonzero h, Hardest_cards s, ?_, ?_, ?_, ?_⟩
    · exact ⟨fun heq => absurd heq hne, fun hall => absurd hall hnot⟩
    · intro _
      refine ⟨fun heq => absurd heq hne, fun hall => absurd (fun c hc => ?_) hnot⟩
      rw [hall c hc]
    · intro heq; exact absurd heq hne
    · intro _
      obtain ⟨h0, _, hor⟩ := maximumMistakes_spec s.cards
      rcases hor with hz | ⟨c, hc, hcm⟩
      · exact absurd hz h
      · have hmem : c ∈ hardestCards s.cards := by simp [hardestCards, hc, hcm]
        cases hh : hardestCards s.cards with
        | nil => rw [hh] at hmem; exact absurd hmem (List.not_mem_nil c)
        | cons c0 rest =>
          have hc0 : c0 ∈ hardestCards s.cards := by rw [hh]; exact List.mem_cons_self _ _
          have hc0' : c0 ∈ s.cards ∧ c0.Mistakes = maximumMistakes s.cards := by
            simpa [hardestCards] using hc0
          refine ⟨c0, hc0'.1, by omega, ?_⟩
          exact hardestSentence_names_head _ c0 rest _

theorem Hardest_no_errors_iff_witness :
    ∃ text : String,
      reports { initial [] (fun _ => none) (fun _ => false) with
          cards := [⟨"cat", "a feline", 0⟩, ⟨"dog", "a canine", 0⟩] }
        (Hardest { initial [] (fun _ => none) (fun _ => false) with
          cards := [⟨"cat", "a feline", 0⟩, ⟨"dog", "a canine", 0⟩] }) text ∧
      text = "There are no cards with errors.\n" := by
  obtain ⟨text, hrep, _, hiff, _⟩ := Hardest_no_errors_iff
    { initial [] (fun _ => none) (fun _ => false) with
      cards := [⟨"cat", "a feline", 0⟩, ⟨"dog", "a canine", 0⟩] }
  exact ⟨text, hrep, hiff.mpr (by decide)⟩

/-- Counterexample to C7 as stated: a store whose only card has the mistake
count -1 has the largest count -1, not zero, and not every count is zero, yet
`Hardest` prints `There are no cards with errors.`  A run of the program gets
there by importing such a card and asking for the hardest card. -/
theorem Hardest_no_errors_with_negative_count :
    reports { initial [] (fun _ => none) (fun _ => false) with
        cards := [⟨"cat", "a feline", -1⟩] }
      (Hardest { initial [] (fun _ => none) (fun _ => false) with
        cards := [⟨"cat", "a feline", -1⟩] })
      "There are no cards with errors.\n" ∧
    (∀ c ∈ [(⟨"cat", "a feline", -1⟩ : Flashcard)], c.Mistakes ≤ -1) ∧
    (∃ c ∈ [(⟨"cat", "a feline", -1⟩ : Flashcard)], c.Mistakes = -1) ∧
    ¬ (∀ c ∈ [(⟨"cat", "a feline", -1⟩ : Flashcard)], c.Mistakes = 0) ∧
    (∃ s1 : State,
      main "" "" ["import", "cards.json", "hardest card", "exit"]
        (fun f => if f = "cards.json" then
          some (FileData.cardList [⟨"cat", "a feline", -1⟩]) else none)
        (fun _ => false) = Except.ok s1 ∧
      s1.cards = [⟨"cat", "a feline", -1⟩] ∧
      s1.history =
        "Input the action (add, remove, import, export, ask, exit, log, hardest card, reset stats):\n" ++
        "File name:\n" ++
        "1 cards have been loaded.\n" ++
        "Input the action (add, remove, import, export, ask, exit, log, hardest card, reset stats):\n" ++
        "There are no cards with errors.\n" ++
        "Input the action (add, remove, import, export, ask, exit, log, hardest card, reset stats):\n") := by
  refine ⟨⟨rfl, rfl⟩, by decide, by decide, by decide, ⟨_, rfl, by decide, rfl⟩⟩

/-! ## What the commands keep of the store -/

theorem map_index_inj {f : Flashcard → String} {cards : List Flashcard}
    (h : (cards.map f).Nodup) {i j : Nat} {a b : Flashcard} (ha : cards[i]? = some a)
    (hb : cards[j]? = some b) (hab : f a = f b) : i = j := by
  have hi : i < cards.length := (List.getElem?_eq_some_iff.mp ha).1
  have hj : j < cards.length := (List.getElem?_eq_some_iff.mp hb).1
  have key := List.nodup_iff_getElem?_ne_getElem?.mp h
  have hti : (cards.map f)[i]? = some (f a) := by simp [ha]
  have htj : (cards.map f)[j]? = some (f b) := by simp [hb]
  rcases Nat.lt_trichotomy i j with hlt | heq | hgt
  · exact absurd (by rw [hti, htj, hab]) (key i j hlt (by simpa using hj))
  · exact heq
  · exact absurd (by rw [hti, htj, hab]) (key j i hgt (by simpa using hi))

/-- Overwriting a slot with the last card and cutting the last slot off keeps
any field of the cards pairwise distinct. -/
theorem swapRemove_map_nodup (f : Flashcard → String) {cards : List Flashcard} {n : Nat}
    {last : Flashcard} (hlast : cards[cards.length - 1]? = some last)
    (h : (cards.map f).Nodup) : (((cards.set n last).dropLast).map f).Nodup := by
  rw [List.nodup_iff_getElem?_ne_getElem?]
  intro i j hij hj
  simp only [List.length_map, List.length_dropLast, List.length_set] at hj
  have hi : i < cards.length - 1 := by omega
  simp only [List.getElem?_map, swapRemove_getElem?, hi, hj, if_true]
  have hci : ∃ a, cards[i]? = some a := ⟨cards[i], List.getElem?_eq_getElem (by omega)⟩
  have hcj : ∃ b, cards[j]? = some b := ⟨cards[j], List.getElem?_eq_getElem (by omega)⟩
  obtain ⟨a, ha⟩ := hci
  obtain ⟨b, hb⟩ := hcj
  by_cases hni : n = i
  · have hnj : n ≠ j := by omega
    simp only [hni, if_true, hnj, if_false, hb, Option.map_some', ne_eq, Option.some.injEq]
    have hij' : ¬ i = j := by omega
    simp only [hij', if_false, hb, Option.map_some', Option.some.injEq]
    intro hf
    have := map_index_inj h hlast hb hf
    omega
  · by_cases hnj : n = j
    · simp only [hni, if_false, hnj, if_true, ha, Option.map_some', ne_eq, Option.some.injEq]
      have hji : ¬ j = i := by omega
      simp only [hji, if_false, ha, Option.map_some', Option.some.injEq]
      intro hf
      have := map_index_inj h ha hlast hf
      omega
    · simp only [hni, if_false, hnj, ha, hb, Option.map_some', ne_eq, Option.some.injEq]
      intro hf
      have := map_index_inj h ha hb hf
      omega

/-- A completed `Remove` keeps any field of the cards pairwise distinct. -/
theorem Remove_map_nodup (f : Flashcard → String) {s s1 : State}
    (hrun : Remove s = Except.ok s1) (h : (s.cards.map f).Nodup) :
    (s1.cards.map f).Nodup := by
  rcases Contains_cases s.cards (readLine s).1 false with ⟨n, c, hc, _, _, hres⟩ | ⟨_, hres⟩
  · have hn : n < s.cards.length := (List.getElem?_eq_some_iff.mp hc).1
    have hne : s.cards ≠ [] := by
      intro h0; rw [h0] at hn; exact absurd hn (by simp)
    obtain ⟨last, hlast⟩ : ∃ last, s.cards.getLast? = some last := by
      cases hl : s.cards.getLast? with
      | none => exact absurd (List.getLast?_eq_none_iff.mp hl) hne
      | some last => exact ⟨last, rfl⟩
    have hlast1 : s.cards[s.cards.length - 1]? = some last := by
      rw [← List.getLast?_eq_getElem?]; exact hlast
    rw [Remove_found hres hn hlast] at hrun
    have hs1 := Except.ok.inj hrun
    rw [← hs1]
    exact swapRemove_map_nodup f hlast1 h
  · rw [Remove_missing (by rw [hres])] at hrun
    have hs1 := Except.ok.inj hrun
    rw [← hs1]
    simpa using h

/-- A completed quiz round keeps the terms and the definitions of the store,
in order. -/
theorem TestCard_keeps {s s1 : State} {index : Int} (hrun : TestCard s index = Except.ok s1) :
    terms s1.cards = terms s.cards ∧ definitions s1.cards = definitions s.cards := by
  unfold TestCard at hrun
  cases hcard : cardAt s.cards index with
  | error e => simp [hcard] at hrun
  | ok card =>
    simp only [hcard] at hrun
    have hidx : 0 ≤ index ∧ s.cards[index.toNat]? = some card := by
      unfold cardAt at hcard
      split at hcard
      · exact Except.noConfusion hcard
      · rename_i hneg
        split at hcard
        · exact Except.noConfusion hcard
        · rename_i c hc
          have : c = card := by simpa using hcard
          rw [← this]
          exact ⟨by omega, hc⟩
    have hn : index.toNat < s.cards.length := (List.getElem?_eq_some_iff.mp hidx.2).1
    have hindex : index = ((index.toNat : Nat) : Int) := by omega
    have hset : ∀ c1 : Flashcard, c1.Term = card.Term → c1.Definition = card.Definition →
        terms (s.cards.set index.toNat c1) = terms s.cards ∧
        definitions (s.cards.set index.toNat c1) = definitions s.cards := by
      intro c1 ht hd
      constructor
      · exact terms_set_same hidx.2 ht.symm
      · apply List.ext_getElem?
        intro j
        simp only [definitions, List.getElem?_map, List.getElem?_set]
        by_cases hnj : index.toNat = j
        · subst hnj
          simp [hn, hidx.2, hd]
        · simp [hnj]
    split at hrun
    · have hs1 := Except.ok.inj hrun
      rw [← hs1]
      simp
    · rw [hindex, setCardAt_ok (by simpa using hn)] at hrun
      simp only at hrun
      have hkeep := hset { card with Mistakes := wrapInt (card.Mistakes + 1) } rfl rfl
      split at hrun
      · split at hrun
        · exact Except.noConfusion hrun
        · have hs1 := Except.ok.inj hrun
          rw [← hs1]
          simpa using hkeep
      · have hs1 := Except.ok.inj hrun
        rw [← hs1]
        simpa using hkeep

theorem AskLoop_keeps : ∀ (rounds : Nat) (i : Int) (s s1 : State),
    AskLoop rounds i s = Except.ok s1 →
      terms s1.cards = terms s.cards ∧ definitions s1.cards = definitions s.cards := by
  intro rounds
  induction rounds with
  | zero =>
    intro i s s1 h
    simp only [AskLoop, Except.ok.injEq] at h
    subst h; exact ⟨rfl, rfl⟩
  | succ rounds ih =>
    intro i s s1 h
    simp only [AskLoop] at h
    split at h
    · exact Except.noConfusion h
    · cases ht : TestCard s (Int.tmod i (s.cards.length : Int)) with
      | error e => simp [ht] at h
      | ok s2 =>
        simp only [ht] at h
        have h1 := TestCard_keeps ht
        have h2 := ih (i + 1) s2 s1 h
        exact ⟨h2.1.trans h1.1, h2.2.trans h1.2⟩

theorem readNumber_cards {s s2 : State} {number : Int}
    (h : readNumber s = Except.ok (number, s2)) : s2.cards = s.cards := by
  unfold readNumber at h
  dsimp only at h
  split at h
  · exact Except.noConfusion h
  · have h1 := Except.ok.inj h
    have h2 : (readLine s).2 = s2 := (Prod.mk.inj h1).2
    rw [← h2]; simp

/-- A completed `Ask` keeps the terms and the definitions of the store. -/
theorem Ask_keeps {s s1 : State} (hrun : Ask s = Except.ok s1) :
    terms s1.cards = terms s.cards ∧ definitions s1.cards = definitions s.cards := by
  unfold Ask at hrun
  dsimp only at hrun
  split at hrun
  · exact Except.noConfusion hrun
  · rename_i number s2 hnum
    have hcards : s2.cards = s.cards := by
      rw [readNumber_cards hnum, printLog_cards]
      split <;> rfl
    have := AskLoop_keeps _ _ _ _ hrun
    rw [hcards] at this
    exact this

theorem Reset_keeps (s : State) :
    terms (Reset s).cards = terms s.cards ∧
    definitions (Reset s).cards = definitions s.cards := by
  simp [Reset, terms, definitions, Function.comp_def]

theorem ImportFile_terms_nodup {s s1 : State} {filename : String}
    (hrun : ImportFile s filename = Except.ok s1) (h : (terms s.cards).Nodup) :
    (terms s1.cards).Nodup := by
  unfold ImportFile at hrun
  split at hrun
  · have hs1 := Except.ok.inj hrun
    rw [← hs1]; simpa using h
  · exact Except.noConfusion hrun
  · rename_i cardsFromFile _
    simp only [printLog_cards, Update_eq_foldl, Except.ok.injEq] at hrun
    rw [← hrun]
    exact foldl_upsert_terms_nodup cardsFromFile s.cards h

theorem Export_cards {s s1 : State} (hrun : Export s = Except.ok s1) : s1.cards = s.cards := by
  unfold Export ExportFile at hrun
  dsimp only at hrun
  split at hrun
  · exact Except.noConfusion hrun
  · have hs1 := Except.ok.inj hrun
    rw [← hs1]
    simp [readFilename]

theorem Log_cards {s s1 : State} (hrun : Log s = Except.ok s1) : s1.cards = s.cards := by
  unfold Log at hrun
  dsimp only at hrun
  split at hrun
  · exact Except.noConfusion hrun
  · have hs1 := Except.ok.inj hrun
    rw [← hs1]
    simp [readFilename]

/-! ## The invariant of the store -/

theorem Reachable_terms_nodup {withImport : Bool} {s : State} (h : Reachable withImport s) :
    (terms s.cards).Nodup := by
  induction h with
  | start input files readOnly => simp [initial, terms]
  | environment input files readOnly _ ih => exact ih
  | add _ hrun ih =>
    obtain ⟨card, hc, _, hnt, _⟩ := Add_ok hrun
    rw [hc]
    simp only [terms, List.map_append, List.map_cons, List.map_nil]
    refine List.Nodup.append ih (List.nodup_singleton _) ?_
    simp only [List.disjoint_singleton]
    exact not_mem_terms_of_Contains hnt
  | remove _ hrun ih => exact Remove_map_nodup (fun card => card.Term) hrun ih
  | importCommand _ _ hrun ih =>
    unfold Import at hrun
    exact ImportFile_terms_nodup hrun (by simpa [readFilename] using ih)
  | importFile filename _ _ hrun ih => exact ImportFile_terms_nodup hrun ih
  | update newCards cards1 _ _ hrun ih =>
    rw [Update_eq_foldl] at hrun
    have := Except.ok.inj hrun
    simp only
    rw [← this]
    exact foldl_upsert_terms_nodup newCards _ ih
  | ask _ hrun ih => rw [(Ask_keeps hrun).1]; exact ih
  | reset _ ih => rw [(Reset_keeps _).1]; exact ih
  | hardest _ ih => rw [Hardest_cards]; exact ih
  | exportCommand _ hrun ih => rw [Export_cards hrun]; exact ih
  | log _ hrun ih => rw [Log_cards hrun]; exact ih

theorem Reachable_definitions_nodup {withImport : Bool} {s : State}
    (h : Reachable withImport s) (hno : withImport = false) : (definitions s.cards).Nodup := by
  induction h with
  | start input files readOnly => simp [initial, definitions]
  | environment input files readOnly _ ih => exact ih
  | add _ hrun ih =>
    obtain ⟨card, hc, _, _, hnd⟩ := Add_ok hrun
    rw [hc]
    simp only [definitions, List.map_append, List.map_cons, List.map_nil]
    refine List.Nodup.append ih (List.nodup_singleton _) ?_
    simp only [List.disjoint_singleton]
    exact not_mem_definitions_of_Contains hnd
  | remove _ hrun ih => exact Remove_map_nodup (fun card => card.Definition) hrun ih
  | importCommand himp _ _ _ => rw [hno] at himp; exact Bool.noConfusion himp
  | importFile filename himp _ _ _ => rw [hno] at himp; exact Bool.noConfusion himp
  | update newCards cards1 himp _ _ _ => rw [hno] at himp; exact Bool.noConfusion himp
  | ask _ hrun ih => rw [(Ask_keeps hrun).2]; exact ih
  | reset _ ih => rw [(Reset_keeps _).2]; exact ih
  | hardest _ ih => rw [Hardest_cards]; exact ih
  | exportCommand _ hrun ih => rw [Export_cards hrun]; exact ih
  | log _ hrun ih => rw [Log_cards hrun]; exact ih

/-- C9 as the code has it: in every store reachable from the empty store
by the operations of the program (add, remove, import/update with any imported
card list, ask, reset stats and the commands that leave the store alone) no
two cards share a term; and in every store reachable without an import, no
two cards share a definition either. -/
theorem reachable_store_distinct (withImport : Bool) (s : State)
    (hreach : Reachable withImport s) :
    (terms s.cards).Nodup ∧ (withImport = false → (definitions s.cards).Nodup) :=
  ⟨Reachable_terms_nodup hreach, Reachable_definitions_nodup hreach⟩

theorem reachable_store_distinct_witness :
    (∃ s : State,
      Reachable true s ∧
      s.cards = [⟨"cat", "a pet", 2⟩, ⟨"dog", "a canine", 0⟩, ⟨"owl", "a bird", 1⟩] ∧
      (terms s.cards).Nodup) ∧
    (∃ s : State,
      Reachable false s ∧
      s.cards = [⟨"cat", "a feline", 0⟩, ⟨"dog", "a canine", 0⟩] ∧
      (terms s.cards).Nodup ∧ (definitions s.cards).Nodup) := by
  constructor
  · obtain ⟨sA, hadd1, sB, hadd2, sC, himport, hcards⟩ :
        ∃ sA : State,
          Add (initial ["cat", "a feline", "cat", "dog", "a feline", "a canine"]
            (fun f => if f = "cards.json" then
              some (FileData.cardList [⟨"owl", "a bird", 1⟩, ⟨"cat", "a pet", 2⟩]) else none)
            (fun _ => false)) = Except.ok sA ∧
          ∃ sB : State, Add sA = Except.ok sB ∧
          ∃ sC : State, ImportFile sB "cards.json" = Except.ok sC ∧
            sC.cards = [⟨"cat", "a pet", 2⟩, ⟨"dog", "a canine", 0⟩, ⟨"owl", "a bird", 1⟩] :=
      ⟨_, rfl, _, rfl, _, rfl, by decide⟩
    have hreach : Reachable true sC :=
      Reachable.importFile "cards.json" rfl
        (Reachable.add (Reachable.add (Reachable.start _ _ _) hadd1) hadd2) himport
    exact ⟨sC, hreach, hcards, (reachable_store_distinct true sC hreach).1⟩
  · obtain ⟨sA, hadd1, sB, hadd2, hcards⟩ :
        ∃ sA : State,
          Add (initial ["cat", "a feline", "cat", "dog", "a feline", "a canine"]
            (fun _ => none) (fun _ => false)) = Except.ok sA ∧
          ∃ sB : State, Add sA = Except.ok sB ∧
            sB.cards = [⟨"cat", "a feline", 0⟩, ⟨"dog", "a canine", 0⟩] :=
      ⟨_, rfl, _, rfl, by decide⟩
    have hreach : Reachable false sB :=
      Reachable.add (Reachable.add (Reachable.start _ _ _) hadd1) hadd2
    have h := reachable_store_distinct false sB hreach
    exact ⟨sB, hreach, hcards, h.1, h.2 rfl⟩

/-- Counterexample to C9 as stated: importing, into the empty store, a file
with two cards of different terms and the same definition gives a reachable
store in which two cards share a definition. -/
theorem import_shares_definition :
    ∃ s : State,
      ImportFile
        (initial []
          (fun f => if f = "cards.json" then
            some (FileData.cardList [⟨"cat", "a pet", 0⟩, ⟨"dog", "a pet", 0⟩]) else none)
          (fun _ => false)) "cards.json" = Except.ok s ∧
      Reachable true s ∧
      s.cards = [⟨"cat", "a pet", 0⟩, ⟨"dog", "a pet", 0⟩] ∧
      ¬ (definitions s.cards).Nodup :=
  have hrun : ImportFile
      (initial []
        (fun f => if f = "cards.json" then
          some (FileData.cardList [⟨"cat", "a pet", 0⟩, ⟨"dog", "a pet", 0⟩]) else none)
        (fun _ => false)) "cards.json" = Except.ok _ := rfl
  have hreach : Reachable true _ :=
    Reachable.importFile "cards.json" rfl (Reachable.start _ _ _) hrun
  ⟨_, hrun, hreach, by decide, by decide⟩

/-! ## What `Remove` does to the store -/

theorem Contains_eq_of_first {cards : List Flashcard} {text : String} {definition : Bool}
    {k : Nat} {c : Flashcard} (hc : cards[k]? = some c) (hs : side definition c = text)
    (hmin : ∀ (j : Nat) (c1 : Flashcard), j < k → cards[j]? = some c1 →
      side definition c1 ≠ text) :
    Contains cards text definition = (true, (k : Int)) := by
  rcases Contains_cases cards text definition with ⟨m, c2, hc2, hs2, hmin2, hres⟩ | ⟨hall, _⟩
  · have hmk : m = k := by
      rcases Nat.lt_trichotomy m k with hlt | heq | hgt
      · exact absurd hs2 (hmin m c2 hlt hc2)
      · exact heq
      · exact absurd hs (hmin2 k c hgt hc)
    rw [hres, hmk]
  · exact absurd hs (hall c (List.getElem?_mem hc))

theorem sprintf_which_card : sprintf ("Which card?" ++ "\n") [] = "Which card?\n" := by decide

theorem sprintf_removed :
    sprintf ("The card has been removed." ++ "\n") [] = "The card has been removed.\n" := by
  decide

theorem sprintf_cannot_remove (t : String) :
    sprintf ("Can't remove \"%s\": there is no such card." ++ "\n") [Param.str t] =
      "Can't remove \"" ++ t ++ "\": there is no such card.\n" := by
  apply String.ext
  simp [sprintf, sprintfChars]

/-- C11: `Remove` reads a term `t`.  If no card has the term `t`, it
completes, leaves the store exactly as it was and prints
`Can't remove "t": there is no such card.` after its prompt.  Otherwise, with
`k` the first index whose card has the term `t` and `n` the length of the
store, it completes and prints `The card has been removed.`, the store has the
length `n - 1`, holds at index `k` the card that was last when `k < n - 1`,
and holds at every other index below `n - 1` the card it held before. -/
theorem Remove_effect (s : State) (t : String) (hread : (readLine s).1 = t) :
    ((∀ c ∈ s.cards, c.Term ≠ t) →
      ∃ s1 : State, Remove s = Except.ok s1 ∧ s1.cards = s.cards ∧
        reports s s1
          ("Which card?\n" ++ ("Can't remove \"" ++ t ++ "\": there is no such card.\n"))) ∧
    (∀ (k : Nat) (card : Flashcard), s.cards[k]? = some card → card.Term = t →
      (∀ (j : Nat) (c : Flashcard), j < k → s.cards[j]? = some c → c.Term ≠ t) →
      ∃ s1 : State, Remove s = Except.ok s1 ∧
        s1.cards.length = s.cards.length - 1 ∧
        (k < s.cards.length - 1 → s1.cards[k]? = s.cards[s.cards.length - 1]?) ∧
        (∀ j : Nat, j < s.cards.length - 1 → j ≠ k → s1.cards[j]? = s.cards[j]?) ∧
        reports s s1 ("Which card?\n" ++ "The card has been removed.\n")) := by
  constructor
  · intro hnone
    have hmiss : (Contains s.cards (readLine s).1 false).1 = false := by
      rw [hread, Contains_false_iff]
      intro c hc; simpa [side] using hnone c hc
    refine ⟨_, Remove_missing hmiss, by simp, ?_, ?_⟩
    · simp only [printLog_stdout, readLine_stdout, sprintf_which_card, sprintf_cannot_remove,
        hread, String.append_assoc]
    · simp only [printLog_history, readLine_history, sprintf_which_card, sprintf_cannot_remove,
        hread, String.append_assoc]
  · intro k card hk hterm hfirst
    have hn : k < s.cards.length := (List.getElem?_eq_some_iff.mp hk).1
    have hne : s.cards ≠ [] := by
      intro h0; rw [h0] at hn; exact absurd hn (by simp)
    obtain ⟨last, hlast⟩ : ∃ last, s.cards.getLast? = some last := by
      cases hl : s.cards.getLast? with
      | none => exact absurd (List.getLast?_eq_none_iff.mp hl) hne
      | some last => exact ⟨last, rfl⟩
    have hlast1 : s.cards[s.cards.length - 1]? = some last := by
      rw [← List.getLast?_eq_getElem?]; exact hlast
    have hfound : Contains s.cards (readLine s).1 false = (true, (k : Int)) := by
      rw [hread]
      exact Contains_eq_of_first hk (by simpa [side] using hterm)
        (fun j c hj hc => by simpa [side] using hfirst j c hj hc)
    refine ⟨_, Remove_found hfound hn hlast, ?_, ?_, ?_, ?_, ?_⟩
    · simp
    · intro hk1
      simp only [printLog_cards, swapRemove_getElem?, hk1, if_true, hlast1]
    · intro j hj hjk
      have hkj : ¬ k = j := fun h => hjk h.symm
      simp only [printLog_cards, swapRemove_getElem?, hj, if_true, hkj, if_false]
    · simp only [printLog_stdout, readLine_stdout, sprintf_which_card, sprintf_removed,
        String.append_assoc]
    · simp only [printLog_history, readLine_history, sprintf_which_card, sprintf_removed,
        String.append_assoc]

theorem Remove_effect_witness :
    ∃ s1 : State,
      Remove { initial ["cat"] (fun _ => none) (fun _ => false) with
          cards := [⟨"cat", "a feline", 0⟩, ⟨"dog", "a canine", 2⟩, ⟨"owl", "a bird", 1⟩] }
        = Except.ok s1 ∧
      s1.cards.length = 3 - 1 ∧
      s1.cards[0]? = some ⟨"owl", "a bird", 1⟩ ∧
      s1.cards[1]? = some ⟨"dog", "a canine", 2⟩ := by
  obtain ⟨s1, hrun, hlen, hk, hothers, _⟩ := (Remove_effect
    { initial ["cat"] (fun _ => none) (fun _ => false) with
      cards := [⟨"cat", "a feline", 0⟩, ⟨"dog", "a canine", 2⟩, ⟨"owl", "a bird", 1⟩] }
    "cat" (by decide)).2 0 ⟨"cat", "a feline", 0⟩ rfl rfl
    (fun j c hj _ => absurd hj (Nat.not_lt_zero j))
  exact ⟨s1, hrun, hlen, hk (by decide), hothers 1 (by decide) (by decide)⟩

/-! ## `Update` only adds and overwrites -/

theorem upsert_length (cards : List Flashcard) (card : Flashcard) :
    cards.length ≤ (upsert cards card).length := by
  rcases upsert_cases cards card with ⟨n, c, _, _, _, heq⟩ | ⟨_, heq⟩
  · rw [heq]; simp
  · rw [heq]; simp

theorem upsert_keeps_slot {cards : List Flashcard} (card : Flashcard) {j : Nat} {c : Flashcard}
    (hc : cards[j]? = some c) :
    ∃ c1 : Flashcard, (upsert cards card)[j]? = some c1 ∧ c1.Term = c.Term := by
  have hj : j < cards.length := (List.getElem?_eq_some_iff.mp hc).1
  rcases upsert_cases cards card with ⟨n, c0, hc0, hct, _, heq⟩ | ⟨_, heq⟩
  · rw [heq]
    by_cases hnj : n = j
    · subst hnj
      refine ⟨card, by simp [List.getElem?_set, hj], ?_⟩
      rw [hc0] at hc
      have : c0 = c := by simpa using hc
      rw [← this, hct]
    · exact ⟨c, by simp [List.getElem?_set, hnj, hc], rfl⟩
  · rw [heq]
    exact ⟨c, by rw [List.getElem?_append_left hj]; exact hc, rfl⟩

theorem upsert_has_term (cards : List Flashcard) (card : Flashcard) :
    card.Term ∈ terms (upsert cards card) := by
  rcases upsert_cases cards card with ⟨n, c0, hc0, _, _, heq⟩ | ⟨_, heq⟩
  · rw [heq]
    have hn : n < cards.length := (List.getElem?_eq_some_iff.mp hc0).1
    simp only [terms, List.mem_map]
    refine ⟨card, ?_, rfl⟩
    apply List.getElem?_mem (n := n)
    simp [List.getElem?_set, hn]
  · rw [heq]; simp [terms]

theorem upsert_terms_mono {cards : List Flashcard} (card : Flashcard) {t : String}
    (h : t ∈ terms cards) : t ∈ terms (upsert cards card) := by
  simp only [terms, List.mem_map] at h
  obtain ⟨c, hc, hct⟩ := h
  obtain ⟨j, hj⟩ := List.mem_iff_getElem?.mp hc
  obtain ⟨c1, hc1, hc1t⟩ := upsert_keeps_slot card hj
  simp only [terms, List.mem_map]
  exact ⟨c1, List.getElem?_mem hc1, by rw [hc1t, hct]⟩

theorem foldl_upsert_additive : ∀ (newCards cards : List Flashcard),
    cards.length ≤ (newCards.foldl upsert cards).length ∧
    (∀ (j : Nat) (c : Flashcard), cards[j]? = some c →
      ∃ c1 : Flashcard, (newCards.foldl upsert cards)[j]? = some c1 ∧ c1.Term = c.Term) ∧
    (∀ t : String, t ∈ terms cards → t ∈ terms (newCards.foldl upsert cards)) ∧
    (∀ x ∈ newCards, x.Term ∈ terms (newCards.foldl upsert cards)) := by
  intro newCards
  induction newCards with
  | nil =>
    intro cards
    exact ⟨Nat.le_refl _, fun j c hc => ⟨c, hc, rfl⟩, fun t ht => ht,
      fun x hx => absurd hx (List.not_mem_nil x)⟩
  | cons card rest ih =>
    intro cards
    obtain ⟨hlen, hslot, hmono, hnew⟩ := ih (upsert cards card)
    simp only [List.foldl_cons]
    refine ⟨Nat.le_trans (upsert_length cards card) hlen, ?_, ?_, ?_⟩
    · intro j c hc
      obtain ⟨c1, hc1, hc1t⟩ := upsert_keeps_slot card hc
      obtain ⟨c2, hc2, hc2t⟩ := hslot j c1 hc1
      exact ⟨c2, hc2, hc2t.trans hc1t⟩
    · intro t ht
      exact hmono t (upsert_terms_mono card ht)
    · intro x hx
      rcases List.mem_cons.mp hx with rfl | hx
      · exact hmono _ (upsert_has_term cards x)
      · exact hnew x hx

/-- C12: for every store and every imported card list `Update` completes and
is never subtractive: the resulting store is at least as long as the original,
every card of the original store is still at its index with its term (only its
definition and its mistake count may differ), and every term of the imported
list occurs in the resulting store. -/
theorem Update_is_additive (cards newCards : List Flashcard) :
    ∃ cards1 : List Flashcard, Update cards newCards = Except.ok cards1 ∧
      cards.length ≤ cards1.length ∧
      (∀ (j : Nat) (c : Flashcard), cards[j]? = some c →
        ∃ c1 : Flashcard, cards1[j]? = some c1 ∧ c1.Term = c.Term) ∧
      (∀ x ∈ newCards, x.Term ∈ terms cards1) := by
  obtain ⟨hlen, hslot, _, hnew⟩ := foldl_upsert_additive newCards cards
  exact ⟨_, Update_eq_foldl newCards cards, hlen, hslot, hnew⟩

theorem Update_is_additive_witness :
    ∃ cards1 : List Flashcard,
      Update [⟨"cat", "a feline", 0⟩, ⟨"dog", "a canine", 3⟩]
        [⟨"owl", "a bird", 1⟩, ⟨"dog", "a pet", 5⟩] = Except.ok cards1 ∧
      2 ≤ cards1.length ∧
      (∃ c1 : Flashcard, cards1[1]? = some c1 ∧ c1.Term = "dog") ∧
      "owl" ∈ terms cards1 := by
  obtain ⟨cards1, hrun, hlen, hslot, hnew⟩ := Update_is_additive
    [⟨"cat", "a feline", 0⟩, ⟨"dog", "a canine", 3⟩]
    [⟨"owl", "a bird", 1⟩, ⟨"dog", "a pet", 5⟩]
  exact ⟨cards1, hrun, hlen, hslot 1 ⟨"dog", "a canine", 3⟩ rfl,
    hnew ⟨"owl", "a bird", 1⟩ (by decide)⟩

/-- C19: for every store whose terms are pairwise distinct and every
imported card list, whether or not it repeats a term of its own or of the
store, `Update` completes and the terms of the resulting store are again
pairwise distinct. -/
theorem Update_keeps_terms_distinct (cards newCards : List Flashcard)
    (hdistinct : (terms cards).Nodup) :
    ∃ cards1 : List Flashcard, Update cards newCards = Except.ok cards1 ∧
      (terms cards1).Nodup :=
  ⟨_, Update_eq_foldl newCards cards, foldl_upsert_terms_nodup newCards cards hdistinct⟩

theorem Update_keeps_terms_distinct_witness :
    ∃ cards1 : List Flashcard,
      Update [⟨"cat", "a feline", 0⟩, ⟨"dog", "a canine", 3⟩]
        [⟨"owl", "a bird", 1⟩, ⟨"dog", "a pet", 5⟩, ⟨"owl", "a night bird", 2⟩]
        = Except.ok cards1 ∧
      (terms cards1).Nodup :=
  Update_keeps_terms_distinct [⟨"cat", "a feline", 0⟩, ⟨"dog", "a canine", 3⟩]
    [⟨"owl", "a bird", 1⟩, ⟨"dog", "a pet", 5⟩, ⟨"owl", "a night bird", 2⟩] (by decide)

/-! ## Resetting the statistics -/

theorem sprintf_reset :
    sprintf ("Card statistics have been reset." ++ "\n") [] =
      "Card statistics have been reset.\n" := by
  decide

/-- C16: for every store, the empty one included, after `Reset` every card
has the mistake count zero, the store has the same length, every card keeps
its term and its definition at its index, and
`Card statistics have been reset.` is printed; a second `Reset` leaves the
store as the first one made it. -/
theorem Reset_effect (s : State) :
    (∀ c ∈ (Reset s).cards, c.Mistakes = 0) ∧
    (Reset s).cards.length = s.cards.length ∧
    (∀ (j : Nat) (c : Flashcard), s.cards[j]? = some c →
      (Reset s).cards[j]? = some ⟨c.Term, c.Definition, 0⟩) ∧
    reports s (Reset s) "Card statistics have been reset.\n" ∧
    (Reset (Reset s)).cards = (Reset s).cards := by
  refine ⟨?_, ?_, ?_, ?_, ?_⟩
  · intro c hc
    simp only [Reset, printLog_cards, List.mem_map] at hc
    obtain ⟨c0, _, hc0⟩ := hc
    rw [← hc0]
  · simp [Reset]
  · intro j c hc
    simp [Reset, hc]
  · simp only [Reset, reports, printLog_stdout, printLog_history, sprintf_reset, and_self]
  · simp [Reset, Function.comp_def]

theorem Reset_effect_witness :
    (Reset { initial [] (fun _ => none) (fun _ => false) with
        cards := [⟨"cat", "a feline", 4⟩, ⟨"dog", "a canine", -2⟩] }).cards
      = [⟨"cat", "a feline", 0⟩, ⟨"dog", "a canine", 0⟩] ∧
    (Reset (initial [] (fun _ => none) (fun _ => false))).cards = [] ∧
    reports (initial [] (fun _ => none) (fun _ => false))
      (Reset (initial [] (fun _ => none) (fun _ => false)))
      "Card statistics have been reset.\n" :=
  ⟨by decide, by decide,
    (Reset_effect (initial [] (fun _ => none) (fun _ => false))).2.2.2.1⟩

/-! ## What a quiz round prints on a wrong answer -/

theorem ContainsFrom_set (text : String) (definition : Bool) :
    ∀ (cards : List Flashcard) (k : Nat) (i : Int) (c c1 : Flashcard), cards[k]? = some c →
      side definition c1 = side definition c →
      ContainsFrom text definition (cards.set k c1) i = ContainsFrom text definition cards i := by
  intro cards
  induction cards with
  | nil => intro k i c c1 h; simp at h
  | cons x xs ih =>
    intro k i c c1 h hside
    cases k with
    | zero =>
      simp only [List.getElem?_cons_zero, Option.some.injEq] at h
      subst h
      simp only [List.set_cons_zero, ContainsFrom_cons, hside]
    | succ k =>
      simp only [List.getElem?_cons_succ] at h
      simp only [List.set_cons_succ, ContainsFrom_cons, ih k (i + 1) c c1 h hside]

theorem Contains_set_mistakes {cards : List Flashcard} {k : Nat} {card : Flashcard}
    (hk : cards[k]? = some card) (m : Int) (text : String) (definition : Bool) :
    Contains (cards.set k { card with Mistakes := m }) text definition =
      Contains cards text definition := by
  unfold Contains
  apply ContainsFrom_set text definition cards k 0 card _ hk
  cases definition <;> rfl

theorem sprintf_wrong_other (d t : String) :
    sprintf ("Wrong. The right answer is \"%s\", but your definition is correct for \"%s\"." ++
        "\n") [Param.str d, Param.str t] =
      "Wrong. The right answer is \"" ++ d ++ "\", but your definition is correct for \"" ++ t ++
        "\".\n" := by
  apply String.ext
  simp [sprintf, sprintfChars]

theorem sprintf_wrong_plain (d : String) :
    sprintf ("Wrong. The right answer is \"%s\".\n" ++ "\n") [Param.str d] =
      "Wrong. The right answer is \"" ++ d ++ "\".\n\n" := by
  apply String.ext
  simp [sprintf, sprintfChars]

/-- A wrong answer that is the definition of some card: the round names the
term of the first such card, which is not the card asked. -/
theorem TestCard_wrong_other {s : State} {k n : Nat} {card other : Flashcard}
    (hk : s.cards[k]? = some card) (hanswer : (readLine s).1 ≠ card.Definition)
    (hn : s.cards[n]? = some other) (hdef : other.Definition = (readLine s).1)
    (hfirst : ∀ (j : Nat) (c : Flashcard), j < n → s.cards[j]? = some c →
      c.Definition ≠ (readLine s).1) :
    n ≠ k ∧ ∃ s1 : State, TestCard s (k : Int) = Except.ok s1 ∧
      s1.cards = s.cards.set k { card with Mistakes := wrapInt (card.Mistakes + 1) } ∧
      reports s s1 (roundPrompt card.Term ++
        ("Wrong. The right answer is \"" ++ card.Definition ++
          "\", but your definition is correct for \"" ++ other.Term ++ "\".\n")) := by
  have hnk : n ≠ k := by
    intro h
    rw [h, hk] at hn
    have : card = other := by simpa using hn
    rw [this] at hanswer
    exact hanswer hdef.symm
  have hlen : k < s.cards.length := (List.getElem?_eq_some_iff.mp hk).1
  have hfound : Contains s.cards (readLine s).1 true = (true, (n : Int)) :=
    Contains_eq_of_first hn (by simpa [side] using hdef)
      (fun j c hj hc => by simpa [side] using hfirst j c hj hc)
  have hother : (s.cards.set k { card with Mistakes := wrapInt (card.Mistakes + 1) })[n]?
      = some other := by
    rw [List.getElem?_set]
    simp [Ne.symm hnk, hn]
  refine ⟨hnk, ?_⟩
  simp only [TestCard, cardAt_ok hk, readLine_printLog_fst, hanswer, if_false, readLine_cards,
    printLog_cards, setCardAt_ok hlen, Contains_set_mistakes hk, hfound, if_true,
    cardAt_ok hother]
  refine ⟨_, rfl, rfl, ?_, ?_⟩
  · simp only [printLog_stdout, readLine_stdout, sprintf_roundPrompt, sprintf_wrong_other,
      String.append_assoc]
  · simp only [printLog_history, readLine_history, sprintf_roundPrompt, sprintf_wrong_other,
      String.append_assoc]

/-- A wrong answer that is the definition of no card: the message is
followed by an empty line, because its format already ends in a newline and
`printLog` appends one more. -/
theorem TestCard_wrong_plain {s : State} {k : Nat} {card : Flashcard}
    (hk : s.cards[k]? = some card) (hanswer : (readLine s).1 ≠ card.Definition)
    (hnone : ∀ c ∈ s.cards, c.Definition ≠ (readLine s).1) :
    ∃ s1 : State, TestCard s (k : Int) = Except.ok s1 ∧
      s1.cards = s.cards.set k { card with Mistakes := wrapInt (card.Mistakes + 1) } ∧
      reports s s1 (roundPrompt card.Term ++
        ("Wrong. The right answer is \"" ++ card.Definition ++ "\".\n\n")) := by
  have hlen : k < s.cards.length := (List.getElem?_eq_some_iff.mp hk).1
  have hmiss : (Contains s.cards (readLine s).1 true).1 = false := by
    rw [Contains_false_iff]
    intro c hc; simpa [side] using hnone c hc
  simp only [TestCard, cardAt_ok hk, readLine_printLog_fst, hanswer, if_false, readLine_cards,
    printLog_cards, setCardAt_ok hlen, Contains_set_mistakes hk, hmiss, Bool.false_eq_true]
  refine ⟨_, rfl, rfl, ?_, ?_⟩
  · simp only [printLog_stdout, readLine_stdout, sprintf_roundPrompt, sprintf_wrong_plain,
      String.append_assoc]
  · simp only [printLog_history, readLine_history, sprintf_roundPrompt, sprintf_wrong_plain,
      String.append_assoc]

/-- C15, at the failing input: with the one card cat / a feline and the
answer "wrong", which is the definition of no card, the round prints the
prompt and then `Wrong. The right answer is "a feline".` followed by two
newlines, not by a single one; with the answer "a canine", the definition of
the card dog, the message ends in a single newline. -/
theorem TestCard_plain_wrong_ends_in_two_newlines :
    (∃ s1 : State,
      TestCard { initial ["wrong"] (fun _ => none) (fun _ => false) with
          cards := [⟨"cat", "a feline", 0⟩] } 0 = Except.ok s1 ∧
      s1.stdout = "Print the definition of \"cat\":\nWrong. The right answer is \"a feline\".\n\n" ∧
      s1.history = "Print the definition of \"cat\":\nWrong. The right answer is \"a feline\".\n\n" ∧
      s1.stdout ≠ "Print the definition of \"cat\":\nWrong. The right answer is \"a feline\".\n") ∧
    (∃ s1 : State,
      TestCard { initial ["a canine"] (fun _ => none) (fun _ => false) with
          cards := [⟨"cat", "a feline", 0⟩, ⟨"dog", "a canine", 0⟩] } 0 = Except.ok s1 ∧
      s1.stdout = "Print the definition of \"cat\":\nWrong. The right answer is \"a feline\", but your definition is correct for \"dog\".\n") :=
  ⟨⟨_, rfl, by decide, by decide, by decide⟩, ⟨_, rfl, by decide⟩⟩

/-! ## The rounds of `Ask` -/

@[simp] theorem readLine_input (s : State) : (readLine s).2.input = s.input.drop 1 := by
  unfold readLine
  cases h : s.input with
  | nil => simp [h]
  | cons line rest => simp

@[simp] theorem askPrompted_cards (s : State) : (askPrompted s).cards = s.cards := by
  unfold askPrompted; rw [printLog_cards]; split <;> rfl

theorem Ask_of_number {s s2 : State} {number : Int}
    (hnum : readNumber (askPrompted s) = Except.ok (number, s2)) :
    Ask s = AskLoop number.toNat 0 s2 := by
  unfold askPrompted at hnum
  unfold Ask
  simp only [hnum]

theorem Ask_of_no_number {s : State} {e : Fault}
    (hnum : readNumber (askPrompted s) = Except.error e) : Ask s = Except.error e := by
  unfold askPrompted at hnum
  unfold Ask
  simp only [hnum]

/-- On an empty store `Ask` panics as soon as one round is due: the index
is computed modulo the length zero. -/
theorem Ask_empty_panics {s s2 : State} {number : Int} (hempty : s.cards = [])
    (hnum : readNumber (askPrompted s) = Except.ok (number, s2)) (hpos : 0 < number) :
    Ask s = Except.error Fault.panic := by
  rw [Ask_of_number hnum]
  have hcards : s2.cards = [] := by
    rw [readNumber_cards hnum, askPrompted_cards, hempty]
  obtain ⟨r, hr⟩ : ∃ r : Nat, number.toNat = r + 1 := ⟨number.toNat - 1, by omega⟩
  rw [hr]
  simp [AskLoop, hcards]

/-- C14, at the failing input: on the empty store, `Ask` that reads the
repetition count 1 prints the warning and the prompt and then panics on the
remainder modulo the length zero; it does not complete.  With the count 0 it
completes and the store stays empty. -/
theorem Ask_on_empty_store_panics :
    Ask (initial ["1"] (fun _ => none) (fun _ => false)) = Except.error Fault.panic ∧
    (askPrompted (initial ["1"] (fun _ => none) (fun _ => false))).stdout
      = "There are no cards available in memory\nHow many times to ask?\n" ∧
    (∃ s1 : State, Ask (initial ["0"] (fun _ => none) (fun _ => false)) = Except.ok s1 ∧
      s1.cards = []) :=
  ⟨rfl, by decide, ⟨_, rfl, rfl⟩⟩

/-- A quiz round on a valid index completes, keeps the length of the store
and consumes one line of input. -/
theorem TestCard_total {s : State} {k : Nat} {card : Flashcard} (hk : s.cards[k]? = some card) :
    ∃ s1 : State, TestCard s (k : Int) = Except.ok s1 ∧
      s1.cards = (if (readLine s).1 = card.Definition then s.cards
        else s.cards.set k { card with Mistakes := wrapInt (card.Mistakes + 1) }) ∧
      s1.cards.length = s.cards.length := by
  by_cases hanswer : (readLine s).1 = card.Definition
  · refine ⟨_, TestCard_right hk hanswer, ?_, ?_⟩
    · simp [hanswer]
    · simp
  · obtain ⟨s1, hrun, hcards⟩ := TestCard_wrong hk hanswer
    refine ⟨s1, hrun, ?_, ?_⟩
    · simp [hanswer, hcards]
    · rw [hcards]; simp

/-- Every quiz round starts by printing the prompt with the term of the card
at its index. -/
theorem TestCard_prompts {s : State} {k : Nat} {card : Flashcard}
    (hk : s.cards[k]? = some card) :
    ∃ (s1 : State) (verdict : String), TestCard s (k : Int) = Except.ok s1 ∧
      reports s s1 (roundPrompt card.Term ++ verdict) := by
  by_cases hanswer : (readLine s).1 = card.Definition
  · refine ⟨_, "Correct!\n", TestCard_right hk hanswer, ?_, ?_⟩
    · simp only [printLog_stdout, readLine_stdout, sprintf_roundPrompt, sprintf_correct,
        String.append_assoc]
    · simp only [printLog_history, readLine_history, sprintf_roundPrompt, sprintf_correct,
        String.append_assoc]
  · rcases Contains_cases s.cards (readLine s).1 true with
      ⟨n, other, hn, hs, hmin, _⟩ | ⟨hall, _⟩
    · obtain ⟨_, s1, hrun, _, hrep⟩ := TestCard_wrong_other hk hanswer hn
        (by simpa [side] using hs) (fun j c hj hc => by simpa [side] using hmin j c hj hc)
      exact ⟨s1, _, hrun, hrep⟩
    · obtain ⟨s1, hrun, _, hrep⟩ := TestCard_wrong_plain hk hanswer
        (fun c hc => by simpa [side] using hall c hc)
      exact ⟨s1, _, hrun, hrep⟩

theorem AskLoop_eq_quizRounds (size : Nat) (hsize : 0 < size) :
    ∀ (r i0 : Nat) (st : State), st.cards.length = size →
      ∃ st1 : State, AskLoop r (i0 : Int) st = Except.ok st1 ∧
        quizRounds size ((List.range r).map (fun i => i + i0)) st = Except.ok st1 ∧
        st1.cards.length = size := by
  intro r
  induction r with
  | zero =>
    intro i0 st hlen
    exact ⟨st, rfl, rfl, hlen⟩
  | succ r ih =>
    intro i0 st hlen
    have hidx : i0 % size < st.cards.length := by rw [hlen]; exact Nat.mod_lt _ hsize
    obtain ⟨card, hcard⟩ : ∃ card, st.cards[i0 % size]? = some card :=
      ⟨st.cards[i0 % size], List.getElem?_eq_getElem hidx⟩
    obtain ⟨st', hrun, _, hlen'⟩ := TestCard_total hcard
    obtain ⟨st1, hloop, hrounds, hlen1⟩ := ih (i0 + 1) st' (hlen'.trans hlen)
    have hne : ¬ st.cards.length = 0 := by omega
    have hcast : ((i0 : Int) + 1) = ((i0 + 1 : Nat) : Int) := by push_cast; rfl
    refine ⟨st1, ?_, ?_, hlen1⟩
    · have hmod : Int.tmod (i0 : Int) (st.cards.length : Int) = ((i0 % size : Nat) : Int) := by
        rw [hlen]; exact (Int.ofNat_tmod i0 size).symm
      rw [AskLoop]
      simp only [hne, if_false, hmod, hrun, hcast]
      exact hloop
    · have hlist : (List.range (r + 1)).map (fun i => i + i0)
          = i0 :: (List.range r).map (fun i => i + (i0 + 1)) := by
        rw [List.range_succ_eq_map]
        simp only [List.map_cons, List.map_map, Nat.zero_add, List.cons.injEq, true_and]
        apply List.map_congr_left
        intro a _
        simp only [Function.comp_apply, Nat.succ_eq_add_one]
        omega
      rw [hlist]
      simp only [quizRounds, hrun, hrounds]

/-! ## Console and log -/

theorem synced_printLog {s : State} (h : synced s) (m : String) (ps : List Param) :
    synced (printLog s m ps) := by
  unfold synced at *
  simp only [printLog_stdout, printLog_history, h]

theorem synced_readLine {s : State} (h : synced s) : synced (readLine s).2 := by
  unfold synced at *
  simp only [readLine_stdout, readLine_history, h]

theorem synced_of_reports {s s1 : State} {text : String} (h : synced s)
    (hr : reports s s1 text) : synced s1 := by
  unfold synced at *
  rw [hr.1, hr.2, h]

theorem ReadSideLoop_synced (definition : Bool) :
    ∀ (pending : List String) (s : State) (r : String × State),
      ReadSideLoop definition pending s = Except.ok r → synced s → synced r.2 := by
  intro pending
  induction pending with
  | nil =>
    intro s r h hs
    simp only [ReadSideLoop] at h
    split at h
    · exact Except.noConfusion h
    · have : readLine s = r := by simpa using h
      rw [← this]; exact synced_readLine hs
  | cons line pending ih =>
    intro s r h hs
    simp only [ReadSideLoop] at h
    split at h
    · exact ih _ r h (synced_printLog (synced_readLine hs) _ _)
    · have : readLine s = r := by simpa using h
      rw [← this]; exact synced_readLine hs

theorem ReadSide_synced {s : State} {definition : Bool} {r : String × State}
    (h : ReadSide s definition = Except.ok r) (hs : synced s) : synced r.2 := by
  unfold ReadSide at h
  refine ReadSideLoop_synced definition _ _ r h ?_
  split <;> exact synced_printLog hs _ _

theorem Add_synced {s s1 : State} (h : Add s = Except.ok s1) (hs : synced s) : synced s1 := by
  unfold Add ReadCard at h
  cases h1 : ReadSide s false with
  | error e => simp [h1] at h
  | ok r1 =>
    obtain ⟨term, sa⟩ := r1
    cases h2 : ReadSide sa true with
    | error e => simp [h1, h2] at h
    | ok r2 =>
      obtain ⟨defn, sb⟩ := r2
      simp only [h1, h2, Except.ok.injEq] at h
      have ha : synced sa := ReadSide_synced h1 hs
      have hb : synced sb := ReadSide_synced h2 ha
      rw [← h]
      exact synced_printLog (s := { sb with cards := sb.cards ++ [⟨term, defn, 0⟩] }) hb _ _

theorem Remove_synced {s s1 : State} (hrun : Remove s = Except.ok s1) (hs : synced s) :
    synced s1 := by
  have hr : synced (readLine (printLog s "Which card?" [])).2 :=
    synced_readLine (synced_printLog hs _ _)
  rcases Contains_cases s.cards (readLine s).1 false with ⟨n, c, hc, _, _, hres⟩ | ⟨_, hres⟩
  · have hn : n < s.cards.length := (List.getElem?_eq_some_iff.mp hc).1
    have hne : s.cards ≠ [] := by
      intro h0; rw [h0] at hn; exact absurd hn (by simp)
    obtain ⟨last, hlast⟩ : ∃ last, s.cards.getLast? = some last := by
      cases hl : s.cards.getLast? with
      | none => exact absurd (List.getLast?_eq_none_iff.mp hl) hne
      | some last => exact ⟨last, rfl⟩
    rw [Remove_found hres hn hlast] at hrun
    rw [← Except.ok.inj hrun]
    exact synced_printLog (s := { (readLine (printLog s "Which card?" [])).2 with
      cards := (s.cards.set n last).dropLast }) hr _ _
  · rw [Remove_missing (by rw [hres])] at hrun
    rw [← Except.ok.inj hrun]
    exact synced_printLog hr _ _

theorem ImportFile_synced {s s1 : State} {filename : String}
    (hrun : ImportFile s filename = Except.ok s1) (hs : synced s) : synced s1 := by
  unfold ImportFile at hrun
  split at hrun
  · rw [← Except.ok.inj hrun]; exact synced_printLog hs _ _
  · exact Except.noConfusion hrun
  · rename_i cardsFromFile _
    simp only [printLog_cards, Update_eq_foldl, Except.ok.injEq] at hrun
    rw [← hrun]
    exact synced_printLog hs _ _

theorem ExportFile_synced {s s1 : State} {filename : String}
    (hrun : ExportFile s filename = Except.ok s1) (hs : synced s) : synced s1 := by
  unfold ExportFile at hrun
  split at hrun
  · exact Except.noConfusion hrun
  · rw [← Except.ok.inj hrun]
    exact synced_printLog (s := { s with files := _ }) hs _ _

theorem synced_readFilename {s : State} (hs : synced s) : synced (readFilename s).2 :=
  synced_readLine (synced_printLog hs _ _)

theorem Log_synced {s s1 : State} (hrun : Log s = Except.ok s1) (hs : synced s) :
    synced s1 := by
  unfold Log at hrun
  dsimp only at hrun
  split at hrun
  · exact Except.noConfusion hrun
  · rw [← Except.ok.inj hrun]
    exact synced_printLog (s := { (readFilename s).2 with files := _ })
      (synced_readFilename hs) _ _

theorem TestCard_ok_index {s s1 : State} {index : Int}
    (hrun : TestCard s index = Except.ok s1) :
    ∃ (k : Nat) (card : Flashcard), index = (k : Int) ∧ s.cards[k]? = some card := by
  unfold TestCard at hrun
  cases hcard : cardAt s.cards index with
  | error e => simp [hcard] at hrun
  | ok card =>
    unfold cardAt at hcard
    split at hcard
    · exact Except.noConfusion hcard
    · split at hcard
      · exact Except.noConfusion hcard
      · rename_i c hc
        exact ⟨index.toNat, c, by omega, hc⟩

theorem TestCard_synced {s s1 : State} {index : Int}
    (hrun : TestCard s index = Except.ok s1) (hs : synced s) : synced s1 := by
  obtain ⟨k, card, hindex, hk⟩ := TestCard_ok_index hrun
  obtain ⟨s1', verdict, hrun', hrep⟩ := TestCard_prompts hk
  rw [hindex, hrun'] at hrun
  rw [← Except.ok.inj hrun]
  exact synced_of_reports hs hrep

theorem AskLoop_synced : ∀ (rounds : Nat) (i : Int) (s s1 : State),
    AskLoop rounds i s = Except.ok s1 → synced s → synced s1 := by
  intro rounds
  induction rounds with
  | zero =>
    intro i s s1 h hs
    simp only [AskLoop, Except.ok.injEq] at h
    rw [← h]; exact hs
  | succ rounds ih =>
    intro i s s1 h hs
    simp only [AskLoop] at h
    split at h
    · exact Except.noConfusion h
    · cases ht : TestCard s (Int.tmod i (s.cards.length : Int)) with
      | error e => simp [ht] at h
      | ok s2 =>
        simp only [ht] at h
        exact ih (i + 1) s2 s1 h (TestCard_synced ht hs)

theorem Ask_synced {s s1 : State} (hrun : Ask s = Except.ok s1) (hs : synced s) :
    synced s1 := by
  have hp : synced (askPrompted s) := by
    unfold askPrompted
    apply synced_printLog
    split
    · exact synced_printLog hs _ _
    · exact hs
  cases hnum : readNumber (askPrompted s) with
  | error e => rw [Ask_of_no_number hnum] at hrun; exact Except.noConfusion hrun
  | ok r =>
    obtain ⟨number, s2⟩ := r
    rw [Ask_of_number hnum] at hrun
    have hs2 : synced s2 := by
      unfold readNumber at hnum
      dsimp only at hnum
      split at hnum
      · exact Except.noConfusion hnum
      · have h2 : (readLine (askPrompted s)).2 = s2 := (Prod.mk.inj (Except.ok.inj hnum)).2
        rw [← h2]; exact synced_readLine hp
    exact AskLoop_synced _ _ _ _ hrun hs2

theorem Hardest_synced {s : State} (hs : synced s) : synced (Hardest s) := by
  unfold Hardest
  split
  · exact synced_printLog hs _ _
  · exact synced_printLog hs _ _

theorem Reset_synced {s : State} (hs : synced s) : synced (Reset s) :=
  synced_printLog (s := { s with cards := _ }) hs _ _

/-- Every command other than `exit` keeps the console and the log equal. -/
theorem command_synced {action : String} {s s1 : State}
    (hrun : command action s = Except.ok s1) (hs : synced s) : synced s1 := by
  unfold command at hrun
  split at hrun
  · exact Add_synced hrun hs
  split at hrun
  · exact Remove_synced hrun hs
  split at hrun
  · exact ImportFile_synced hrun (synced_readFilename hs)
  split at hrun
  · exact ExportFile_synced hrun (synced_readFilename hs)
  split at hrun
  · exact Ask_synced hrun hs
  split at hrun
  · exact Log_synced hrun hs
  split at hrun
  · rw [← Except.ok.inj hrun]; exact Hardest_synced hs
  split at hrun
  · rw [← Except.ok.inj hrun]; exact Reset_synced hs
  · rw [← Except.ok.inj hrun]; exact hs

theorem append_farewell_ne (text : String) : text ++ "Bye bye!\n" ≠ text := by
  intro h
  have hlen := congrArg String.length h
  rw [String.length_append] at hlen
  have h9 : ("Bye bye!\n" : String).length = 9 := by decide
  omega

/-- The case `exit` prints the farewell to the console only. -/
theorem exit_farewell {exportFile : String} {s s1 : State}
    (hrun : exit exportFile s = Except.ok s1) (hs : synced s) :
    s1.stdout = s1.history ++ "Bye bye!\n" := by
  unfold exit at hrun
  split at hrun
  · exact Except.noConfusion hrun
  · rename_i s2 hexport
    have hs2 : synced s2 := by
      split at hexport
      · exact ExportFile_synced hexport hs
      · rw [← Except.ok.inj hexport]; exact hs
    rw [← Except.ok.inj hrun]
    unfold synced at hs2
    simp only [hs2]

theorem mainLoop_farewell (exportFile : String) : ∀ (fuel : Nat) (s s1 : State),
    mainLoop exportFile fuel s = Except.ok s1 → synced s →
      s1.stdout = s1.history ++ "Bye bye!\n" := by
  intro fuel
  induction fuel with
  | zero => intro s s1 h _; exact Except.noConfusion h
  | succ fuel ih =>
    intro s s1 h hs
    simp only [mainLoop] at h
    have hr : synced (readAction s).2 := synced_readLine (synced_printLog hs _ _)
    split at h
    · exact Except.noConfusion h
    · split at h
      · exact exit_farewell h hr
      · split at h
        · exact Except.noConfusion h
        · rename_i s2 hcmd
          exact ih s2 s1 h (command_synced hcmd hr)

theorem main_farewell {importFile exportFile : String} {input : List String}
    {files : String → Option FileData} {readOnly : String → Bool} {s1 : State}
    (hrun : main importFile exportFile input files readOnly = Except.ok s1) :
    s1.stdout = s1.history ++ "Bye bye!\n" := by
  unfold main at hrun
  split at hrun
  · exact Except.noConfusion hrun
  · rename_i s himport
    have hs : synced s := by
      split at himport
      · exact ImportFile_synced himport rfl
      · rw [← Except.ok.inj himport]; rfl
    exact mainLoop_farewell exportFile _ s s1 hrun hs

/-- C17 as the code has it: when the console and the log hold the same
text before a step of the command loop, they hold the same text after the
action is read and after every completed command other than `exit`, every
message being printed and appended to the log by `printLog`.  The command
`exit` prints `Bye bye!` to the console only: after it the console holds the
log followed by that line, so the two differ, and that is how every completed
run of `main` ends. -/
theorem console_matches_log_until_exit (s : State) (hs : synced s) :
    synced (readAction s).2 ∧
    (∀ s1 : State, (readAction s).1 ≠ "exit" →
      command (readAction s).1 (readAction s).2 = Except.ok s1 → synced s1) ∧
    (∀ (exportFile : String) (s1 : State), exit exportFile (readAction s).2 = Except.ok s1 →
      s1.stdout = s1.history ++ "Bye bye!\n" ∧ ¬ synced s1) ∧
    (∀ (importFile exportFile : String) (input : List String)
      (files : String → Option FileData) (readOnly : String → Bool) (s1 : State),
      main importFile exportFile input files readOnly = Except.ok s1 →
        s1.stdout = s1.history ++ "Bye bye!\n") := by
  have hr : synced (readAction s).2 := synced_readLine (synced_printLog hs _ _)
  refine ⟨hr, fun s1 _ hrun => command_synced hrun hr, ?_, ?_⟩
  · intro exportFile s1 hrun
    have h := exit_farewell hrun hr
    refine ⟨h, ?_⟩
    intro hsync
    unfold synced at hsync
    rw [hsync] at h
    exact append_farewell_ne _ h.symm
  · intro importFile exportFile input files readOnly s1 hrun
    exact main_farewell hrun

theorem console_matches_log_until_exit_witness :
    synced (initial ["reset stats", "exit"] (fun _ => none) (fun _ => false)) ∧
    synced (Reset (readAction
      (initial ["reset stats", "exit"] (fun _ => none) (fun _ => false))).2) := by
  have h := console_matches_log_until_exit
    (initial ["reset stats", "exit"] (fun _ => none) (fun _ => false)) rfl
  exact ⟨rfl, h.2.1 _ (by decide) rfl⟩

/-- Counterexample to C17 as stated: in the run of the program that reads the
one line `exit`, the console ends with `Bye bye!` and the log does not hold
that line. -/
theorem exit_farewell_not_logged :
    ∃ s1 : State, main "" "" ["exit"] (fun _ => none) (fun _ => false) = Except.ok s1 ∧
      s1.stdout =
        "Input the action (add, remove, import, export, ask, exit, log, hardest card, reset stats):\nBye bye!\n" ∧
      s1.history =
        "Input the action (add, remove, import, export, ask, exit, log, hardest card, reset stats):\n" ∧
      s1.stdout ≠ s1.history :=
  ⟨_, rfl, rfl, rfl, by decide⟩

/-! ## Counting the wrong answers of a quiz -/

/-- While the count stays within the range of `int`, `n` increments add `n`. -/
theorem increments_eq_add : ∀ (n : Nat) (m : Int), isGoInt m → m + (n : Int) ≤ maxInt →
    increments n m = m + (n : Int) := by
  intro n
  induction n with
  | zero => intro m _ _; simp [increments]
  | succ n ih =>
    intro m hm hle
    have hne : m ≠ maxInt := by
      intro h; rw [h] at hle; push_cast at hle; omega
    have hstep : wrapInt (m + 1) = m + 1 := wrapInt_succ hm hne
    have hm1 : isGoInt (m + 1) := by
      unfold isGoInt minInt maxInt at *
      push_cast at hle
      omega
    simp only [increments, hstep]
    rw [ih (m + 1) hm1 (by push_cast at hle ⊢; omega)]
    push_cast; ring

theorem readLine_fst_eq_answerAt (s : State) : (readLine s).1 = answerAt s.input 0 := by
  unfold readLine answerAt
  cases h : s.input with
  | nil => simp
  | cons line rest => simp

theorem answerAt_drop_one (input : List String) (i : Nat) :
    answerAt (input.drop 1) i = answerAt input (i + 1) := by
  unfold answerAt
  cases input with
  | nil => simp
  | cons line rest => simp

/-- A completed quiz round consumes one line of input. -/
theorem TestCard_input {s s1 : State} {index : Int} (hrun : TestCard s index = Except.ok s1) :
    s1.input = s.input.drop 1 := by
  unfold TestCard at hrun
  cases hcard : cardAt s.cards index with
  | error e => simp [hcard] at hrun
  | ok card =>
    simp only [hcard] at hrun
    split at hrun
    · rw [← Except.ok.inj hrun]; simp
    · split at hrun
      · exact Except.noConfusion hrun
      · split at hrun
        · split at hrun
          · exact Except.noConfusion hrun
          · rw [← Except.ok.inj hrun]; simp
        · rw [← Except.ok.inj hrun]; simp

theorem countP_range_succ (p : Nat → Bool) (r : Nat) :
    (List.range (r + 1)).countP p =
      (if p 0 then 1 else 0) + (List.range r).countP (fun t => p (t + 1)) := by
  rw [List.range_succ_eq_map, List.countP_cons, List.countP_map, Nat.add_comm]
  rfl

/-- What the loop of `Ask` makes of every card: started at round number `i0`
with `r` rounds to go on a non-empty store, it completes, keeps the length of
the store, and the card at index `j` ends with its count incremented once for
every round on index `j` with a wrong answer. -/
theorem AskLoop_counts (size : Nat) (hsize : 0 < size) :
    ∀ (r i0 : Nat) (st : State), st.cards.length = size →
      ∃ st1 : State, AskLoop r (i0 : Int) st = Except.ok st1 ∧ st1.cards.length = size ∧
        ∀ (j : Nat) (card : Flashcard), st.cards[j]? = some card →
          st1.cards[j]? = some ⟨card.Term, card.Definition, increments
            ((List.range r).countP (fun t => decide ((i0 + t) % size = j) &&
              decide (answerAt st.input t ≠ card.Definition))) card.Mistakes⟩ := by
  intro r
  induction r with
  | zero =>
    intro i0 st hlen
    refine ⟨st, rfl, hlen, ?_⟩
    intro j card hj
    simp only [List.range_zero, List.countP_nil, increments]
    exact hj
  | succ r ih =>
    intro i0 st hlen
    have hidx : i0 % size < st.cards.length := by rw [hlen]; exact Nat.mod_lt _ hsize
    obtain ⟨card0, hcard0⟩ : ∃ card, st.cards[i0 % size]? = some card :=
      ⟨st.cards[i0 % size], List.getElem?_eq_getElem hidx⟩
    obtain ⟨st', hrun, hcards', hlen'⟩ := TestCard_total hcard0
    have hinput : st'.input = st.input.drop 1 := TestCard_input hrun
    obtain ⟨st1, hloop, hlen1, hcount⟩ := ih (i0 + 1) st' (hlen'.trans hlen)
    have hne : ¬ st.cards.length = 0 := by omega
    have hcast : ((i0 : Int) + 1) = ((i0 + 1 : Nat) : Int) := by push_cast; rfl
    have hmod : Int.tmod (i0 : Int) (st.cards.length : Int) = ((i0 % size : Nat) : Int) := by
      rw [hlen]; exact (Int.ofNat_tmod i0 size).symm
    refine ⟨st1, ?_, hlen1, ?_⟩
    · rw [AskLoop]
      simp only [hne, if_false, hmod, hrun, hcast]
      exact hloop
    · intro j card hj
      rw [countP_range_succ]
      simp only [Nat.add_zero, ← readLine_fst_eq_answerAt]
      have hshift : (List.range r).countP (fun t => decide ((i0 + (t + 1)) % size = j) &&
            decide (answerAt st.input (t + 1) ≠ card.Definition))
          = (List.range r).countP (fun t => decide ((i0 + 1 + t) % size = j) &&
            decide (answerAt st'.input t ≠ card.Definition)) := by
        congr 1
        funext t
        rw [hinput, answerAt_drop_one]
        have : i0 + (t + 1) = i0 + 1 + t := by omega
        rw [this]
      rw [hshift]
      by_cases hwrong : (i0 % size = j) ∧ (readLine st).1 ≠ card.Definition
      · obtain ⟨hj0, hans⟩ := hwrong
        have hsame : card0 = card := by
          rw [hj0, hj] at hcard0; simpa using hcard0.symm
        subst hsame
        have hst' : st'.cards[j]? = some { card0 with Mistakes := wrapInt (card0.Mistakes + 1) } := by
          rw [hcards', if_neg hans, hj0, List.getElem?_set]
          have : j < st.cards.length := by rw [← hj0]; exact hidx
          simp [this]
        have := hcount j _ hst'
        simp only at this
        rw [this]
        have hp : (decide (i0 % size = j) && decide ((readLine st).1 ≠ card0.Definition)) = true := by
          simp [hj0, hans]
        simp only [hp, if_true, Nat.add_comm 1, increments]
      · have hst' : st'.cards[j]? = some card := by
          rw [hcards']
          by_cases hans : (readLine st).1 = card0.Definition
          · rw [if_pos hans]; exact hj
          · rw [if_neg hans, List.getElem?_set]
            have hjne : ¬ i0 % size = j := by
              intro hj0
              apply hwrong
              refine ⟨hj0, ?_⟩
              have hsame : card0 = card := by
                rw [hj0, hj] at hcard0; simpa using hcard0.symm
              rw [← hsame]; exact hans
            simp [hjne, hj]
        have := hcount j _ hst'
        rw [this]
        have hp : (decide (i0 % size = j) && decide ((readLine st).1 ≠ card.Definition)) = false := by
          simp only [Bool.and_eq_false_iff, decide_eq_false_iff_not]
          by_cases h1 : i0 % size = j
          · right; intro h2; exact hwrong ⟨h1, h2⟩
          · left; exact h1
        simp only [hp, Bool.false_eq_true, if_false, Nat.zero_add]

theorem totalMistakes_set : ∀ (cards : List Flashcard) (k : Nat) (c c1 : Flashcard),
    cards[k]? = some c →
      totalMistakes (cards.set k c1) = totalMistakes cards - c.Mistakes + c1.Mistakes := by
  intro cards
  induction cards with
  | nil => intro k c c1 h; simp at h
  | cons x xs ih =>
    intro k c c1 h
    cases k with
    | zero =>
      simp only [List.getElem?_cons_zero, Option.some.injEq] at h
      subst h
      simp only [totalMistakes, List.set_cons_zero, List.map_cons, List.sum_cons]
      omega
    | succ k =>
      simp only [List.getElem?_cons_succ] at h
      have := ih k c c1 h
      simp only [totalMistakes, List.set_cons_succ, List.map_cons, List.sum_cons] at this ⊢
      omega

/-- While no count can overflow, every round with a wrong answer adds one to
the sum of the mistake counts and every other round leaves it as it is. -/
theorem AskLoop_total (size : Nat) :
    ∀ (r i0 : Nat) (st st1 : State), st.cards.length = size →
      (∀ c ∈ st.cards, isGoInt c.Mistakes ∧ c.Mistakes + (r : Int) ≤ maxInt) →
      AskLoop r (i0 : Int) st = Except.ok st1 →
      totalMistakes st1.cards = totalMistakes st.cards +
        ((List.range r).countP (fun t =>
          decide ((definitions st.cards)[(i0 + t) % size]? ≠ some (answerAt st.input t))) : Nat) := by
  intro r
  induction r with
  | zero =>
    intro i0 st st1 _ _ hrun
    simp only [AskLoop, Except.ok.injEq] at hrun
    rw [← hrun]; simp
  | succ r ih =>
    intro i0 st st1 hlen hbound hrun
    rw [AskLoop] at hrun
    split at hrun
    · exact Except.noConfusion hrun
    · rename_i hne
      have hsize : 0 < size := by omega
      have hmod : Int.tmod (i0 : Int) (st.cards.length : Int) = ((i0 % size : Nat) : Int) := by
        rw [hlen]; exact (Int.ofNat_tmod i0 size).symm
      have hidx : i0 % size < st.cards.length := by rw [hlen]; exact Nat.mod_lt _ hsize
      obtain ⟨card0, hcard0⟩ : ∃ card, st.cards[i0 % size]? = some card :=
        ⟨st.cards[i0 % size], List.getElem?_eq_getElem hidx⟩
      obtain ⟨st', hround, hcards', hlen'⟩ := TestCard_total hcard0
      rw [hmod, hround] at hrun
      have hcast : ((i0 : Int) + 1) = ((i0 + 1 : Nat) : Int) := by push_cast; rfl
      simp only [hcast] at hrun
      have hinput : st'.input = st.input.drop 1 := TestCard_input hround
      have hdefs : definitions st'.cards = definitions st.cards := (TestCard_keeps hround).2
      have hb0 := hbound card0 (List.getElem?_mem hcard0)
      have hne0 : card0.Mistakes ≠ maxInt := by
        intro h; have := hb0.2; rw [h] at this; push_cast at this; omega
      have hstep : wrapInt (card0.Mistakes + 1) = card0.Mistakes + 1 := wrapInt_succ hb0.1 hne0
      have hbound' : ∀ c ∈ st'.cards, isGoInt c.Mistakes ∧ c.Mistakes + (r : Int) ≤ maxInt := by
        intro c hc
        rw [hcards'] at hc
        have hold : ∀ c ∈ st.cards, isGoInt c.Mistakes ∧ c.Mistakes + (r : Int) ≤ maxInt := by
          intro c hc
          have := hbound c hc
          push_cast at this
          exact ⟨this.1, by omega⟩
        split at hc
        · exact hold c hc
        · rcases List.mem_or_eq_of_mem_set hc with hc | hc
          · exact hold c hc
          · rw [hc]
            simp only [hstep]
            have h2 := hb0.2
            have h1 := hb0.1
            unfold isGoInt minInt maxInt at *
            push_cast at h2
            exact ⟨⟨by omega, by omega⟩, by omega⟩
      have hrec := ih (i0 + 1) st' st1 (hlen'.trans hlen) hbound' hrun
      rw [hrec, countP_range_succ, hdefs, hinput]
      have hshift : (List.range r).countP (fun t =>
            decide ((definitions st.cards)[(i0 + 1 + t) % size]? ≠
              some (answerAt (st.input.drop 1) t)))
          = (List.range r).countP (fun t =>
            decide ((definitions st.cards)[(i0 + (t + 1)) % size]? ≠
              some (answerAt st.input (t + 1)))) := by
        congr 1
        funext t
        rw [answerAt_drop_one]
        have : i0 + 1 + t = i0 + (t + 1) := by omega
        rw [this]
      rw [hshift]
      have hdef0 : (definitions st.cards)[(i0 + 0) % size]? = some card0.Definition := by
        simp [definitions, hcard0]
      simp only [hdef0, ← readLine_fst_eq_answerAt, ne_eq, Option.some.injEq]
      by_cases hans : (readLine st).1 = card0.Definition
      · have hst' : st'.cards = st.cards := by rw [hcards', if_pos hans]
        rw [hst']
        simp [hans]
      · have hst' : st'.cards
            = st.cards.set (i0 % size) { card0 with Mistakes := wrapInt (card0.Mistakes + 1) } := by
          rw [hcards', if_neg hans]
        rw [hst', totalMistakes_set _ _ _ _ hcard0]
        have hans' : ¬ card0.Definition = (readLine st).1 := fun h => hans h.symm
        simp only [hstep, hans', not_false_eq_true, decide_True, if_true]
        push_cast
        omega

/-- C20 as the code has it: on a non-empty store of size `size`, when
`Ask` reads the repetition count `number` it completes; the store keeps its
length, its terms, its definitions and its order; and the card at index `j`
ends with its mistake count incremented, in Go `int` arithmetic, once for
every round `i < number` with `i mod size = j` whose answer differs from the
definition of that card.  The count has grown by exactly that number whenever
the sum stays within the range of `int`; and when no count can overflow in
`number` rounds, the sum of all mistake counts has grown by exactly the number
of wrong answers, which is at most `number`. -/
theorem Ask_counts_wrong_answers (s : State) (number : Int) (s2 : State) (hne : s.cards ≠ [])
    (hnum : readNumber (askPrompted s) = Except.ok (number, s2)) :
    ∃ s1 : State, Ask s = Except.ok s1 ∧
      s1.cards.length = s.cards.length ∧ terms s1.cards = terms s.cards ∧
      definitions s1.cards = definitions s.cards ∧
      (∀ (j : Nat) (card : Flashcard), s.cards[j]? = some card →
        s1.cards[j]? = some ⟨card.Term, card.Definition, increments
          (wrongRounds s.cards.length card.Definition s2.input j number.toNat) card.Mistakes⟩) ∧
      (∀ (j : Nat) (card : Flashcard), s.cards[j]? = some card → isGoInt card.Mistakes →
        card.Mistakes +
          (wrongRounds s.cards.length card.Definition s2.input j number.toNat : Int) ≤ maxInt →
        s1.cards[j]? = some ⟨card.Term, card.Definition, card.Mistakes +
          (wrongRounds s.cards.length card.Definition s2.input j number.toNat : Int)⟩) ∧
      ((∀ c ∈ s.cards, isGoInt c.Mistakes ∧ c.Mistakes + (number.toNat : Int) ≤ maxInt) →
        totalMistakes s1.cards =
          totalMistakes s.cards + (wrongAnswers s.cards s2.input number.toNat : Int)) ∧
      wrongAnswers s.cards s2.input number.toNat ≤ number.toNat := by
  have hsize : 0 < s.cards.length := List.length_pos.mpr hne
  have hcards : s2.cards = s.cards := by rw [readNumber_cards hnum, askPrompted_cards]
  obtain ⟨s1, hloop, hlen, hcount⟩ :=
    AskLoop_counts s.cards.length hsize number.toNat 0 s2 (by rw [hcards])
  have hrun : Ask s = Except.ok s1 := by rw [Ask_of_number hnum]; exact hloop
  have hkeep := Ask_keeps hrun
  have hper : ∀ (j : Nat) (card : Flashcard), s.cards[j]? = some card →
      s1.cards[j]? = some ⟨card.Term, card.Definition, increments
        (wrongRounds s.cards.length card.Definition s2.input j number.toNat) card.Mistakes⟩ := by
    intro j card hj
    have := hcount j card (by rw [hcards]; exact hj)
    simpa [wrongRounds] using this
  refine ⟨s1, hrun, hlen, hkeep.1, hkeep.2, hper, ?_, ?_, ?_⟩
  · intro j card hj hint hle
    rw [hper j card hj, increments_eq_add _ _ hint hle]
  · intro hbound
    have := AskLoop_total s.cards.length number.toNat 0 s2 s1 (by rw [hcards])
      (by rw [hcards]; exact hbound) hloop
    rw [hcards] at this
    simpa [wrongAnswers] using this
  · unfold wrongAnswers
    have h := List.countP_le_length
      (fun i => decide ((definitions s.cards)[i % s.cards.length]? ≠ some (answerAt s2.input i)))
      (l := List.range number.toNat)
    rw [List.length_range] at h
    exact h

theorem Ask_counts_wrong_answers_witness :
    ∃ s1 : State,
      Ask { initial ["3", "a feline", "wrong", "x"] (fun _ => none) (fun _ => false) with
          cards := [⟨"cat", "a feline", 0⟩, ⟨"dog", "a canine", 0⟩] } = Except.ok s1 ∧
      s1.cards[0]? = some ⟨"cat", "a feline", 0 + 1⟩ ∧
      s1.cards[1]? = some ⟨"dog", "a canine", 0 + 1⟩ ∧
      totalMistakes s1.cards = 0 + 2 := by
  have hnum : readNumber (askPrompted
      { initial ["3", "a feline", "wrong", "x"] (fun _ => none) (fun _ => false) with
        cards := [⟨"cat", "a feline", 0⟩, ⟨"dog", "a canine", 0⟩] }) = Except.ok (3, _) := rfl
  obtain ⟨s1, hrun, _, _, _, _, hexact, htotal, _⟩ :=
    Ask_counts_wrong_answers _ 3 _ (by decide) hnum
  exact ⟨s1, hrun, hexact 0 ⟨"cat", "a feline", 0⟩ rfl (by decide) (by decide),
    hexact 1 ⟨"dog", "a canine", 0⟩ rfl (by decide) (by decide), htotal (by decide)⟩

/-- Counterexample to C20 as stated: on the one card cat / a feline with the
largest `int` as its mistake count, `Ask` with one round and a wrong answer
leaves the smallest `int` as the count: the count has not grown by the one
wrong answer, and the sum of the counts has not grown by one. -/
theorem Ask_wrong_answer_wraps :
    ∃ s1 : State,
      Ask { initial ["1", "wrong"] (fun _ => none) (fun _ => false) with
          cards := [⟨"cat", "a feline", 9223372036854775807⟩] } = Except.ok s1 ∧
      s1.cards = [⟨"cat", "a feline", -9223372036854775808⟩] ∧
      wrongRounds 1 "a feline" ["wrong"] 0 1 = 1 ∧
      totalMistakes s1.cards ≠
        totalMistakes [⟨"cat", "a feline", 9223372036854775807⟩] + 1 :=
  ⟨_, rfl, by decide, by decide, by decide⟩

/-! ## The range of the mistake counts -/

theorem countsWithin_mono {b b1 : Int} {cards : List Flashcard} (h : countsWithin b cards)
    (hle : b ≤ b1) : countsWithin b1 cards := by
  intro c hc
  have := h c hc
  exact ⟨this.1, by omega⟩

theorem TestCard_countsWithin {s s1 : State} {index : Int} {b : Int}
    (hrun : TestCard s index = Except.ok s1) (h : countsWithin b s.cards) (hb : b < maxInt) :
    countsWithin (b + 1) s1.cards := by
  obtain ⟨k, card, hindex, hk⟩ := TestCard_ok_index hrun
  obtain ⟨s1', hrun', hcards, _⟩ := TestCard_total hk
  rw [hindex, hrun'] at hrun
  rw [← Except.ok.inj hrun, hcards]
  have hold : countsWithin (b + 1) s.cards := countsWithin_mono h (by omega)
  split
  · exact hold
  · intro c hc
    rcases List.mem_or_eq_of_mem_set hc with hc | hc
    · exact hold c hc
    · have hcard := h card (List.getElem?_mem hk)
      have hint : isGoInt card.Mistakes := by
        unfold isGoInt minInt maxInt at *
        omega
      have hne : card.Mistakes ≠ maxInt := by omega
      rw [hc]
      simp only [wrapInt_succ hint hne]
      omega

theorem AskLoop_countsWithin : ∀ (r : Nat) (i : Int) (s s1 : State) (b : Int),
    AskLoop r i s = Except.ok s1 → countsWithin b s.cards → b + (r : Int) ≤ maxInt →
      countsWithin (b + (r : Int)) s1.cards := by
  intro r
  induction r with
  | zero =>
    intro i s s1 b hrun h _
    simp only [AskLoop, Except.ok.injEq] at hrun
    rw [← hrun]
    simpa using h
  | succ r ih =>
    intro i s s1 b hrun h hle
    simp only [AskLoop] at hrun
    split at hrun
    · exact Except.noConfusion hrun
    · cases ht : TestCard s (Int.tmod i (s.cards.length : Int)) with
      | error e => simp [ht] at hrun
      | ok s2 =>
        simp only [ht] at hrun
        push_cast at hle
        have h2 := TestCard_countsWithin ht h (by omega)
        have := ih (i + 1) s2 s1 (b + 1) hrun h2 (by omega)
        have heq : b + 1 + (r : Int) = b + ((r + 1 : Nat) : Int) := by push_cast; ring
        rw [← heq]
        exact this

theorem Remove_mem {s s1 : State} (hrun : Remove s = Except.ok s1) :
    ∀ c ∈ s1.cards, c ∈ s.cards := by
  rcases Contains_cases s.cards (readLine s).1 false with ⟨n, c, hc, _, _, hres⟩ | ⟨_, hres⟩
  · have hn : n < s.cards.length := (List.getElem?_eq_some_iff.mp hc).1
    have hne : s.cards ≠ [] := by
      intro h0; rw [h0] at hn; exact absurd hn (by simp)
    obtain ⟨last, hlast⟩ : ∃ last, s.cards.getLast? = some last := by
      cases hl : s.cards.getLast? with
      | none => exact absurd (List.getLast?_eq_none_iff.mp hl) hne
      | some last => exact ⟨last, rfl⟩
    rw [Remove_found hres hn hlast] at hrun
    rw [← Except.ok.inj hrun]
    intro c1 hc1
    simp only [printLog_cards] at hc1
    rcases List.mem_or_eq_of_mem_set (List.mem_of_mem_dropLast hc1) with h | h
    · exact h
    · rw [h]; exact List.mem_of_mem_getLast? hlast
  · rw [Remove_missing (by rw [hres])] at hrun
    rw [← Except.ok.inj hrun]
    intro c1 hc1
    simpa using hc1

theorem upsert_mem {cards : List Flashcard} {card c : Flashcard}
    (hc : c ∈ upsert cards card) : c ∈ cards ∨ c = card := by
  rcases upsert_cases cards card with ⟨n, _, _, _, _, hset⟩ | ⟨_, happ⟩
  · rw [hset] at hc
    exact List.mem_or_eq_of_mem_set hc
  · rw [happ] at hc
    rcases List.mem_append.mp hc with h | h
    · exact Or.inl h
    · exact Or.inr (by simpa using h)

theorem foldl_upsert_mem : ∀ (newCards cards : List Flashcard) (c : Flashcard),
    c ∈ newCards.foldl upsert cards → c ∈ cards ∨ c ∈ newCards := by
  intro newCards
  induction newCards with
  | nil => intro cards c hc; exact Or.inl hc
  | cons x rest ih =>
    intro cards c hc
    rw [List.foldl_cons] at hc
    rcases ih (upsert cards x) c hc with h | h
    · rcases upsert_mem h with h1 | h1
      · exact Or.inl h1
      · exact Or.inr (by rw [h1]; exact List.mem_cons_self _ _)
    · exact Or.inr (List.mem_cons_of_mem _ h)

theorem foldl_upsert_countsWithin {b m : Int} {cards newCards : List Flashcard}
    (h : countsWithin b cards) (hnew : countsWithin m newCards) :
    countsWithin (max b m) (newCards.foldl upsert cards) := by
  intro c hc
  rcases foldl_upsert_mem newCards cards c hc with h1 | h1
  · exact countsWithin_mono h (le_max_left b m) c h1
  · exact countsWithin_mono hnew (le_max_right b m) c h1

theorem ImportFile_countsWithin {s s1 : State} {filename : String} {b m : Int}
    (hrun : ImportFile s filename = Except.ok s1) (h : countsWithin b s.cards)
    (hfile : ∀ l : List Flashcard, s.files filename = some (FileData.cardList l) →
      countsWithin m l) :
    countsWithin (max b m) s1.cards := by
  unfold ImportFile at hrun
  split at hrun
  · have hs1 := Except.ok.inj hrun
    rw [← hs1]
    simpa using countsWithin_mono h (le_max_left b m)
  · exact Except.noConfusion hrun
  · rename_i cardsFromFile hf
    simp only [printLog_cards, Update_eq_foldl, Except.ok.injEq] at hrun
    rw [← hrun]
    exact foldl_upsert_countsWithin h (hfile cardsFromFile hf)

theorem ReachableBounded_countsWithin {b : Int} {s : State} (h : ReachableBounded b s) :
    0 ≤ b ∧ (b ≤ maxInt → countsWithin b s.cards) := by
  induction h with
  | start input files readOnly =>
    refine ⟨le_refl 0, ?_⟩
    intro _ c hc
    simp [initial] at hc
  | environment input files readOnly _ ih => exact ih
  | add _ hrun ih =>
    refine ⟨ih.1, ?_⟩
    intro hle
    obtain ⟨card, hc, hzero, _, _⟩ := Add_ok hrun
    rw [hc]
    intro c hmem
    rcases List.mem_append.mp hmem with hmem | hmem
    · exact ih.2 hle c hmem
    · have : c = card := by simpa using hmem
      rw [this, hzero]
      exact ⟨le_refl 0, ih.1⟩
  | remove _ hrun ih =>
    refine ⟨ih.1, ?_⟩
    intro hle c hc
    exact ih.2 hle c (Remove_mem hrun c hc)
  | @importCommand b s s1 m _ hfile hrun ih =>
    refine ⟨le_trans ih.1 (le_max_left b m), ?_⟩
    intro hle
    have hb : b ≤ maxInt := le_trans (le_max_left b m) hle
    unfold Import at hrun
    dsimp only at hrun
    refine ImportFile_countsWithin hrun ?_ ?_
    · simpa [readFilename] using ih.2 hb
    · intro l hl
      apply hfile l
      simpa [readFilename] using hl
  | @importFile b s s1 filename m _ hfile hrun ih =>
    refine ⟨le_trans ih.1 (le_max_left b m), ?_⟩
    intro hle
    exact ImportFile_countsWithin hrun (ih.2 (le_trans (le_max_left b m) hle)) hfile
  | @update b s newCards cards1 m _ hnew hrun ih =>
    refine ⟨le_trans ih.1 (le_max_left b m), ?_⟩
    intro hle
    rw [Update_eq_foldl] at hrun
    have hcards := Except.ok.inj hrun
    show countsWithin (max b m) cards1
    rw [← hcards]
    exact foldl_upsert_countsWithin (ih.2 (le_trans (le_max_left b m) hle)) hnew
  | @ask b s s1 s2 number _ hnum hrun ih =>
    refine ⟨by omega, ?_⟩
    intro hle
    have hcards : s2.cards = s.cards := by rw [readNumber_cards hnum, askPrompted_cards]
    rw [Ask_of_number hnum] at hrun
    exact AskLoop_countsWithin _ _ _ _ b hrun (by rw [hcards]; exact ih.2 (by omega)) hle
  | reset _ ih =>
    refine ⟨ih.1, ?_⟩
    intro hle c hc
    simp only [Reset, printLog_cards, List.mem_map] at hc
    obtain ⟨c0, _, hc0⟩ := hc
    rw [← hc0]
    exact ⟨le_refl 0, ih.1⟩
  | hardest _ ih => rw [Hardest_cards]; exact ih
  | exportCommand _ hrun ih => rw [Export_cards hrun]; exact ih
  | log _ hrun ih => rw [Log_cards hrun]; exact ih

/-- C18 as the code has it: in every store reachable from the empty
store by add, remove, import (by command, by the start-up flag, or `Update`
with an imported list), ask, reset stats and the commands that leave the store
alone, where every imported card list has mistake counts between zero and some
`m`, every mistake count is non-negative, as long as the bound `b` of the run
(zero at the start, raised to the larger of itself and `m` by such an import,
raised by the number of rounds by every ask) is at most the largest `int`; the
counts are at most `b`. -/
theorem reachable_counts_nonnegative (b : Int) (s : State)
    (hreach : ReachableBounded b s) (hb : b ≤ maxInt) :
    ∀ c ∈ s.cards, 0 ≤ c.Mistakes ∧ c.Mistakes ≤ b :=
  (ReachableBounded_countsWithin hreach).2 hb

theorem reachable_counts_nonnegative_witness :
    ∃ s1 : State,
      ReachableBounded (max 0 3 + ((2 : Int).toNat : Int)) s1 ∧
      s1.cards = [⟨"cat", "a feline", 1⟩, ⟨"dog", "a canine", 3⟩] ∧
      ∀ c ∈ s1.cards, 0 ≤ c.Mistakes ∧ c.Mistakes ≤ max 0 3 + ((2 : Int).toNat : Int) := by
  obtain ⟨sA, hadd, hfile, sB, himport, s2, hnum, s1, hask, hcards⟩ :
      ∃ sA : State,
        Add (initial ["cat", "a feline", "2", "x", "a canine"]
          (fun f => if f = "cards.json" then
            some (FileData.cardList [⟨"dog", "a canine", 3⟩]) else none)
          (fun _ => false)) = Except.ok sA ∧
        sA.files "cards.json" = some (FileData.cardList [⟨"dog", "a canine", 3⟩]) ∧
        ∃ sB : State, ImportFile sA "cards.json" = Except.ok sB ∧
        ∃ s2 : State, readNumber (askPrompted sB) = Except.ok (2, s2) ∧
        ∃ s1 : State, Ask sB = Except.ok s1 ∧
          s1.cards = [⟨"cat", "a feline", 1⟩, ⟨"dog", "a canine", 3⟩] :=
    ⟨_, rfl, rfl, _, rfl, _, rfl, _, rfl, by decide⟩
  have hcounts : ∀ l : List Flashcard, sA.files "cards.json" = some (FileData.cardList l) →
      countsWithin 3 l := by
    intro l hl
    rw [hfile] at hl
    have hl1 : [(⟨"dog", "a canine", 3⟩ : Flashcard)] = l :=
      FileData.cardList.inj (Option.some.inj hl)
    rw [← hl1]
    intro c hc
    rw [List.mem_singleton.mp hc]
    decide
  have hreach := ReachableBounded.ask 2
    (ReachableBounded.importFile "cards.json" 3
      (ReachableBounded.add (ReachableBounded.start _ _ _) hadd) hcounts himport) hnum hask
  exact ⟨s1, hreach, hcards, reachable_counts_nonnegative _ _ hreach (by decide)⟩

/-- Counterexample to C18 as stated: importing, into the empty store, a file
whose card has the mistake count -1 gives a reachable store with a negative
count.  Imported counts that are all non-negative do not save the claim:
after the import of a card whose count is the largest `int`, one wrong answer
makes the increment wrap around to the smallest `int`.  The bound of that run
is the largest `int` plus one.  The program runs through it from start to
`exit`. -/
theorem reachable_negative_count :
    (∃ s : State,
      ImportFile
        (initial []
          (fun f => if f = "cards.json" then
            some (FileData.cardList [⟨"cat", "a feline", -1⟩]) else none)
          (fun _ => false)) "cards.json" = Except.ok s ∧
      Reachable true s ∧ s.cards = [⟨"cat", "a feline", -1⟩] ∧
      ∃ c ∈ s.cards, c.Mistakes < 0) ∧
    (∃ sA s : State,
      ImportFile
        (initial ["1", "wrong"]
          (fun f => if f = "cards.json" then
            some (FileData.cardList [⟨"cat", "a feline", 9223372036854775807⟩]) else none)
          (fun _ => false)) "cards.json" = Except.ok sA ∧
      sA.cards = [⟨"cat", "a feline", 9223372036854775807⟩] ∧
      countsWithin maxInt sA.cards ∧
      Ask sA = Except.ok s ∧
      Reachable true s ∧ ReachableBounded (max 0 maxInt + ((1 : Int).toNat : Int)) s ∧
      s.cards = [⟨"cat", "a feline", -9223372036854775808⟩] ∧
      ∃ c ∈ s.cards, c.Mistakes < 0) ∧
    (∃ s : State,
      main "" "" ["import", "cards.json", "ask", "1", "wrong", "exit"]
        (fun f => if f = "cards.json" then
          some (FileData.cardList [⟨"cat", "a feline", 9223372036854775807⟩]) else none)
        (fun _ => false) = Except.ok s ∧
      s.cards = [⟨"cat", "a feline", -9223372036854775808⟩] ∧
      ∃ c ∈ s.cards, c.Mistakes < 0) := by
  refine ⟨?_, ?_, ?_⟩
  · have hrun : ImportFile
        (initial []
          (fun f => if f = "cards.json" then
            some (FileData.cardList [⟨"cat", "a feline", -1⟩]) else none)
          (fun _ => false)) "cards.json" = Except.ok _ := rfl
    have hreach : Reachable true _ :=
      Reachable.importFile "cards.json" rfl (Reachable.start _ _ _) hrun
    exact ⟨_, hrun, hreach, by decide, by decide⟩
  · obtain ⟨sA, himport, hcardsA, s2, hnum, s, hask, hcards⟩ :
        ∃ sA : State,
          ImportFile
            (initial ["1", "wrong"]
              (fun f => if f = "cards.json" then
                some (FileData.cardList [⟨"cat", "a feline", 9223372036854775807⟩])
                else none)
              (fun _ => false)) "cards.json" = Except.ok sA ∧
          sA.cards = [⟨"cat", "a feline", 9223372036854775807⟩] ∧
          ∃ s2 : State, readNumber (askPrompted sA) = Except.ok (1, s2) ∧
          ∃ s : State, Ask sA = Except.ok s ∧
            s.cards = [⟨"cat", "a feline", -9223372036854775808⟩] :=
      ⟨_, rfl, by decide, _, rfl, _, rfl, by decide⟩
    have hwithin : countsWithin maxInt sA.cards := by
      rw [hcardsA]
      intro c hc
      rw [List.mem_singleton.mp hc]
      decide
    have hfile : ∀ l : List Flashcard,
        (initial ["1", "wrong"]
          (fun f => if f = "cards.json" then
            some (FileData.cardList [⟨"cat", "a feline", 9223372036854775807⟩]) else none)
          (fun _ => false)).files "cards.json" = some (FileData.cardList l) →
        countsWithin maxInt l := by
      intro l hl
      have hl1 : [(⟨"cat", "a feline", 9223372036854775807⟩ : Flashcard)] = l :=
        FileData.cardList.inj (Option.some.inj hl)
      rw [← hl1]
      intro c hc
      rw [List.mem_singleton.mp hc]
      decide
    have hreach : Reachable true s :=
      Reachable.ask (Reachable.importFile "cards.json" rfl (Reachable.start _ _ _) himport)
        hask
    have hbounded := ReachableBounded.ask 1
      (ReachableBounded.importFile "cards.json" maxInt (ReachableBounded.start _ _ _)
        hfile himport) hnum hask
    exact ⟨sA, s, himport, hcardsA, hwithin, hask, hreach, hbounded, hcards,
      ⟨_, by rw [hcards]; exact List.mem_singleton_self _, by decide⟩⟩
  · exact ⟨_, rfl, by decide, by decide⟩

/-! ## The rounds of `Ask`, round by round -/

/-- A completed quiz round on index `k` is the round the specification
describes for the card at index `k`. -/
theorem TestCard_roundOn {st st1 : State} {k : Nat}
    (hrun : TestCard st (k : Int) = Except.ok st1) : roundOn k st st1 := by
  obtain ⟨k1, card, hidx, hk1⟩ := TestCard_ok_index hrun
  have hkk : k1 = k := by omega
  rw [hkk] at hk1
  have hinput := TestCard_input hrun
  refine ⟨card, hk1, hinput, ?_⟩
  rw [← readLine_fst_eq_answerAt]
  by_cases hanswer : (readLine st).1 = card.Definition
  · left
    rw [TestCard_right hk1 hanswer] at hrun
    have hst := Except.ok.inj hrun
    refine ⟨hanswer, by rw [← hst]; simp, ?_, ?_⟩
    · rw [← hst]
      simp only [printLog_stdout, readLine_stdout, sprintf_roundPrompt, sprintf_correct,
        String.append_assoc]
    · rw [← hst]
      simp only [printLog_history, readLine_history, sprintf_roundPrompt, sprintf_correct,
        String.append_assoc]
  · right
    refine ⟨hanswer, ?_⟩
    rcases Contains_cases st.cards (readLine st).1 true with
      ⟨n, other, hn, hs, hmin, _⟩ | ⟨hall, _⟩
    · obtain ⟨_, s1, hrun1, hcards, hrep⟩ := TestCard_wrong_other hk1 hanswer hn
        (by simpa [side] using hs) (fun j c hj hc => by simpa [side] using hmin j c hj hc)
      rw [hrun1] at hrun
      have hst := Except.ok.inj hrun
      rw [hst] at hcards hrep
      refine ⟨hcards, ", but your definition is correct for \"" ++ other.Term ++ "\".\n", ?_⟩
      have hsplit : ("\", but your definition is correct for \"" : String)
          = "\"" ++ ", but your definition is correct for \"" := by decide
      rw [hsplit] at hrep
      simpa only [String.append_assoc] using hrep
    · obtain ⟨s1, hrun1, hcards, hrep⟩ := TestCard_wrong_plain hk1 hanswer
        (fun c hc => by simpa [side] using hall c hc)
      rw [hrun1] at hrun
      have hst := Except.ok.inj hrun
      rw [hst] at hcards hrep
      refine ⟨hcards, ".\n\n", ?_⟩
      have hsplit : ("\".\n\n" : String) = "\"" ++ ".\n\n" := by decide
      rw [hsplit] at hrep
      simpa only [String.append_assoc] using hrep

theorem quizRounds_roundsOn (size : Nat) : ∀ (l : List Nat) (st st1 : State),
    quizRounds size l st = Except.ok st1 → roundsOn size l st st1 := by
  intro l
  induction l with
  | nil =>
    intro st st1 h
    simp only [quizRounds, Except.ok.injEq] at h
    exact h.symm
  | cons i later ih =>
    intro st st1 h
    rw [quizRounds] at h
    cases ht : TestCard st ((i % size : Nat) : Int) with
    | error e => rw [ht] at h; exact Except.noConfusion h
    | ok mid =>
      rw [ht] at h
      exact ⟨mid, TestCard_roundOn ht, ih mid st1 h⟩

/-- C13: on a non-empty store of size `size`, when `Ask` reads the
repetition count `number` it completes, and what it does after reading the
count is exactly one quiz round for each `i` from 0 up to `number - 1`, in
order, round `i` on the card at index `i mod size`: the round prompts with the
term of that card, reads the answer and checks it against the definition of
that card (`Correct!` and an unchanged store when they are equal, one more
mistake for that card and a message with its definition when they differ).
The store keeps its length, and with a count of zero or less no round is
performed and nothing changes after the count is read. -/
theorem Ask_cycles_through_store (s : State) (number : Int) (s2 : State) (hne : s.cards ≠ [])
    (hnum : readNumber (askPrompted s) = Except.ok (number, s2)) :
    ∃ s1 : State, Ask s = Except.ok s1 ∧
      roundsOn s.cards.length (List.range number.toNat) s2 s1 ∧
      quizRounds s.cards.length (List.range number.toNat) s2 = Except.ok s1 ∧
      s1.cards.length = s.cards.length ∧
      (number ≤ 0 → s1 = s2 ∧ s1.cards = s.cards) := by
  have hsize : 0 < s.cards.length := List.length_pos.mpr hne
  have hcards : s2.cards = s.cards := by rw [readNumber_cards hnum, askPrompted_cards]
  obtain ⟨s1, hloop, hrounds, hlen⟩ :=
    AskLoop_eq_quizRounds s.cards.length hsize number.toNat 0 s2 (by rw [hcards])
  simp only [Nat.add_zero, List.map_id'] at hrounds
  refine ⟨s1, ?_, quizRounds_roundsOn _ _ _ _ hrounds, hrounds, hlen, ?_⟩
  · rw [Ask_of_number hnum]; exact hloop
  · intro hle
    have h0 : number.toNat = 0 := by omega
    rw [h0] at hloop
    have hs : s2 = s1 := by simpa [AskLoop] using hloop
    exact ⟨hs.symm, by rw [← hs, hcards]⟩

theorem Ask_cycles_through_store_witness :
    ∃ s2 s1 : State,
      readNumber (askPrompted
        { initial ["3", "a feline", "wrong", "x"] (fun _ => none) (fun _ => false) with
          cards := [⟨"cat", "a feline", 0⟩, ⟨"dog", "a canine", 0⟩] }) = Except.ok (3, s2) ∧
      Ask { initial ["3", "a feline", "wrong", "x"] (fun _ => none) (fun _ => false) with
          cards := [⟨"cat", "a feline", 0⟩, ⟨"dog", "a canine", 0⟩] } = Except.ok s1 ∧
      roundsOn 2 [0, 1, 2] s2 s1 ∧
      s1.cards = [⟨"cat", "a feline", 1⟩, ⟨"dog", "a canine", 1⟩] ∧
      s1.stdout = "How many times to ask?\n" ++
        "Print the definition of \"cat\":\nCorrect!\n" ++
        "Print the definition of \"dog\":\nWrong. The right answer is \"a canine\".\n\n" ++
        "Print the definition of \"cat\":\nWrong. The right answer is \"a feline\".\n\n" := by
  have hnum : readNumber (askPrompted
      { initial ["3", "a feline", "wrong", "x"] (fun _ => none) (fun _ => false) with
        cards := [⟨"cat", "a feline", 0⟩, ⟨"dog", "a canine", 0⟩] }) = Except.ok (3, _) := rfl
  have heval : Ask
      { initial ["3", "a feline", "wrong", "x"] (fun _ => none) (fun _ => false) with
        cards := [⟨"cat", "a feline", 0⟩, ⟨"dog", "a canine", 0⟩] } = Except.ok _ := rfl
  obtain ⟨s1, hrun, hrounds, _, _, _⟩ := Ask_cycles_through_store _ 3 _ (by decide) hnum
  have hs1 := hrun
  rw [heval] at hs1
  injection hs1 with hs1
  refine ⟨_, s1, hnum, hrun, hrounds, ?_, ?_⟩
  · rw [← hs1]; decide
  · rw [← hs1]; rfl

end Flashcards
